import Mathlib

/-!
Verification of the statistics-synchronisation utility
(scripts/sync-stats.js) of the skillwisp repository.

The script is shallowly embedded: filesystem trees become an inductive
type, JavaScript objects become association lists with last-write
update semantics, the line-anchored regular expressions of the script
become explicit backtracking matchers over lists of characters, and
the file-rewriting step becomes a pure text transformation together
with a written-or-not flag.  Filesystem reads that can throw are
modelled with Option results.
-/

namespace SyncStats

/-! ## Character classes (ECMAScript) -/

/-- ECMAScript whitespace class, as matched by a backslash-s atom in a
JavaScript regular expression (WhiteSpace together with
LineTerminator).  Names of real skill files only use the ASCII part,
but the full set is kept for fidelity. -/
def wsChar (c : Char) : Bool :=
  c.toNat = 32 || c.toNat = 9 || c.toNat = 10 || c.toNat = 13 ||
  c.toNat = 11 || c.toNat = 12 ||
  c.toNat = 0xa0 || c.toNat = 0x1680 ||
  (0x2000 ≤ c.toNat && c.toNat ≤ 0x200a) ||
  c.toNat = 0x2028 || c.toNat = 0x2029 ||
  c.toNat = 0x202f || c.toNat = 0x205f ||
  c.toNat = 0x3000 || c.toNat = 0xfeff

/-- ECMAScript digit class (backslash-d): exactly the ASCII digits. -/
def isDigitChar (c : Char) : Bool :=
  48 ≤ c.toNat && c.toNat ≤ 57

/-- A single or a double quotation mark, the bracket class of the
description pattern of parseSkillMetadata. -/
def isQuote (c : Char) : Bool :=
  c = '"' || c = Char.ofNat 39

theorem not_wsChar_of_isDigitChar {c : Char} (h : isDigitChar c = true) :
    wsChar c = false := by
  unfold isDigitChar at h
  unfold wsChar
  simp only [Bool.and_eq_true, decide_eq_true_eq] at h
  simp only [Bool.or_eq_false_iff, decide_eq_false_iff_not, Bool.and_eq_false_iff,
    decide_eq_false_iff_not, not_le]
  omega

/-- JavaScript String.prototype.trim: strip the whitespace class from
both ends. -/
def jsTrim (l : List Char) : List Char :=
  ((l.dropWhile wsChar).reverse.dropWhile wsChar).reverse

/-! ## JavaScript objects as association lists

A JavaScript object with string keys is modelled as an association
list whose keys are unique; assigning to an existing key overwrites
its value in place (keeping the original insertion position, as JS
does), assigning to a fresh key appends it. -/

/-- Property read: first (and, with unique keys, only) binding. -/
def objGet {α : Type} (m : List (String × α)) (k : String) : Option α :=
  (m.find? (fun p => p.1 == k)).map Prod.snd

/-- Property write with JS object semantics. -/
def objSet {α : Type} (m : List (String × α)) (k : String) (v : α) : List (String × α) :=
  if m.any (fun p => p.1 == k) then
    m.map (fun p => if p.1 == k then (k, v) else p)
  else m ++ [(k, v)]

/-! ## JavaScript string primitives used by the script -/

/-- JavaScript String.prototype.startsWith. -/
def jsStartsWith (s pre : String) : Bool :=
  pre.toList.isPrefixOf s.toList

/-- JavaScript String.prototype.slice(1): drop the first character. -/
def jsSlice1 (s : String) : String :=
  String.mk (s.toList.drop 1)

/-! ## The filesystem model

A directory's contents are a list of named nodes.  readdirSync with
withFileTypes yields the child list; existsSync of dir/NAME is the
presence of a child named NAME of either kind; readFileSync succeeds
exactly on file nodes (on a directory it throws, which the model
renders as Option.none). -/

inductive FsNode where
  | file : String → String → FsNode
  | dir : String → List FsNode → FsNode

def FsNode.name : FsNode → String
  | .file n _ => n
  | .dir n _ => n

def FsNode.isDirectory : FsNode → Bool
  | .file _ _ => false
  | .dir _ _ => true

def FsNode.children : FsNode → List FsNode
  | .file _ _ => []
  | .dir _ c => c

/-- existsSync of dir/nm given the child list of dir: any node with
that name, file or directory. -/
def hasEntry (childList : List FsNode) (nm : String) : Bool :=
  childList.any (fun c => c.name == nm)

/-- Resolve a component path inside a child list (models path.join
followed by the corresponding filesystem lookup; real directory entry
names cannot contain the path separator). -/
def resolveIn : List String → List FsNode → Option FsNode
  | [], _ => none
  | [c], ns => ns.find? (fun n => n.name == c)
  | c :: c2 :: rest, ns =>
      match ns.find? (fun n => n.name == c) with
      | some (FsNode.dir _ ch) => resolveIn (c2 :: rest) ch
      | _ => none

/-- The skills root: none models a missing root directory
(existsSync false). -/
abbrev FsRoot := Option (List FsNode)

def resolveRoot (root : FsRoot) (p : List String) : Option FsNode :=
  match root with
  | none => none
  | some ns => resolveIn p ns

/-- readFileSync, returning none where the script would throw. -/
def readFileAt (root : FsRoot) (p : List String) : Option String :=
  match resolveRoot root p with
  | some (FsNode.file _ content) => some content
  | _ => none

def existsAt (root : FsRoot) (p : List String) : Bool :=
  (resolveRoot root p).isSome

/-! ## scanSkillDirs (sync-stats.js lines 43-79)

Paths are represented by their component lists relative to the skills
root; a result entry [at-source-dir, id-dir, SKILL.md] stands for the
joined path skillsDir/@source/id/SKILL.md. -/

structure BrokenDir where
  source : String
  id : String
  dir : List String
deriving DecidableEq

/-- Inner loop of scanSkillDirs over the entries of one source
directory: directories with a SKILL.md entry are emitted as results,
directories without one as broken records, files are skipped. -/
def scanChildren (srcName : String) : List FsNode → List (List String) × List BrokenDir
  | [] => ([], [])
  | ch :: rest =>
      let (rs, bs) := scanChildren srcName rest
      if ch.isDirectory then
        if hasEntry ch.children "SKILL.md" then
          ((srcName :: ch.name :: ["SKILL.md"]) :: rs, bs)
        else
          (rs, { source := jsSlice1 srcName, id := ch.name,
                 dir := [srcName, ch.name] } :: bs)
      else (rs, bs)

/-- Outer loop of scanSkillDirs over the first-level entries: only
directories whose name starts with the at-sign are scanned. -/
def scanSources : List FsNode → List (List String) × List BrokenDir
  | [] => ([], [])
  | e :: rest =>
      let (rs, bs) := scanSources rest
      if e.isDirectory && jsStartsWith e.name "@" then
        let (r1, b1) := scanChildren e.name e.children
        (r1 ++ rs, b1 ++ bs)
      else (rs, bs)

/-- scanSkillDirs: a missing root yields empty results and is not an
error. -/
def scanSkillDirs (root : FsRoot) : List (List String) × List BrokenDir :=
  match root with
  | none => ([], [])
  | some entries => scanSources entries

/-! ## parseSkillMetadata (sync-stats.js lines 84-100)

The script matches content against the anchored pattern
three-dashes newline (lazy any) newline three-dashes, then inside the
captured block matches the multiline patterns
line-start name colon ws-star (captured one-or-more non-newline) eol
and
line-start description colon ws-star optional-quote
(lazy captured one-or-more non-newline) optional-quote ws-star eol.
The matchers below implement exactly these patterns with JavaScript
backtracking order (greedy ws-star tried longest first, lazy group
tried shortest first, optional quote tried present first, leftmost
line wins). -/

/-- Text strictly before the first occurrence of pat, if pat occurs
(the lazy group of the frontmatter pattern). -/
def beforeFirst (pat : List Char) : List Char → Option (List Char)
  | [] => if pat.isEmpty then some [] else none
  | c :: rest =>
      if pat.isPrefixOf (c :: rest) then some []
      else (beforeFirst pat rest).map (c :: ·)

/-- The frontmatter block: content must begin with three dashes and a
newline; the block runs to the first later newline-three-dashes. -/
def extractFrontmatter (content : List Char) : Option (List Char) :=
  if ("---\n".toList).isPrefixOf content then
    beforeFirst "\n---".toList (content.drop 4)
  else none

/-- Split at newlines (n newlines yield n+1 pieces, as the positions
where a multiline caret can anchor). -/
def splitNl : List Char → List (List Char)
  | [] => [[]]
  | c :: rest =>
      if c = '\n' then [] :: splitNl rest
      else
        match splitNl rest with
        | [] => [[c]]
        | l :: ls => (c :: l) :: ls

/-- From the line decomposition, the suffix of the whole text starting
at each line start (the candidate positions of a multiline anchored
match, in leftmost order). -/
def suffixesOfLines : List (List Char) → List (List Char)
  | [] => []
  | [l] => [l]
  | l :: l2 :: ls =>
      match suffixesOfLines (l2 :: ls) with
      | [] => [l]
      | t :: ts => (l ++ '\n' :: t) :: t :: ts

/-- First success of the value matcher over the line-start positions
whose text begins with the key (leftmost match of the multiline
anchored pattern). -/
def scanKeyed (key : List Char) (matcher : List Char → Option (List Char))
    (s : List Char) : Option (List Char) :=
  (suffixesOfLines (splitNl s)).foldr
    (fun suf acc =>
      match (if key.isPrefixOf suf then matcher (suf.drop key.length) else none) with
      | some g => some g
      | none => acc)
    none

/-- Greedy dot-plus up to the end of the line: the maximal nonempty
run of non-newline characters (the following eol anchor then always
holds). -/
def matchDotPlus (u : List Char) : Option (List Char) :=
  let g := u.takeWhile (fun c => c != '\n')
  if g.isEmpty then none else some g

/-- Backtracking over the greedy ws-star of the name pattern: try
consuming a whitespace characters first (longest first), then fewer. -/
def nameFrom (t : List Char) : Nat → Option (List Char)
  | 0 => matchDotPlus t
  | a + 1 =>
      match matchDotPlus (t.drop (a + 1)) with
      | some g => some g
      | none => nameFrom t a

/-- Value matcher of the name pattern ws-star (captured dot-plus) eol,
applied to the text following the key.  Note: no quote stripping. -/
def matchNameVal (t : List Char) : Option (List Char) :=
  nameFrom t (t.takeWhile wsChar).length

/-- ws-star eol: some run of whitespace ends the line or the text. -/
def matchWsEol : List Char → Bool
  | [] => true
  | c :: rest => if c = '\n' then true else if wsChar c then matchWsEol rest else false

/-- What must follow the lazy captured group: an optional closing
quote (preferred) and then ws-star eol. -/
def matchDescTail (w : List Char) : Bool :=
  match w with
  | [] => true
  | c :: rest => (isQuote c && matchWsEol rest) || matchWsEol (c :: rest)

/-- The lazy group: captures of length i, i+1, ... i+fuel are tried in
that order, shortest first. -/
def tryLazy (v : List Char) : Nat → Nat → Option (List Char)
  | i, 0 => if matchDescTail (v.drop i) then some (v.take i) else none
  | i, fuel + 1 =>
      if matchDescTail (v.drop i) then some (v.take i)
      else tryLazy v (i + 1) fuel

/-- optional-quote (lazy dot-plus) optional-quote ws-star eol at a
fixed position; the opening quote is consumed when present (greedy
option), else the group starts immediately. -/
def matchDescAt (u : List Char) : Option (List Char) :=
  let tryHere : List Char → Option (List Char) := fun v =>
    let r := (v.takeWhile (fun c => c != '\n')).length
    if r = 0 then none else tryLazy v 1 (r - 1)
  match u with
  | [] => none
  | c :: rest =>
      if isQuote c then
        match tryHere rest with
        | some g => some g
        | none => tryHere (c :: rest)
      else tryHere (c :: rest)

/-- Backtracking over the leading greedy ws-star of the description
pattern. -/
def descFrom (t : List Char) : Nat → Option (List Char)
  | 0 => matchDescAt t
  | a + 1 =>
      match matchDescAt (t.drop (a + 1)) with
      | some g => some g
      | none => descFrom t a

/-- Value matcher of the description pattern, applied to the text
following the key. -/
def matchDescVal (t : List Char) : Option (List Char) :=
  descFrom t (t.takeWhile wsChar).length

/-- parseSkillMetadata: dirName is the basename of the marker file's
directory (the fallback name); content is the raw file text. -/
def parseSkillMetadata (dirName : String) (content : String) : String × String :=
  match extractFrontmatter content.toList with
  | none => (dirName, "")
  | some fm =>
      let nm := match scanKeyed "name:".toList matchNameVal fm with
        | some g => String.mk (jsTrim g)
        | none => dirName
      let ds := match scanKeyed "description:".toList matchDescVal fm with
        | some g => String.mk (jsTrim g)
        | none => ""
      (nm, ds)

/-! ## collectStats (sync-stats.js lines 105-133)

The scanner's result paths are relativised and split on the path
separator; with component-list paths (directory entry names cannot
contain the separator) that is the component list itself.  The
statsBySource object is an association list keyed by source.
readFileSync inside parseSkillMetadata can throw (for instance when a
SKILL.md entry is a directory), so the whole computation is
Option-valued, none standing for the uncaught exception. -/

structure Skill where
  id : String
  path : List String
  name : String
  description : String

def collectStatsGo (root : FsRoot) :
    List (List String) → List (String × List Skill) → Option (List (String × List Skill))
  | [], acc => some acc
  | p :: rest, acc =>
      match p with
      | [s, i, m] =>
          if jsStartsWith s "@" && m == "SKILL.md" then
            match readFileAt root p with
            | none => none
            | some content =>
                let meta := parseSkillMetadata i content
                let src := jsSlice1 s
                let sk : Skill := { id := i, path := p, name := meta.1,
                                    description := meta.2 }
                collectStatsGo root rest
                  (objSet acc src (((objGet acc src).getD []) ++ [sk]))
          else collectStatsGo root rest acc
      | _ => collectStatsGo root rest acc

def collectStats (root : FsRoot) :
    Option (List (String × List Skill) × List BrokenDir) :=
  let scanned := scanSkillDirs root
  (collectStatsGo root scanned.1 []).map (fun s => (s, scanned.2))

/-! ## The counts computed by main (sync-stats.js lines 366-383)

main sorts the keys and sums the per-source list lengths; sorting does
not change the number of keys nor the sum, so the counts are embedded
directly as the key count and the sum of lengths. -/

def totalCountOf (stats : List (String × List Skill)) : Nat :=
  stats.foldl (fun n p => n + p.2.length) 0

def sourceCountOf (stats : List (String × List Skill)) : Nat :=
  stats.length

/-! ## Specification-side counts for claim C1, written from the claim
text: marker files at exactly the second level of the fixed
root/at-source-dir/id-dir structure, and distinct first-level
at-directories containing at least one marker.  A marker is found the
way the scanner finds it, by an existsSync of id-dir/SKILL.md. -/

def isAtDir (e : FsNode) : Bool :=
  e.isDirectory && jsStartsWith e.name "@"

def isMarkerDir (c : FsNode) : Bool :=
  c.isDirectory && hasEntry c.children "SKILL.md"

def specTotalCount (root : FsRoot) : Nat :=
  match root with
  | none => 0
  | some es =>
      ((es.filter isAtDir).map (fun e => (e.children.filter isMarkerDir).length)).sum

def specSourceCount (root : FsRoot) : Nat :=
  match root with
  | none => 0
  | some es =>
      (((es.filter (fun e =>
        isAtDir e && decide ((e.children.filter isMarkerDir).length ≠ 0))).map
          FsNode.name).dedup).length

/-! ## Membership characterisation of the scanner output -/

theorem mem_scanChildren_results {n : String} {ch : List FsNode} {p : List String} :
    p ∈ (scanChildren n ch).1 ↔
      ∃ c ∈ ch, c.isDirectory = true ∧ hasEntry c.children "SKILL.md" = true ∧
        p = [n, c.name, "SKILL.md"] := by
  induction ch with
  | nil => simp [scanChildren]
  | cons c rest ih =>
      simp only [scanChildren]
      by_cases hd : c.isDirectory
      · by_cases hm : hasEntry c.children "SKILL.md"
        · simp only [hd, hm, if_true, List.mem_cons]
          rw [ih]
          constructor
          · rintro (h | ⟨c2, hc2, hrest⟩)
            · exact ⟨c, Or.inl rfl, hd, hm, h⟩
            · exact ⟨c2, Or.inr hc2, hrest⟩
          · rintro ⟨c2, hc2 | hc2, hdir, hment, hp⟩
            · subst hc2; exact Or.inl hp
            · exact Or.inr ⟨c2, hc2, hdir, hment, hp⟩
        · simp only [hd, hm, if_true, if_false, Bool.false_eq_true]
          rw [ih]
          simp only [List.mem_cons]
          constructor
          · rintro ⟨c2, hc2, h⟩
            exact ⟨c2, Or.inr hc2, h⟩
          · rintro ⟨c2, hc2 | hc2, hdir, hment, hp⟩
            · subst hc2; simp_all
            · exact ⟨c2, hc2, hdir, hment, hp⟩
      · simp only [hd, if_false, Bool.false_eq_true]
        rw [ih]
        simp only [List.mem_cons]
        constructor
        · rintro ⟨c2, hc2, h⟩
          exact ⟨c2, Or.inr hc2, h⟩
        · rintro ⟨c2, hc2 | hc2, hdir, hment, hp⟩
          · subst hc2; simp_all
          · exact ⟨c2, hc2, hdir, hment, hp⟩

theorem mem_scanChildren_broken {n : String} {ch : List FsNode} {b : BrokenDir} :
    b ∈ (scanChildren n ch).2 ↔
      ∃ c ∈ ch, c.isDirectory = true ∧ hasEntry c.children "SKILL.md" = false ∧
        b = { source := jsSlice1 n, id := c.name, dir := [n, c.name] } := by
  induction ch with
  | nil => simp [scanChildren]
  | cons c rest ih =>
      simp only [scanChildren]
      by_cases hd : c.isDirectory
      · by_cases hm : hasEntry c.children "SKILL.md"
        · simp only [hd, hm, if_true]
          rw [ih]
          simp only [List.mem_cons]
          constructor
          · rintro ⟨c2, hc2, h⟩
            exact ⟨c2, Or.inr hc2, h⟩
          · rintro ⟨c2, hc2 | hc2, hdir, hment, hp⟩
            · subst hc2; simp_all
            · exact ⟨c2, hc2, hdir, hment, hp⟩
        · simp only [hd, hm, if_true, Bool.false_eq_true, if_false, List.mem_cons]
          rw [ih]
          constructor
          · rintro (h | ⟨c2, hc2, hrest⟩)
            · exact ⟨c, Or.inl rfl, hd, by simp [hm], h⟩
            · exact ⟨c2, Or.inr hc2, hrest⟩
          · rintro ⟨c2, hc2 | hc2, hdir, hment, hp⟩
            · subst hc2; exact Or.inl hp
            · exact Or.inr ⟨c2, hc2, hdir, hment, hp⟩
      · simp only [hd, if_false, Bool.false_eq_true]
        rw [ih]
        simp only [List.mem_cons]
        constructor
        · rintro ⟨c2, hc2, h⟩
          exact ⟨c2, Or.inr hc2, h⟩
        · rintro ⟨c2, hc2 | hc2, hdir, hment, hp⟩
          · subst hc2; simp_all
          · exact ⟨c2, hc2, hdir, hment, hp⟩

theorem mem_scanSources_results {es : List FsNode} {p : List String} :
    p ∈ (scanSources es).1 ↔
      ∃ e ∈ es, e.isDirectory = true ∧ jsStartsWith e.name "@" = true ∧
        p ∈ (scanChildren e.name e.children).1 := by
  induction es with
  | nil => simp [scanSources]
  | cons e rest ih =>
      simp only [scanSources]
      by_cases ha : e.isDirectory && jsStartsWith e.name "@"
      · simp only [ha, if_true, List.mem_append]
        rw [ih]
        simp only [List.mem_cons, Bool.and_eq_true] at ha ⊢
        constructor
        · rintro (h | ⟨e2, he2, hrest⟩)
          · exact ⟨e, Or.inl rfl, ha.1, ha.2, h⟩
          · exact ⟨e2, Or.inr he2, hrest⟩
        · rintro ⟨e2, he2 | he2, hd, hs, hp⟩
          · subst he2; exact Or.inl hp
          · exact Or.inr ⟨e2, he2, hd, hs, hp⟩
      · simp only [ha, if_false, Bool.false_eq_true]
        rw [ih]
        simp only [List.mem_cons, Bool.and_eq_true] at ha ⊢
        constructor
        · rintro ⟨e2, he2, hrest⟩
          exact ⟨e2, Or.inr he2, hrest⟩
        · rintro ⟨e2, he2 | he2, hd, hs, hp⟩
          · subst he2; exact absurd ⟨hd, hs⟩ ha
          · exact ⟨e2, he2, hd, hs, hp⟩

theorem mem_scanSources_broken {es : List FsNode} {b : BrokenDir} :
    b ∈ (scanSources es).2 ↔
      ∃ e ∈ es, e.isDirectory = true ∧ jsStartsWith e.name "@" = true ∧
        b ∈ (scanChildren e.name e.children).2 := by
  induction es with
  | nil => simp [scanSources]
  | cons e rest ih =>
      simp only [scanSources]
      by_cases ha : e.isDirectory && jsStartsWith e.name "@"
      · simp only [ha, if_true, List.mem_append]
        rw [ih]
        simp only [List.mem_cons, Bool.and_eq_true] at ha ⊢
        constructor
        · rintro (h | ⟨e2, he2, hrest⟩)
          · exact ⟨e, Or.inl rfl, ha.1, ha.2, h⟩
          · exact ⟨e2, Or.inr he2, hrest⟩
        · rintro ⟨e2, he2 | he2, hd, hs, hp⟩
          · subst he2; exact Or.inl hp
          · exact Or.inr ⟨e2, he2, hd, hs, hp⟩
      · simp only [ha, if_false, Bool.false_eq_true]
        rw [ih]
        simp only [List.mem_cons, Bool.and_eq_true] at ha ⊢
        constructor
        · rintro ⟨e2, he2, hrest⟩
          exact ⟨e2, Or.inr he2, hrest⟩
        · rintro ⟨e2, he2 | he2, hd, hs, hp⟩
          · subst he2; exact absurd ⟨hd, hs⟩ ha
          · exact ⟨e2, he2, hd, hs, hp⟩

/-! ## Claims C8 and C10 -/

/-- C8: if the skills root directory does not exist, the scanner
returns an empty entry list and an empty broken list without raising,
and the derived counts are zero; the absence of the root is not an
error condition (collectStats succeeds with an empty table). -/
theorem C8_missing_root_not_error :
    scanSkillDirs none = ([], []) ∧ collectStats none = some ([], []) ∧
    totalCountOf [] = 0 ∧ sourceCountOf [] = 0 :=
  ⟨rfl, rfl, rfl, rfl⟩

/-- C10: for an existing skills root whose directory listings carry
unique names (as on a real filesystem), the scanner partitions the
candidates exactly: every second-level directory of an at-prefixed
first-level directory lands in exactly one of the entry list (when it
contains a SKILL.md entry) and the broken list (when it does not), and
everything in either output arises from such a candidate, so
non-directories and non-at first-level entries appear in neither. -/
theorem C10_scan_partition (es : List FsNode)
    (h1 : (es.map FsNode.name).Nodup)
    (h2 : ∀ e ∈ es, (e.children.map FsNode.name).Nodup) :
    (∀ e ∈ es, isAtDir e = true → ∀ c ∈ e.children, c.isDirectory = true →
      (hasEntry c.children "SKILL.md" = true ∧
        [e.name, c.name, "SKILL.md"] ∈ (scanSkillDirs (some es)).1 ∧
        ({ source := jsSlice1 e.name, id := c.name, dir := [e.name, c.name] } : BrokenDir) ∉
          (scanSkillDirs (some es)).2) ∨
      (hasEntry c.children "SKILL.md" = false ∧
        [e.name, c.name, "SKILL.md"] ∉ (scanSkillDirs (some es)).1 ∧
        ({ source := jsSlice1 e.name, id := c.name, dir := [e.name, c.name] } : BrokenDir) ∈
          (scanSkillDirs (some es)).2)) ∧
    (∀ p ∈ (scanSkillDirs (some es)).1, ∃ e ∈ es, ∃ c ∈ e.children,
        isAtDir e = true ∧ c.isDirectory = true ∧
        hasEntry c.children "SKILL.md" = true ∧ p = [e.name, c.name, "SKILL.md"]) ∧
    (∀ b ∈ (scanSkillDirs (some es)).2, ∃ e ∈ es, ∃ c ∈ e.children,
        isAtDir e = true ∧ c.isDirectory = true ∧
        hasEntry c.children "SKILL.md" = false ∧
        b = { source := jsSlice1 e.name, id := c.name, dir := [e.name, c.name] }) := by
  have hinj := List.inj_on_of_nodup_map h1
  refine ⟨?_, ?_, ?_⟩
  · intro e he hat c hc hcdir
    have hat2 : e.isDirectory = true ∧ jsStartsWith e.name "@" = true := by
      simpa [isAtDir, Bool.and_eq_true] using hat
    obtain ⟨hed, hes⟩ := hat2
    by_cases hm : hasEntry c.children "SKILL.md"
    · refine Or.inl ⟨hm, ?_, ?_⟩
      · exact mem_scanSources_results.mpr
          ⟨e, he, hed, hes, mem_scanChildren_results.mpr ⟨c, hc, hcdir, hm, rfl⟩⟩
      · intro hbad
        obtain ⟨e2, he2, _, _, hb2⟩ := mem_scanSources_broken.mp hbad
        obtain ⟨c2, hc2, hc2d, hc2m, heq⟩ := mem_scanChildren_broken.mp hb2
        have hdir := congrArg BrokenDir.dir heq
        simp only [List.cons.injEq, and_true] at hdir
        have he2e : e2 = e := hinj he2 he hdir.1.symm
        subst he2e
        have hc2c : c2 = c := List.inj_on_of_nodup_map (h2 e2 he2) hc2 hc hdir.2.symm
        subst hc2c
        rw [hm] at hc2m
        exact absurd hc2m (by simp)
    · have hmf : hasEntry c.children "SKILL.md" = false := by
        simpa using hm
      refine Or.inr ⟨hmf, ?_, ?_⟩
      · intro hbad
        obtain ⟨e2, he2, _, _, hp2⟩ := mem_scanSources_results.mp hbad
        obtain ⟨c2, hc2, hc2d, hc2m, heq⟩ := mem_scanChildren_results.mp hp2
        simp only [List.cons.injEq, and_true] at heq
        have he2e : e2 = e := hinj he2 he heq.1.symm
        subst he2e
        have hc2c : c2 = c := List.inj_on_of_nodup_map (h2 e2 he2) hc2 hc heq.2.symm
        subst hc2c
        rw [hc2m] at hmf
        cases hmf
      · exact mem_scanSources_broken.mpr
          ⟨e, he, hed, hes, mem_scanChildren_broken.mpr ⟨c, hc, hcdir, hmf, rfl⟩⟩
  · intro p hp
    obtain ⟨e, he, hed, hes, hp2⟩ := mem_scanSources_results.mp hp
    obtain ⟨c, hc, hcd, hcm, heq⟩ := mem_scanChildren_results.mp hp2
    exact ⟨e, he, c, hc, by simp [isAtDir, hed, hes], hcd, hcm, heq⟩
  · intro b hb
    obtain ⟨e, he, hed, hes, hb2⟩ := mem_scanSources_broken.mp hb
    obtain ⟨c, hc, hcd, hcm, heq⟩ := mem_scanChildren_broken.mp hb2
    exact ⟨e, he, c, hc, by simp [isAtDir, hed, hes], hcd, hcm, heq⟩

/-- Witness for C10 on a concrete tree: a skill directory with a
marker lands in the entry list, a directory without one lands in the
broken list, and neither appears in the other output. -/
theorem C10_scan_partition_witness :
    ["@a", "good", "SKILL.md"] ∈
      (scanSkillDirs (some [FsNode.dir "@a"
        [FsNode.dir "good" [FsNode.file "SKILL.md" ""], FsNode.dir "bad" [],
         FsNode.file "note.md" ""], FsNode.file "x" "", FsNode.dir "nope" []])).1 ∧
    ({ source := "a", id := "bad", dir := ["@a", "bad"] } : BrokenDir) ∈
      (scanSkillDirs (some [FsNode.dir "@a"
        [FsNode.dir "good" [FsNode.file "SKILL.md" ""], FsNode.dir "bad" [],
         FsNode.file "note.md" ""], FsNode.file "x" "", FsNode.dir "nope" []])).2 := by
  have h := C10_scan_partition
    [FsNode.dir "@a"
      [FsNode.dir "good" [FsNode.file "SKILL.md" ""], FsNode.dir "bad" [],
       FsNode.file "note.md" ""], FsNode.file "x" "", FsNode.dir "nope" []]
    (by decide)
    (by
      intro e he
      fin_cases he <;> decide)
  have hgood := h.1 (FsNode.dir "@a"
      [FsNode.dir "good" [FsNode.file "SKILL.md" ""], FsNode.dir "bad" [],
       FsNode.file "note.md" ""]) (List.mem_cons_self _ _) (by decide)
      (FsNode.dir "good" [FsNode.file "SKILL.md" ""]) (List.mem_cons_self _ _) (by decide)
  have hbad := h.1 (FsNode.dir "@a"
      [FsNode.dir "good" [FsNode.file "SKILL.md" ""], FsNode.dir "bad" [],
       FsNode.file "note.md" ""]) (List.mem_cons_self _ _) (by decide)
      (FsNode.dir "bad" [])
      (List.mem_cons_of_mem _ (List.mem_cons_self _ _)) (by decide)
  constructor
  · rcases hgood with ⟨_, hmem, _⟩ | ⟨hfalse, _, _⟩
    · exact hmem
    · exact absurd hfalse (by decide)
  · rcases hbad with ⟨htrue, _, _⟩ | ⟨_, _, hmem⟩
    · exact absurd htrue (by decide)
    · exact hmem

/-! ## Association-list object lemmas -/

theorem objGet_nil {α : Type} (k : String) : objGet ([] : List (String × α)) k = none := rfl

theorem objGet_cons {α : Type} (k1 : String) (v1 : α) (m : List (String × α)) (k : String) :
    objGet ((k1, v1) :: m) k = if k1 == k then some v1 else objGet m k := by
  by_cases h : k1 == k
  · simp [objGet, List.find?_cons, h]
  · simp only [objGet, List.find?_cons]
    have h2 : ((k1, v1).1 == k) = false := by simpa using h
    simp [h2, h]

theorem objSet_cons_ne {α : Type} {k1 k : String} (h : (k1 == k) = false)
    (v1 v : α) (m : List (String × α)) :
    objSet ((k1, v1) :: m) k v = (k1, v1) :: objSet m k v := by
  unfold objSet
  simp only [List.any_cons, h, Bool.false_or]
  by_cases hm : m.any (fun p => p.1 == k)
  · simp only [hm, if_true, List.map_cons]
    congr 1
    simp [h]
  · simp only [hm, if_false, Bool.false_eq_true, List.cons_append]

theorem objSet_keys_of_mem {α : Type} {m : List (String × α)} {k : String}
    (h : k ∈ m.map Prod.fst) (v : α) :
    (objSet m k v).map Prod.fst = m.map Prod.fst := by
  have hany : m.any (fun p => p.1 == k) = true := by
    simp only [List.any_eq_true, beq_iff_eq]
    obtain ⟨p, hp, hpk⟩ := List.mem_map.mp h
    exact ⟨p, hp, hpk⟩
  unfold objSet
  rw [hany]
  simp only [if_true, List.map_map]
  apply List.map_congr_left
  intro p _
  by_cases hpk : p.1 = k
  · simp [hpk]
  · simp [hpk]

theorem objSet_keys_of_not_mem {α : Type} {m : List (String × α)} {k : String}
    (h : k ∉ m.map Prod.fst) (v : α) :
    (objSet m k v).map Prod.fst = m.map Prod.fst ++ [k] := by
  have hany : m.any (fun p => p.1 == k) = false := by
    simp only [List.any_eq_false, beq_iff_eq]
    intro p hp hpk
    exact h (List.mem_map.mpr ⟨p, hp, hpk⟩)
  unfold objSet
  rw [hany]
  simp

theorem objSet_nodup_keys {α : Type} {m : List (String × α)} {k : String}
    (h : (m.map Prod.fst).Nodup) (v : α) :
    ((objSet m k v).map Prod.fst).Nodup := by
  by_cases hk : k ∈ m.map Prod.fst
  · rw [objSet_keys_of_mem hk]; exact h
  · rw [objSet_keys_of_not_mem hk]
    refine List.Nodup.append h (List.nodup_singleton k) ?_
    intro a ha hb
    rw [List.mem_singleton] at hb
    subst hb
    exact hk ha

/-- The replacement map of objSet leaves untouched a tail whose keys
avoid the assigned key. -/
theorem map_replace_of_not_mem {α : Type} {m : List (String × α)} {k : String}
    (h : k ∉ m.map Prod.fst) (v : α) :
    m.map (fun p => if p.1 == k then (k, v) else p) = m := by
  induction m with
  | nil => rfl
  | cons p rest ih =>
      have hknot : k ∉ rest.map Prod.fst := by
        intro hm
        exact h (by rw [List.map_cons]; exact List.mem_cons_of_mem _ hm)
      have hp1 : p.1 ≠ k := by
        intro hpk
        exact h (by rw [List.map_cons, hpk]; exact List.mem_cons_self _ _)
      have hp : (p.1 == k) = false := beq_eq_false_iff_ne.mpr hp1
      simp only [List.map_cons, hp]
      rw [ih hknot]
      simp

theorem totalCountOf_eq (m : List (String × List Skill)) :
    totalCountOf m = (m.map (fun p => p.2.length)).sum := by
  have haux : ∀ (l : List (String × List Skill)) (a : Nat),
      l.foldl (fun n p => n + p.2.length) a = a + (l.map (fun p => p.2.length)).sum := by
    intro l
    induction l with
    | nil => intro a; simp
    | cons p rest ih =>
        intro a
        simp only [List.foldl_cons, List.map_cons, List.sum_cons, ih]
        omega
  simpa using haux m 0

/-- Appending one element to the list at a key adds one to the total,
when the keys are unique. -/
theorem totalCountOf_objSet_push {m : List (String × List Skill)} {k : String}
    (h : (m.map Prod.fst).Nodup) (x : Skill) :
    totalCountOf (objSet m k (((objGet m k).getD []) ++ [x])) = totalCountOf m + 1 := by
  induction m with
  | nil => simp [totalCountOf, objSet, objGet]
  | cons p rest ih =>
      obtain ⟨k1, v1⟩ := p
      by_cases hk : k1 == k
      · have hkeq : k1 = k := by simpa using hk
        subst hkeq
        have hget : objGet ((k1, v1) :: rest) k1 = some v1 := by
          simp [objGet_cons]
        rw [hget]
        have hknot : k1 ∉ rest.map Prod.fst := by
          simp only [List.map_cons, List.nodup_cons] at h
          exact h.1
        unfold objSet
        have hany : (((k1, v1) :: rest).any (fun p => p.1 == k1)) = true := by simp
        rw [hany]
        simp only [if_true, List.map_cons]
        have hhead :
            (if ((k1, v1).1 == k1) then (k1, (some v1).getD [] ++ [x]) else (k1, v1)) =
              (k1, v1 ++ [x]) := by simp
        rw [hhead, map_replace_of_not_mem hknot]
        simp only [totalCountOf_eq, List.map_cons, List.sum_cons, List.length_append,
          List.length_singleton]
        omega
      · rw [objSet_cons_ne (by simpa using hk)]
        have hget : objGet ((k1, v1) :: rest) k = objGet rest k := by
          rw [objGet_cons, if_neg (by simpa using hk)]
        rw [hget]
        have hrest : (rest.map Prod.fst).Nodup := by
          simp only [List.map_cons, List.nodup_cons] at h
          exact h.2
        have := ih hrest
        simp only [totalCountOf_eq, List.map_cons, List.sum_cons] at this ⊢
        omega

/-! ## Key accumulation of collectStats -/

def insertKey (ks : List String) (s : String) : List String :=
  if s ∈ ks then ks else ks ++ [s]

def insertKeys (ks : List String) (l : List String) : List String :=
  l.foldl insertKey ks

theorem insertKeys_nil (ks : List String) : insertKeys ks [] = ks := rfl

theorem insertKeys_cons (ks : List String) (s : String) (l : List String) :
    insertKeys ks (s :: l) = insertKeys (insertKey ks s) l := rfl

theorem insertKey_nodup {ks : List String} (h : ks.Nodup) (s : String) :
    (insertKey ks s).Nodup := by
  unfold insertKey
  by_cases hs : s ∈ ks
  · simpa [hs]
  · simpa [hs, List.nodup_append] using h

theorem insertKeys_nodup {ks : List String} (h : ks.Nodup) (l : List String) :
    (insertKeys ks l).Nodup := by
  induction l generalizing ks with
  | nil => simpa [insertKeys]
  | cons s rest ih => exact ih (insertKey_nodup h s)

theorem mem_insertKeys {ks l : List String} {x : String} :
    x ∈ insertKeys ks l ↔ x ∈ ks ∨ x ∈ l := by
  induction l generalizing ks with
  | nil => simp [insertKeys]
  | cons s rest ih =>
      rw [insertKeys_cons, ih]
      unfold insertKey
      by_cases hs : s ∈ ks
      · simp only [hs, if_true, List.mem_cons]
        constructor
        · tauto
        · rintro (h | rfl | h) <;> tauto
      · simp only [hs, if_false, List.mem_append, List.mem_cons, List.mem_singleton]
        tauto

theorem objSet_keys_insertKey {α : Type} (m : List (String × α)) (k : String) (v : α) :
    (objSet m k v).map Prod.fst = insertKey (m.map Prod.fst) k := by
  unfold insertKey
  by_cases h : k ∈ m.map Prod.fst
  · rw [objSet_keys_of_mem h, if_pos h]
  · rw [objSet_keys_of_not_mem h, if_neg h]

/-- Invariant of the statsBySource accumulation loop: each well-shaped
scanned path adds exactly one skill, under its source key. -/
theorem collectStatsGo_spec (root : FsRoot) :
    ∀ (files : List (List String)) (acc stats : List (String × List Skill)),
      (∀ p ∈ files, ∃ s i, p = [s, i, "SKILL.md"] ∧ jsStartsWith s "@" = true) →
      (acc.map Prod.fst).Nodup →
      collectStatsGo root files acc = some stats →
      totalCountOf stats = totalCountOf acc + files.length ∧
      stats.map Prod.fst =
        insertKeys (acc.map Prod.fst) (files.map (fun p => jsSlice1 (p.headD ""))) := by
  intro files
  induction files with
  | nil =>
      intro acc stats _ _ hgo
      simp only [collectStatsGo, Option.some.injEq] at hgo
      subst hgo
      simp [insertKeys]
  | cons p rest ih =>
      intro acc stats hshape hnd hgo
      obtain ⟨s, i, hp, hstart⟩ := hshape p (List.mem_cons_self _ _)
      subst hp
      have hcond : (jsStartsWith s "@" && ("SKILL.md" == "SKILL.md")) = true := by
        simp [hstart]
      simp only [collectStatsGo, hcond, if_true] at hgo
      cases hrf : readFileAt root [s, i, "SKILL.md"] with
      | none => rw [hrf] at hgo; cases hgo
      | some content =>
          rw [hrf] at hgo
          simp only at hgo
          have hnd2 := @objSet_nodup_keys (List Skill) acc (jsSlice1 s) hnd
            (((objGet acc (jsSlice1 s)).getD []) ++
              [{ id := i, path := [s, i, "SKILL.md"],
                 name := (parseSkillMetadata i content).1,
                 description := (parseSkillMetadata i content).2 }])
          obtain ⟨htot, hkeys⟩ := ih _ stats
            (fun q hq => hshape q (List.mem_cons_of_mem _ hq)) hnd2 hgo
          constructor
          · rw [htot, totalCountOf_objSet_push hnd]
            simp only [List.length_cons]
            omega
          · rw [hkeys, objSet_keys_insertKey]
            simp only [List.map_cons, List.headD_cons]
            rfl

/-! ## Scanner lengths and source multiset -/

theorem scanChildren_results_length (n : String) (ch : List FsNode) :
    (scanChildren n ch).1.length = (ch.filter isMarkerDir).length := by
  induction ch with
  | nil => rfl
  | cons c rest ih =>
      simp only [scanChildren, List.filter_cons]
      by_cases hd : c.isDirectory
      · by_cases hm : hasEntry c.children "SKILL.md"
        · simp [isMarkerDir, hd, hm, ih]
        · simp [isMarkerDir, hd, hm, ih]
      · simp [isMarkerDir, hd, ih]

theorem scanSources_results_length (es : List FsNode) :
    (scanSources es).1.length =
      ((es.filter isAtDir).map (fun e => (e.children.filter isMarkerDir).length)).sum := by
  induction es with
  | nil => rfl
  | cons e rest ih =>
      simp only [scanSources, List.filter_cons]
      by_cases ha : e.isDirectory && jsStartsWith e.name "@"
      · have hat : isAtDir e = true := ha
        simp [ha, hat, ih, scanChildren_results_length]
      · have hat : isAtDir e = false := by simpa [isAtDir] using ha
        simp [ha, hat, ih]

theorem mem_scan_srcs {es : List FsNode} {x : String} :
    x ∈ (scanSources es).1.map (fun p => jsSlice1 (p.headD "")) ↔
      ∃ e ∈ es, isAtDir e = true ∧ (∃ c ∈ e.children, isMarkerDir c = true) ∧
        x = jsSlice1 e.name := by
  simp only [List.mem_map]
  constructor
  · rintro ⟨p, hp, rfl⟩
    obtain ⟨e, he, hed, hes, hp2⟩ := mem_scanSources_results.mp hp
    obtain ⟨c, hc, hcd, hcm, rfl⟩ := mem_scanChildren_results.mp hp2
    exact ⟨e, he, by simp [isAtDir, hed, hes],
      ⟨c, hc, by simp [isMarkerDir, hcd, hcm]⟩, rfl⟩
  · rintro ⟨e, he, hat, ⟨c, hc, hcm⟩, rfl⟩
    refine ⟨[e.name, c.name, "SKILL.md"], ?_, rfl⟩
    have hed : e.isDirectory = true := by
      have := hat
      simp only [isAtDir, Bool.and_eq_true] at this
      exact this.1
    have hes : jsStartsWith e.name "@" = true := by
      have := hat
      simp only [isAtDir, Bool.and_eq_true] at this
      exact this.2
    have hcd : c.isDirectory = true := by
      have := hcm
      simp only [isMarkerDir, Bool.and_eq_true] at this
      exact this.1
    have hcmk : hasEntry c.children "SKILL.md" = true := by
      have := hcm
      simp only [isMarkerDir, Bool.and_eq_true] at this
      exact this.2
    exact mem_scanSources_results.mpr
      ⟨e, he, hed, hes, mem_scanChildren_results.mpr ⟨c, hc, hcd, hcmk, rfl⟩⟩

/-- Well-shapedness of the scanner output paths. -/
theorem scanSources_shape {es : List FsNode} :
    ∀ p ∈ (scanSources es).1, ∃ s i, p = [s, i, "SKILL.md"] ∧ jsStartsWith s "@" = true := by
  intro p hp
  obtain ⟨e, _, _, hes, hp2⟩ := mem_scanSources_results.mp hp
  obtain ⟨c, _, _, _, rfl⟩ := mem_scanChildren_results.mp hp2
  exact ⟨e.name, c.name, rfl, hes⟩

/-! ## Injectivity of slice(1) on at-prefixed names -/

theorem startsWithAt_cons {s : String} (h : jsStartsWith s "@" = true) :
    s.toList = '@' :: s.toList.drop 1 := by
  unfold jsStartsWith at h
  have hq : ("@" : String).toList = ['@'] := rfl
  rw [hq] at h
  cases hs : s.toList with
  | nil => rw [hs] at h; simp [List.isPrefixOf] at h
  | cons c t =>
      rw [hs] at h
      simp only [List.isPrefixOf, List.isPrefixOf_nil_left, Bool.and_true, beq_iff_eq] at h
      subst h
      simp

theorem jsSlice1_inj_at {s t : String} (hs : jsStartsWith s "@" = true)
    (ht : jsStartsWith t "@" = true) (h : jsSlice1 s = jsSlice1 t) : s = t := by
  unfold jsSlice1 at h
  have h2 : s.toList.drop 1 = t.toList.drop 1 := congrArg String.toList h
  have h3 : s.toList = t.toList := by
    rw [startsWithAt_cons hs, startsWithAt_cons ht, h2]
  cases s with
  | mk d1 =>
      cases t with
      | mk d2 =>
          have : d1 = d2 := h3
          rw [this]

/-- Length-of-filter as existence of a member. -/
theorem filter_length_ne_zero_iff {α : Type} (q : α → Bool) (l : List α) :
    (l.filter q).length ≠ 0 ↔ ∃ c ∈ l, q c = true := by
  rw [Ne, List.length_eq_zero, List.filter_eq_nil_iff]
  push_neg
  simp

/-- C1: the scanner considers only the fixed two-level structure.
When collectStats succeeds, main's totalCount equals the number of
SKILL.md markers found at exactly the second level below at-prefixed
first-level directories, and main's sourceCount equals the number of
distinct first-level at-directories containing at least one marker.
The specification-side counts quantify only over that fixed depth, so
deeper markers and markers outside at-directories contribute
nothing. -/
theorem C1_scanner_counts (root : FsRoot) (stats : List (String × List Skill))
    (broken : List BrokenDir) (h : collectStats root = some (stats, broken)) :
    totalCountOf stats = specTotalCount root ∧
    sourceCountOf stats = specSourceCount root := by
  cases root with
  | none =>
      have h2 : (([], []) : List (String × List Skill) × List BrokenDir) = (stats, broken) := by
        simpa [collectStats, scanSkillDirs, collectStatsGo] using h
      have h3 : ([] : List (String × List Skill)) = stats := congrArg Prod.fst h2
      subst h3
      exact ⟨rfl, rfl⟩
  | some es =>
      simp only [collectStats, scanSkillDirs] at h
      obtain ⟨st, hgo, heq⟩ := Option.map_eq_some'.mp h
      have hst : st = stats := congrArg Prod.fst heq
      subst hst
      obtain ⟨htot, hkeys⟩ := collectStatsGo_spec (some es) (scanSources es).1 [] st
        scanSources_shape (by simp) hgo
      constructor
      · rw [htot, scanSources_results_length]
        simp [specTotalCount, totalCountOf]
      · -- source count: key count of the accumulated object
        have hlen : sourceCountOf st = (st.map Prod.fst).length := by
          simp [sourceCountOf]
        set srcs := (scanSources es).1.map (fun p => jsSlice1 (p.headD "")) with hsrcs
        have hiknd : (insertKeys [] srcs).Nodup := insertKeys_nodup List.nodup_nil srcs
        have hikcard : (insertKeys [] srcs).toFinset.card = (insertKeys [] srcs).length :=
          List.toFinset_card_of_nodup hiknd
        have hikfin : (insertKeys [] srcs).toFinset = srcs.toFinset := by
          apply Finset.ext
          intro x
          simp only [List.mem_toFinset]
          rw [mem_insertKeys]
          simp
        set cond := fun e =>
          isAtDir e && decide ((e.children.filter isMarkerDir).length ≠ 0) with hcond
        have hsrcfin :
            srcs.toFinset = ((es.filter cond).map FsNode.name).toFinset.image jsSlice1 := by
          apply Finset.ext
          intro x
          simp only [List.mem_toFinset, Finset.mem_image, hsrcs]
          rw [mem_scan_srcs]
          constructor
          · rintro ⟨e, he, hat, hex, rfl⟩
            refine ⟨e.name, ?_, rfl⟩
            simp only [List.mem_map]
            refine ⟨e, ?_, rfl⟩
            rw [List.mem_filter]
            refine ⟨he, ?_⟩
            rw [hcond]
            simp only [Bool.and_eq_true, decide_eq_true_eq]
            exact ⟨hat, (filter_length_ne_zero_iff _ _).mpr hex⟩
          · rintro ⟨nm, hnm, rfl⟩
            simp only [List.mem_map] at hnm
            obtain ⟨e, he, rfl⟩ := hnm
            rw [List.mem_filter, hcond] at he
            obtain ⟨he1, he2⟩ := he
            simp only [Bool.and_eq_true, decide_eq_true_eq] at he2
            exact ⟨e, he1, he2.1, (filter_length_ne_zero_iff _ _).mp he2.2, rfl⟩
        have hatall : ∀ nm ∈ ((es.filter cond).map FsNode.name).toFinset,
            jsStartsWith nm "@" = true := by
          intro nm hnm
          simp only [List.mem_toFinset, List.mem_map] at hnm
          obtain ⟨e, he, rfl⟩ := hnm
          rw [List.mem_filter, hcond] at he
          have := he.2
          simp only [Bool.and_eq_true, isAtDir, decide_eq_true_eq] at this
          exact this.1.2
        have hcardimg :
            (((es.filter cond).map FsNode.name).toFinset.image jsSlice1).card =
              ((es.filter cond).map FsNode.name).toFinset.card := by
          apply Finset.card_image_of_injOn
          intro a ha b hb hab
          exact jsSlice1_inj_at (hatall a (by simpa using ha)) (hatall b (by simpa using hb)) hab
        rw [hlen, hkeys]
        simp only [List.map_nil]
        rw [← hikcard, hikfin, hsrcfin, hcardimg, List.card_toFinset]
        rfl

/-- Witness for C1 on a concrete tree with two sources, three markers,
one broken directory, a marker nested at the third level (ignored) and
a marker below a first-level directory without the at-prefix
(ignored). -/
theorem C1_scanner_counts_witness :
    totalCountOf [("a",
        [{ id := "s1", path := ["@a", "s1", "SKILL.md"], name := "s1", description := "" },
         { id := "s2", path := ["@a", "s2", "SKILL.md"], name := "x", description := "" }]),
      ("b",
        [{ id := "t1", path := ["@b", "t1", "SKILL.md"], name := "t1", description := "" }])] =
      specTotalCount (some [
        FsNode.dir "@a" [
          FsNode.dir "s1" [FsNode.file "SKILL.md" "",
            FsNode.dir "nested" [FsNode.file "SKILL.md" ""]],
          FsNode.dir "s2" [FsNode.file "SKILL.md" "---\nname: x\n---\n",
            FsNode.file "extra.md" ""],
          FsNode.dir "bad" [FsNode.file "readme.md" ""]],
        FsNode.dir "@b" [FsNode.dir "t1" [FsNode.file "SKILL.md" ""],
          FsNode.file "stray.md" ""],
        FsNode.dir "plain" [FsNode.dir "u" [FsNode.file "SKILL.md" ""]],
        FsNode.file "top.md" ""]) ∧
    sourceCountOf [("a",
        [{ id := "s1", path := ["@a", "s1", "SKILL.md"], name := "s1", description := "" },
         { id := "s2", path := ["@a", "s2", "SKILL.md"], name := "x", description := "" }]),
      ("b",
        [{ id := "t1", path := ["@b", "t1", "SKILL.md"], name := "t1", description := "" }])] =
      specSourceCount (some [
        FsNode.dir "@a" [
          FsNode.dir "s1" [FsNode.file "SKILL.md" "",
            FsNode.dir "nested" [FsNode.file "SKILL.md" ""]],
          FsNode.dir "s2" [FsNode.file "SKILL.md" "---\nname: x\n---\n",
            FsNode.file "extra.md" ""],
          FsNode.dir "bad" [FsNode.file "readme.md" ""]],
        FsNode.dir "@b" [FsNode.dir "t1" [FsNode.file "SKILL.md" ""],
          FsNode.file "stray.md" ""],
        FsNode.dir "plain" [FsNode.dir "u" [FsNode.file "SKILL.md" ""]],
        FsNode.file "top.md" ""]) :=
  C1_scanner_counts _ _ [{ source := "a", id := "bad", dir := ["@a", "bad"] }] rfl

/-! ## verifyTranslations (sync-stats.js lines 298-353)

The two registry manifests are passed in parsed form: the index as a
record list (parseIndex's entries) and the translation manifest as a
source-to-ids table (parseTranslations' two-level object, whose leaf
payloads are empty objects used only for a truthiness check, so only
the id keys matter).  The lookup tables indexByPath and indexBySource
are built exactly as in parseIndex, by one fold with JS object
assignment (duplicate paths therefore overwrite, last write wins). -/

structure IndexEntry where
  id : String
  source : String
  path : String
deriving DecidableEq

structure MissingRec where
  source : String
  id : String
  type : String
  path : Option String
deriving DecidableEq

structure OrphanRec where
  source : String
  id : String
  type : String
deriving DecidableEq

def indexByPath (entries : List IndexEntry) : List (String × IndexEntry) :=
  entries.foldl (fun m e => objSet m e.path e) []

def indexBySource (entries : List IndexEntry) : List (String × List IndexEntry) :=
  entries.foldl (fun m e => objSet m e.source (((objGet m e.source).getD []) ++ [e])) []

/-- translations[source] and translations[source][id]: both levels
must be present (the leaf payloads of the parsed manifest are empty
objects, which are truthy in JS). -/
def hasTranslation (translations : List (String × List String)) (source id : String) : Bool :=
  match objGet translations source with
  | none => false
  | some ids => ids.contains id

def canonicalPath (source id : String) : String :=
  "@" ++ source ++ "/" ++ id

/-- Pass 1, inner loop over one source's scanned skills. -/
def verifyPass1Skills (ibp : List (String × IndexEntry))
    (translations : List (String × List String)) (source : String) :
    List Skill → List MissingRec
  | [] => []
  | sk :: rest =>
      let expectedPath := canonicalPath source sk.id
      match objGet ibp expectedPath with
      | none =>
          { source := source, id := sk.id, type := "index", path := some expectedPath } ::
            verifyPass1Skills ibp translations source rest
      | some indexEntry =>
          if hasTranslation translations source indexEntry.id then
            verifyPass1Skills ibp translations source rest
          else
            { source := source, id := indexEntry.id, type := "translation",
              path := some expectedPath } ::
              verifyPass1Skills ibp translations source rest

/-- Pass 1 over the statsBySource table. -/
def verifyPass1 (ibp : List (String × IndexEntry))
    (translations : List (String × List String)) :
    List (String × List Skill) → List MissingRec
  | [] => []
  | (source, skills) :: rest =>
      verifyPass1Skills ibp translations source skills ++ verifyPass1 ibp translations rest

/-- Split a character list at a separator (n separators yield n+1
pieces). -/
def splitOnChar (sep : Char) : List Char → List (List Char)
  | [] => [[]]
  | c :: rest =>
      if c = sep then [] :: splitOnChar sep rest
      else
        match splitOnChar sep rest with
        | [] => [[c]]
        | l :: ls => (c :: l) :: ls

/-- The slash-separated components of a manifest path. -/
def pathComponents (p : String) : List String :=
  (splitOnChar '/' p.toList).map String.mk

/-- Pass 2: every index entry's path must hold a SKILL.md on disk
(path.join concatenates the slash-separated manifest path onto the
skills root, so resolution walks its components). -/
def verifyPass2 (root : FsRoot) : List IndexEntry → List MissingRec
  | [] => []
  | e :: rest =>
      if existsAt root (pathComponents e.path ++ ["SKILL.md"]) then verifyPass2 root rest
      else { source := e.source, id := e.id, type := "skillDir", path := some e.path } ::
        verifyPass2 root rest

/-- Pass 3, inner loop: ids of one translation source not in the
index's id set for that source. -/
def verifyPass3Ids (ibs : List (String × List IndexEntry)) (source : String) :
    List String → List OrphanRec
  | [] => []
  | id :: rest =>
      if ((objGet ibs source).getD []).any (fun e => e.id == id) then
        verifyPass3Ids ibs source rest
      else { source := source, id := id, type := "translation" } ::
        verifyPass3Ids ibs source rest

def verifyPass3 (ibs : List (String × List IndexEntry)) :
    List (String × List String) → List OrphanRec
  | [] => []
  | (source, ids) :: rest =>
      verifyPass3Ids ibs source ids ++ verifyPass3 ibs rest

/-- Pass 4: broken directories fold into the missing list under their
own type (their push carries no path property). -/
def verifyPass4 (broken : List BrokenDir) : List MissingRec :=
  broken.map (fun b =>
    { source := b.source, id := b.id, type := "missingSkillMd", path := none })

def verifyTranslations (root : FsRoot) (statsBySource : List (String × List Skill))
    (broken : List BrokenDir) (translations : List (String × List String))
    (indexEntries : List IndexEntry) : List MissingRec × List OrphanRec :=
  let ibp := indexByPath indexEntries
  let ibs := indexBySource indexEntries
  (verifyPass1 ibp translations statsBySource ++ verifyPass2 root indexEntries ++
      verifyPass4 broken,
    verifyPass3 ibs translations)

/-! ## Lookup-table characterisation -/

theorem objGet_map_replace_ne {α : Type} (m : List (String × α)) {k k2 : String}
    (h : (k == k2) = false) (v : α) :
    objGet (m.map (fun p => if p.1 == k then (k, v) else p)) k2 = objGet m k2 := by
  induction m with
  | nil => rfl
  | cons p rest ih =>
      obtain ⟨k1, v1⟩ := p
      rw [List.map_cons]
      by_cases h1 : k1 = k
      · have hf : (if ((k1, v1).1 == k) then (k, v) else (k1, v1)) = (k, v) := by
          simp [h1]
        rw [hf, objGet_cons, objGet_cons, ih]
        have hk2 : (k1 == k2) = false := by
          rw [h1]; exact h
        rw [h, hk2]
        simp
      · have hf : (if ((k1, v1).1 == k) then (k, v) else (k1, v1)) = (k1, v1) := by
          simp [h1]
        rw [hf, objGet_cons, objGet_cons, ih]

theorem objGet_objSet_self {α : Type} (m : List (String × α)) (k : String) (v : α) :
    objGet (objSet m k v) k = some v := by
  induction m with
  | nil =>
      have hstep : objSet ([] : List (String × α)) k v = [(k, v)] := by
        unfold objSet
        simp
      rw [hstep, objGet_cons]
      simp
  | cons p rest ih =>
      obtain ⟨k1, v1⟩ := p
      by_cases h1 : k1 = k
      · subst h1
        have hstep : objSet ((k1, v1) :: rest) k1 v =
            (k1, v) :: rest.map (fun p => if p.1 == k1 then (k1, v) else p) := by
          unfold objSet
          have hany : (((k1, v1) :: rest).any (fun p => p.1 == k1)) = true := by simp
          rw [hany]
          simp
        rw [hstep, objGet_cons]
        simp
      · rw [objSet_cons_ne (by simpa using h1), objGet_cons,
          if_neg (by simpa using h1)]
        exact ih

theorem objGet_objSet_ne {α : Type} (m : List (String × α)) {k k2 : String}
    (h : (k == k2) = false) (v : α) :
    objGet (objSet m k v) k2 = objGet m k2 := by
  induction m with
  | nil =>
      show objGet [(k, v)] k2 = none
      rw [objGet_cons, if_neg (by simpa using h)]
      rfl
  | cons p rest ih =>
      obtain ⟨k1, v1⟩ := p
      by_cases h1 : k1 = k
      · subst h1
        have hstep : objSet ((k1, v1) :: rest) k1 v =
            (k1, v) :: rest.map (fun p => if p.1 == k1 then (k1, v) else p) := by
          unfold objSet
          have hany : (((k1, v1) :: rest).any (fun p => p.1 == k1)) = true := by simp
          rw [hany]
          simp
        rw [hstep, objGet_cons, objGet_cons, objGet_map_replace_ne rest h]
        simp [h]
      · rw [objSet_cons_ne (by simpa using h1), objGet_cons, objGet_cons, ih]

/-- The byPath table holds exactly the entries' paths, and resolves a
path to the last entry carrying it. -/
theorem indexByPath_get (entries : List IndexEntry) (k : String) :
    objGet (indexByPath entries) k =
      match entries.reverse.find? (fun e => e.path == k) with
      | some e => some e
      | none => none := by
  have haux : ∀ (l : List IndexEntry) (m0 : List (String × IndexEntry)),
      objGet (l.foldl (fun m e => objSet m e.path e) m0) k =
        match l.reverse.find? (fun e => e.path == k) with
        | some e => some e
        | none => objGet m0 k := by
    intro l
    induction l with
    | nil => intro m0; simp
    | cons e rest ih =>
        intro m0
        simp only [List.foldl_cons, List.reverse_cons, List.find?_append]
        rw [ih]
        cases hfind : rest.reverse.find? (fun e2 => e2.path == k) with
        | some e2 => simp
        | none =>
            simp only [Option.none_or]
            by_cases hp : (e.path == k) = true
            · rw [List.find?_singleton, if_pos hp]
              have hpk : e.path = k := by simpa using hp
              subst hpk
              rw [objGet_objSet_self]
            · rw [List.find?_singleton, if_neg hp]
              rw [objGet_objSet_ne _ (by simpa using hp)]
  unfold indexByPath
  rw [haux entries []]
  cases entries.reverse.find? (fun e2 => e2.path == k) <;> simp [objGet]

theorem indexByPath_get_none {entries : List IndexEntry} {k : String}
    (h : ∀ e ∈ entries, e.path ≠ k) :
    objGet (indexByPath entries) k = none := by
  rw [indexByPath_get]
  have : entries.reverse.find? (fun e => e.path == k) = none := by
    rw [List.find?_eq_none]
    intro e he hp
    exact h e (List.mem_reverse.mp he) (by simpa using hp)
  rw [this]

/-- The bySource table groups entries by source in order. -/
theorem indexBySource_get (entries : List IndexEntry) (s : String) :
    objGet (indexBySource entries) s =
      if entries.any (fun e => e.source == s) then
        some (entries.filter (fun e => e.source == s))
      else none := by
  have haux : ∀ (l : List IndexEntry) (m0 : List (String × List IndexEntry)),
      objGet (l.foldl
          (fun m e => objSet m e.source (((objGet m e.source).getD []) ++ [e])) m0) s =
        match objGet m0 s with
        | some v => some (v ++ l.filter (fun e => e.source == s))
        | none =>
            if l.any (fun e => e.source == s) then
              some (l.filter (fun e => e.source == s))
            else none := by
    intro l
    induction l with
    | nil =>
        intro m0
        simp only [List.foldl_nil, List.filter_nil, List.any_nil]
        cases objGet m0 s <;> simp
    | cons e rest ih =>
        intro m0
        simp only [List.foldl_cons]
        rw [ih]
        by_cases hes : e.source == s
        · have hes2 : e.source = s := by simpa using hes
          subst hes2
          rw [objGet_objSet_self]
          simp only [List.filter_cons, hes, if_pos, List.any_cons, Bool.true_or]
          cases hg : objGet m0 e.source <;> simp [hg]
        · rw [objGet_objSet_ne _ (by simpa using hes)]
          cases hg : objGet m0 s <;>
            simp [hg, List.filter_cons, List.any_cons, hes]
  unfold indexBySource
  rw [haux entries []]
  simp [objGet]

/-- The index id set for a source, as seen through bySource. -/
theorem indexBySource_ids (entries : List IndexEntry) (s id : String) :
    (((objGet (indexBySource entries) s).getD []).any (fun e => e.id == id)) = true ↔
      ∃ e ∈ entries, e.source = s ∧ e.id = id := by
  rw [indexBySource_get]
  by_cases hany : entries.any (fun e => e.source == s)
  · rw [if_pos hany]
    simp only [Option.getD_some, List.any_eq_true, List.mem_filter, beq_iff_eq]
    constructor
    · rintro ⟨e, ⟨he, hs⟩, hid⟩
      exact ⟨e, he, hs, hid⟩
    · rintro ⟨e, he, hs, hid⟩
      exact ⟨e, ⟨he, hs⟩, hid⟩
  · rw [if_neg hany]
    simp only [Option.getD_none, List.any_nil, Bool.false_eq_true, false_iff, not_exists]
    rintro e ⟨he, hs, -⟩
    exact hany (List.any_eq_true.mpr ⟨e, he, by simpa using hs⟩)

/-! ## Membership characterisation of the reconciliation passes -/

theorem mem_verifyPass1Skills {ibp : List (String × IndexEntry)}
    {tr : List (String × List String)} {s : String} {skills : List Skill}
    {r : MissingRec} :
    r ∈ verifyPass1Skills ibp tr s skills ↔
      ∃ sk ∈ skills,
        (objGet ibp (canonicalPath s sk.id) = none ∧
          r = { source := s, id := sk.id, type := "index",
                path := some (canonicalPath s sk.id) }) ∨
        (∃ ie, objGet ibp (canonicalPath s sk.id) = some ie ∧
          hasTranslation tr s ie.id = false ∧
          r = { source := s, id := ie.id, type := "translation",
                path := some (canonicalPath s sk.id) }) := by
  induction skills with
  | nil => simp [verifyPass1Skills]
  | cons sk rest ih =>
      simp only [verifyPass1Skills]
      cases hbp : objGet ibp (canonicalPath s sk.id) with
      | none =>
          simp only [List.mem_cons]
          rw [ih]
          constructor
          · rintro (rfl | ⟨sk2, hsk2, hcase⟩)
            · exact ⟨sk, Or.inl rfl, Or.inl ⟨hbp, rfl⟩⟩
            · exact ⟨sk2, Or.inr hsk2, hcase⟩
          · rintro ⟨sk2, rfl | hsk2r, hcase⟩
            · rcases hcase with ⟨-, rfl⟩ | ⟨ie, hie, -, -⟩
              · exact Or.inl rfl
              · rw [hbp] at hie; cases hie
            · exact Or.inr ⟨sk2, hsk2r, hcase⟩
      | some ie =>
          by_cases htr : hasTranslation tr s ie.id
          · simp only [htr, if_true, List.mem_cons]
            rw [ih]
            constructor
            · rintro ⟨sk2, hsk2, hcase⟩
              exact ⟨sk2, Or.inr hsk2, hcase⟩
            · rintro ⟨sk2, rfl | hsk2r, hcase⟩
              · rcases hcase with ⟨hnone, -⟩ | ⟨ie2, hie2, htr2, -⟩
                · rw [hbp] at hnone; cases hnone
                · rw [hbp] at hie2
                  cases hie2
                  rw [htr] at htr2
                  cases htr2
              · exact ⟨sk2, hsk2r, hcase⟩
          · have htrf : hasTranslation tr s ie.id = false := by simpa using htr
            simp only [htrf, if_false, Bool.false_eq_true, List.mem_cons]
            rw [ih]
            constructor
            · rintro (rfl | ⟨sk2, hsk2, hcase⟩)
              · exact ⟨sk, Or.inl rfl, Or.inr ⟨ie, hbp, htrf, rfl⟩⟩
              · exact ⟨sk2, Or.inr hsk2, hcase⟩
            · rintro ⟨sk2, rfl | hsk2r, hcase⟩
              · rcases hcase with ⟨hnone, -⟩ | ⟨ie2, hie2, -, rfl⟩
                · rw [hbp] at hnone; cases hnone
                · rw [hbp] at hie2
                  cases hie2
                  exact Or.inl rfl
              · exact Or.inr ⟨sk2, hsk2r, hcase⟩

theorem mem_verifyPass1 {ibp : List (String × IndexEntry)}
    {tr : List (String × List String)} {stats : List (String × List Skill)}
    {r : MissingRec} :
    r ∈ verifyPass1 ibp tr stats ↔
      ∃ s skills, (s, skills) ∈ stats ∧ r ∈ verifyPass1Skills ibp tr s skills := by
  induction stats with
  | nil => simp [verifyPass1]
  | cons p rest ih =>
      obtain ⟨s, skills⟩ := p
      simp only [verifyPass1, List.mem_append]
      rw [ih]
      constructor
      · rintro (h | ⟨s2, sk2, hmem, h⟩)
        · exact ⟨s, skills, List.mem_cons_self _ _, h⟩
        · exact ⟨s2, sk2, List.mem_cons_of_mem _ hmem, h⟩
      · rintro ⟨s2, sk2, hmem, h⟩
        rcases List.mem_cons.mp hmem with heq | hmemr
        · rw [Prod.mk.injEq] at heq
          obtain ⟨rfl, rfl⟩ := heq
          exact Or.inl h
        · exact Or.inr ⟨s2, sk2, hmemr, h⟩

theorem verifyPass2_type {root : FsRoot} {entries : List IndexEntry} :
    ∀ r ∈ verifyPass2 root entries, r.type = "skillDir" := by
  induction entries with
  | nil => simp [verifyPass2]
  | cons e rest ih =>
      intro r hr
      simp only [verifyPass2] at hr
      by_cases hex : existsAt root (pathComponents e.path ++ ["SKILL.md"])
      · rw [if_pos hex] at hr
        exact ih r hr
      · rw [if_neg hex] at hr
        rcases List.mem_cons.mp hr with rfl | hr2
        · rfl
        · exact ih r hr2

theorem verifyPass4_type {broken : List BrokenDir} :
    ∀ r ∈ verifyPass4 broken, r.type = "missingSkillMd" := by
  intro r hr
  obtain ⟨b, -, rfl⟩ := List.mem_map.mp hr
  rfl

theorem mem_verifyPass3Ids {ibs : List (String × List IndexEntry)} {s : String}
    {ids : List String} {r : OrphanRec} :
    r ∈ verifyPass3Ids ibs s ids ↔
      ∃ i ∈ ids,
        (((objGet ibs s).getD []).any (fun e => e.id == i)) = false ∧
        r = { source := s, id := i, type := "translation" } := by
  induction ids with
  | nil => simp [verifyPass3Ids]
  | cons i rest ih =>
      simp only [verifyPass3Ids]
      by_cases hchk : (((objGet ibs s).getD []).any (fun e => e.id == i)) = true
      · rw [if_pos hchk, ih]
        constructor
        · rintro ⟨i2, hi2, h⟩
          exact ⟨i2, List.mem_cons_of_mem _ hi2, h⟩
        · rintro ⟨i2, hi2, hfalse, heq⟩
          rcases List.mem_cons.mp hi2 with rfl | hi2r
          · rw [hchk] at hfalse; cases hfalse
          · exact ⟨i2, hi2r, hfalse, heq⟩
      · have hchkf : (((objGet ibs s).getD []).any (fun e => e.id == i)) = false := by
          simpa using hchk
        rw [if_neg hchk]
        simp only [List.mem_cons]
        rw [ih]
        constructor
        · rintro (rfl | ⟨i2, hi2, h⟩)
          · exact ⟨i, Or.inl rfl, hchkf, rfl⟩
          · exact ⟨i2, Or.inr hi2, h⟩
        · rintro ⟨i2, rfl | hi2r, hfalse, heq⟩
          · exact Or.inl heq
          · exact Or.inr ⟨i2, hi2r, hfalse, heq⟩

theorem mem_verifyPass3 {ibs : List (String × List IndexEntry)}
    {tr : List (String × List String)} {r : OrphanRec} :
    r ∈ verifyPass3 ibs tr ↔
      ∃ s ids, (s, ids) ∈ tr ∧ r ∈ verifyPass3Ids ibs s ids := by
  induction tr with
  | nil => simp [verifyPass3]
  | cons p rest ih =>
      obtain ⟨s, ids⟩ := p
      simp only [verifyPass3, List.mem_append]
      rw [ih]
      constructor
      · rintro (h | ⟨s2, ids2, hmem, h⟩)
        · exact ⟨s, ids, List.mem_cons_self _ _, h⟩
        · exact ⟨s2, ids2, List.mem_cons_of_mem _ hmem, h⟩
      · rintro ⟨s2, ids2, hmem, h⟩
        rcases List.mem_cons.mp hmem with heq | hmemr
        · rw [Prod.mk.injEq] at heq
          obtain ⟨rfl, rfl⟩ := heq
          exact Or.inl h
        · exact Or.inr ⟨s2, ids2, hmemr, h⟩

/-! ## Claim C2: missing-index reconciliation -/

def flatPairs (stats : List (String × List Skill)) : List (String × String) :=
  stats.flatMap (fun p => p.2.map (fun sk => (p.1, sk.id)))

theorem mem_flatPairs {stats : List (String × List Skill)} {s2 : String}
    {skills2 : List Skill} {x : Skill} (hmem : (s2, skills2) ∈ stats)
    (hx : x ∈ skills2) : (s2, x.id) ∈ flatPairs stats :=
  List.mem_flatMap.mpr ⟨(s2, skills2), hmem, List.mem_map.mpr ⟨x, hx, rfl⟩⟩

theorem verifyPass1_append (ibp : List (String × IndexEntry))
    (tr : List (String × List String)) (l1 l2 : List (String × List Skill)) :
    verifyPass1 ibp tr (l1 ++ l2) = verifyPass1 ibp tr l1 ++ verifyPass1 ibp tr l2 := by
  induction l1 with
  | nil => simp [verifyPass1]
  | cons p rest ih =>
      obtain ⟨s, skills⟩ := p
      simp [verifyPass1, ih]

theorem verifyPass1Skills_append (ibp : List (String × IndexEntry))
    (tr : List (String × List String)) (s : String) (l1 l2 : List Skill) :
    verifyPass1Skills ibp tr s (l1 ++ l2) =
      verifyPass1Skills ibp tr s l1 ++ verifyPass1Skills ibp tr s l2 := by
  induction l1 with
  | nil => simp [verifyPass1Skills]
  | cons sk rest ih =>
      simp only [List.cons_append, verifyPass1Skills]
      cases objGet ibp (canonicalPath s sk.id) with
      | none => simp [ih]
      | some ie =>
          by_cases htr : hasTranslation tr s ie.id
          · simp [htr, ih]
          · simp [htr, ih]

/-- No index-typed record matching source s and id i arises from
entries whose pairs all differ from (s, i). -/
theorem pass1_filter_index_nil {ibp : List (String × IndexEntry)}
    {tr : List (String × List String)} {stats : List (String × List Skill)}
    {s i : String}
    (h : ∀ s2 skills2 x, (s2, skills2) ∈ stats → x ∈ skills2 → ¬(s2 = s ∧ x.id = i)) :
    (verifyPass1 ibp tr stats).filter
      (fun r => r.type == "index" && r.source == s && r.id == i) = [] := by
  rw [List.filter_eq_nil_iff]
  intro r hr hp
  obtain ⟨s2, skills2, hmem, hrr⟩ := mem_verifyPass1.mp hr
  obtain ⟨x, hx, hcase⟩ := mem_verifyPass1Skills.mp hrr
  rcases hcase with ⟨-, rfl⟩ | ⟨ie, -, -, rfl⟩
  · simp only [Bool.and_eq_true, beq_iff_eq] at hp
    exact h s2 skills2 x hmem hx ⟨hp.1.2, hp.2⟩
  · simp at hp

/-- The same, for the inner loop of one source. -/
theorem pass1Skills_filter_index_nil {ibp : List (String × IndexEntry)}
    {tr : List (String × List String)} {s2 : String} {skills2 : List Skill}
    {s i : String} (h : ∀ x ∈ skills2, ¬(s2 = s ∧ x.id = i)) :
    (verifyPass1Skills ibp tr s2 skills2).filter
      (fun r => r.type == "index" && r.source == s && r.id == i) = [] := by
  rw [List.filter_eq_nil_iff]
  intro r hr hp
  obtain ⟨x, hx, hcase⟩ := mem_verifyPass1Skills.mp hr
  rcases hcase with ⟨-, rfl⟩ | ⟨ie, -, -, rfl⟩
  · simp only [Bool.and_eq_true, beq_iff_eq] at hp
    exact h x hx ⟨hp.1.2, hp.2⟩
  · simp at hp

/-- No missing-translation record ever carries a path absent from the
byPath table (the translation branch only runs after a successful
lookup). -/
theorem pass1_filter_transpath_nil {ibp : List (String × IndexEntry)}
    {tr : List (String × List String)} {stats : List (String × List Skill)}
    {P : String} (hbp : objGet ibp P = none) :
    (verifyPass1 ibp tr stats).filter
      (fun r => r.type == "translation" && r.path == some P) = [] := by
  rw [List.filter_eq_nil_iff]
  intro r hr hp
  obtain ⟨s2, skills2, hmem, hrr⟩ := mem_verifyPass1.mp hr
  obtain ⟨x, hx, hcase⟩ := mem_verifyPass1Skills.mp hrr
  rcases hcase with ⟨-, rfl⟩ | ⟨ie, hie, -, rfl⟩
  · simp at hp
  · simp only [Bool.and_eq_true, beq_iff_eq, Option.some.injEq] at hp
    rw [hp.2] at hie
    rw [hbp] at hie
    cases hie

theorem filter_type_ne_nil {l : List MissingRec} {t : String}
    (htypes : ∀ r ∈ l, r.type = t) {p : MissingRec → Bool}
    (hpt : ∀ r, p r = true → r.type ≠ t) :
    l.filter p = [] := by
  rw [List.filter_eq_nil_iff]
  intro r hr hp
  exact hpt r hp (htypes r hr)

/-- C2: a scanned entry whose canonical path matches no index record
produces exactly one missing record, of type index, with the scanned
source, id and canonical path, and no missing-translation record is
produced for that canonical path. -/
theorem C2_missing_index (root : FsRoot) (statsBySource : List (String × List Skill))
    (broken : List BrokenDir) (translations : List (String × List String))
    (indexEntries : List IndexEntry)
    (hnd : (flatPairs statsBySource).Nodup)
    (s : String) (skills : List Skill) (sk : Skill)
    (hmem : (s, skills) ∈ statsBySource) (hsk : sk ∈ skills)
    (hnoidx : ∀ e ∈ indexEntries, e.path ≠ canonicalPath s sk.id) :
    ((verifyTranslations root statsBySource broken translations indexEntries).1.filter
        (fun r => r.type == "index" && r.source == s && r.id == sk.id)) =
      [{ source := s, id := sk.id, type := "index",
         path := some (canonicalPath s sk.id) }] ∧
    ((verifyTranslations root statsBySource broken translations indexEntries).1.filter
        (fun r => r.type == "translation" &&
          r.path == some (canonicalPath s sk.id))) = [] := by
  have hbp : objGet (indexByPath indexEntries) (canonicalPath s sk.id) = none :=
    indexByPath_get_none hnoidx
  have hsplit : (verifyTranslations root statsBySource broken translations indexEntries).1 =
      verifyPass1 (indexByPath indexEntries) translations statsBySource ++
        verifyPass2 root indexEntries ++ verifyPass4 broken := rfl
  obtain ⟨pre, post, hstats⟩ := List.append_of_mem hmem
  obtain ⟨a, b, hskills⟩ := List.append_of_mem hsk
  -- Nodup consequences
  have hflat : flatPairs statsBySource =
      flatPairs pre ++ ((skills.map (fun x => (s, x.id))) ++ flatPairs post) := by
    rw [hstats]
    unfold flatPairs
    rw [List.flatMap_append, List.flatMap_cons]
  rw [hflat] at hnd
  have hpairmid : (s, sk.id) ∈ skills.map (fun x => (s, x.id)) :=
    List.mem_map.mpr ⟨sk, hsk, rfl⟩
  have hnotpre : (s, sk.id) ∉ flatPairs pre := by
    intro hin
    exact (List.disjoint_of_nodup_append hnd) hin (List.mem_append_left _ hpairmid)
  have hnd2 := (List.nodup_append.mp hnd).2.1
  have hnotpost : (s, sk.id) ∉ flatPairs post := by
    intro hin
    exact (List.disjoint_of_nodup_append hnd2) hpairmid hin
  have hmidnd := (List.nodup_append.mp hnd2).1
  have hmapsplit : skills.map (fun x => (s, x.id)) =
      (a.map (fun x => (s, x.id))) ++ ((s, sk.id) :: b.map (fun x => (s, x.id))) := by
    rw [hskills]
    simp
  rw [hmapsplit] at hmidnd
  have hnota : ∀ x ∈ a, ¬(x.id = sk.id) := by
    intro x hx hxi
    have hdis := List.disjoint_of_nodup_append hmidnd
    exact hdis (List.mem_map.mpr ⟨x, hx, by rw [hxi]⟩) (List.mem_cons_self _ _)
  have hnotb : ∀ x ∈ b, ¬(x.id = sk.id) := by
    intro x hx hxi
    have hnd3 := (List.nodup_append.mp hmidnd).2.1
    rw [List.nodup_cons] at hnd3
    exact hnd3.1 (List.mem_map.mpr ⟨x, hx, by rw [hxi]⟩)
  constructor
  · -- exactly one index record
    rw [hsplit, List.filter_append, List.filter_append]
    have h2 : (verifyPass2 root indexEntries).filter
        (fun r => r.type == "index" && r.source == s && r.id == sk.id) = [] := by
      refine filter_type_ne_nil verifyPass2_type ?_
      intro r hp
      simp only [Bool.and_eq_true, beq_iff_eq] at hp
      rw [hp.1.1]
      decide
    have h4 : (verifyPass4 broken).filter
        (fun r => r.type == "index" && r.source == s && r.id == sk.id) = [] := by
      refine filter_type_ne_nil verifyPass4_type ?_
      intro r hp
      simp only [Bool.and_eq_true, beq_iff_eq] at hp
      rw [hp.1.1]
      decide
    rw [h2, h4, List.append_nil, List.append_nil]
    rw [hstats, verifyPass1_append]
    rw [List.filter_append]
    have hpre : (verifyPass1 (indexByPath indexEntries) translations pre).filter
        (fun r => r.type == "index" && r.source == s && r.id == sk.id) = [] := by
      refine pass1_filter_index_nil ?_
      rintro s2 skills2 x hm hx ⟨rfl, hxi⟩
      exact hnotpre (by
        have := mem_flatPairs hm hx
        rwa [hxi] at this)
    rw [hpre, List.nil_append]
    show (verifyPass1 (indexByPath indexEntries) translations ((s, skills) :: post)).filter _ = _
    simp only [verifyPass1]
    rw [List.filter_append]
    have hpost : (verifyPass1 (indexByPath indexEntries) translations post).filter
        (fun r => r.type == "index" && r.source == s && r.id == sk.id) = [] := by
      refine pass1_filter_index_nil ?_
      rintro s2 skills2 x hm hx ⟨rfl, hxi⟩
      exact hnotpost (by
        have := mem_flatPairs hm hx
        rwa [hxi] at this)
    rw [hpost, List.append_nil]
    rw [hskills, verifyPass1Skills_append]
    rw [List.filter_append]
    have ha : (verifyPass1Skills (indexByPath indexEntries) translations s a).filter
        (fun r => r.type == "index" && r.source == s && r.id == sk.id) = [] := by
      refine pass1Skills_filter_index_nil ?_
      rintro x hx ⟨-, hxi⟩
      exact hnota x hx hxi
    rw [ha, List.nil_append]
    simp only [verifyPass1Skills, hbp]
    rw [List.filter_cons_of_pos (by simp)]
    have hbrest : (verifyPass1Skills (indexByPath indexEntries) translations s b).filter
        (fun r => r.type == "index" && r.source == s && r.id == sk.id) = [] := by
      refine pass1Skills_filter_index_nil ?_
      rintro x hx ⟨-, hxi⟩
      exact hnotb x hx hxi
    rw [hbrest]
  · -- no missing-translation record for that canonical path
    rw [hsplit, List.filter_append, List.filter_append]
    have h1 := @pass1_filter_transpath_nil _ translations statsBySource _ hbp
    have h2 : (verifyPass2 root indexEntries).filter
        (fun r => r.type == "translation" &&
          r.path == some (canonicalPath s sk.id)) = [] := by
      refine filter_type_ne_nil verifyPass2_type ?_
      intro r hp
      simp only [Bool.and_eq_true, beq_iff_eq] at hp
      rw [hp.1]
      decide
    have h4 : (verifyPass4 broken).filter
        (fun r => r.type == "translation" &&
          r.path == some (canonicalPath s sk.id)) = [] := by
      refine filter_type_ne_nil verifyPass4_type ?_
      intro r hp
      simp only [Bool.and_eq_true, beq_iff_eq] at hp
      rw [hp.1]
      decide
    rw [h1, h2, h4]
    rfl

/-- Witness for C2: one scanned skill, an empty index. -/
theorem C2_missing_index_witness :
    ((verifyTranslations none
        [("foo", [{ id := "bar", path := ["@foo", "bar", "SKILL.md"],
                    name := "bar", description := "" }])] [] [] []).1.filter
        (fun r => r.type == "index" && r.source == "foo" && r.id == "bar")) =
      [{ source := "foo", id := "bar", type := "index",
         path := some (canonicalPath "foo" "bar") }] ∧
    ((verifyTranslations none
        [("foo", [{ id := "bar", path := ["@foo", "bar", "SKILL.md"],
                    name := "bar", description := "" }])] [] [] []).1.filter
        (fun r => r.type == "translation" &&
          r.path == some (canonicalPath "foo" "bar"))) = [] :=
  C2_missing_index none _ [] [] [] (by decide) "foo" _
    { id := "bar", path := ["@foo", "bar", "SKILL.md"], name := "bar", description := "" }
    (List.mem_cons_self _ _) (List.mem_cons_self _ _) (by simp)

/-! ## Claim C3: the translation lookup keys -/

/-- The code looks the translation up as
translations[scannedSource][indexEntry.id]: the source key comes from
the scanned entry, not from the index record.  With an index record
whose source differs from the scanned source, and a translation
present under the index record's source, the claimed lookup
translations[indexRecord.source][indexRecord.id] succeeds and yet a
missing-translation record is produced. -/
theorem C3_translation_lookup_counterexample :
    (verifyTranslations
        (some [FsNode.dir "@foo" [FsNode.dir "bar" [FsNode.file "SKILL.md" ""]]])
        [("foo", [{ id := "bar", path := ["@foo", "bar", "SKILL.md"],
                    name := "bar", description := "" }])]
        []
        [("quux", ["bar"])]
        [{ id := "bar", source := "quux", path := "@foo/bar" }]).1 =
      [{ source := "foo", id := "bar", type := "translation",
         path := some "@foo/bar" }] ∧
    hasTranslation [("quux", ["bar"])] "quux" "bar" = true :=
  ⟨by decide, by decide⟩

theorem canonicalPath_inj_id {s i j : String}
    (h : canonicalPath s i = canonicalPath s j) : i = j := by
  unfold canonicalPath at h
  have h2 := congrArg String.data h
  simp only [String.data_append] at h2
  have h3 : i.data = j.data := List.append_cancel_left h2
  cases i with
  | mk d1 =>
      cases j with
      | mk d2 =>
          have : d1 = d2 := h3
          rw [this]

theorem pass1Skills_filter_trans_nil {ibp : List (String × IndexEntry)}
    {tr : List (String × List String)} {s2 : String} {skills2 : List Skill}
    {s i : String} (h : ∀ x ∈ skills2, ¬(s2 = s ∧ x.id = i)) :
    (verifyPass1Skills ibp tr s2 skills2).filter
      (fun r => r.type == "translation" && r.source == s &&
        r.path == some (canonicalPath s i)) = [] := by
  rw [List.filter_eq_nil_iff]
  intro r hr hp
  obtain ⟨x, hx, hcase⟩ := mem_verifyPass1Skills.mp hr
  rcases hcase with ⟨-, rfl⟩ | ⟨ie, -, -, rfl⟩
  · simp at hp
  · simp only [Bool.and_eq_true, beq_iff_eq, Option.some.injEq] at hp
    obtain ⟨⟨-, hs2⟩, hpath⟩ := hp
    subst hs2
    exact h x hx ⟨rfl, canonicalPath_inj_id hpath⟩

theorem pass1_filter_trans_nil {ibp : List (String × IndexEntry)}
    {tr : List (String × List String)} {stats : List (String × List Skill)}
    {s i : String}
    (h : ∀ s2 skills2 x, (s2, skills2) ∈ stats → x ∈ skills2 → ¬(s2 = s ∧ x.id = i)) :
    (verifyPass1 ibp tr stats).filter
      (fun r => r.type == "translation" && r.source == s &&
        r.path == some (canonicalPath s i)) = [] := by
  rw [List.filter_eq_nil_iff]
  intro r hr hp
  obtain ⟨s2, skills2, hmem, hrr⟩ := mem_verifyPass1.mp hr
  obtain ⟨x, hx, hcase⟩ := mem_verifyPass1Skills.mp hrr
  rcases hcase with ⟨-, rfl⟩ | ⟨ie, -, -, rfl⟩
  · simp at hp
  · simp only [Bool.and_eq_true, beq_iff_eq, Option.some.injEq] at hp
    obtain ⟨⟨-, hs2⟩, hpath⟩ := hp
    subst hs2
    exact h s2 skills2 x hmem hx ⟨rfl, canonicalPath_inj_id hpath⟩

/-- C3 amended: for a scanned entry whose canonical path matches an
index record, a missing-translation record for that entry is produced
exactly when the translation manifest lacks
translations[scannedSource][indexRecord.id]: the id key comes from
the matching index record, the source key from the scanned entry. -/
theorem C3_translation_lookup_amended (root : FsRoot)
    (statsBySource : List (String × List Skill)) (broken : List BrokenDir)
    (translations : List (String × List String)) (indexEntries : List IndexEntry)
    (hnd : (flatPairs statsBySource).Nodup)
    (s : String) (skills : List Skill) (sk : Skill)
    (hmem : (s, skills) ∈ statsBySource) (hsk : sk ∈ skills)
    (ie : IndexEntry)
    (hie : objGet (indexByPath indexEntries) (canonicalPath s sk.id) = some ie) :
    ((verifyTranslations root statsBySource broken translations indexEntries).1.filter
        (fun r => r.type == "translation" && r.source == s &&
          r.path == some (canonicalPath s sk.id))) =
      (if hasTranslation translations s ie.id then []
       else [{ source := s, id := ie.id, type := "translation",
               path := some (canonicalPath s sk.id) }]) := by
  have hsplit : (verifyTranslations root statsBySource broken translations indexEntries).1 =
      verifyPass1 (indexByPath indexEntries) translations statsBySource ++
        verifyPass2 root indexEntries ++ verifyPass4 broken := rfl
  obtain ⟨pre, post, hstats⟩ := List.append_of_mem hmem
  obtain ⟨a, b, hskills⟩ := List.append_of_mem hsk
  have hflat : flatPairs statsBySource =
      flatPairs pre ++ ((skills.map (fun x => (s, x.id))) ++ flatPairs post) := by
    rw [hstats]
    unfold flatPairs
    rw [List.flatMap_append, List.flatMap_cons]
  rw [hflat] at hnd
  have hpairmid : (s, sk.id) ∈ skills.map (fun x => (s, x.id)) :=
    List.mem_map.mpr ⟨sk, hsk, rfl⟩
  have hnotpre : (s, sk.id) ∉ flatPairs pre := by
    intro hin
    exact (List.disjoint_of_nodup_append hnd) hin (List.mem_append_left _ hpairmid)
  have hnd2 := (List.nodup_append.mp hnd).2.1
  have hnotpost : (s, sk.id) ∉ flatPairs post := by
    intro hin
    exact (List.disjoint_of_nodup_append hnd2) hpairmid hin
  have hmidnd := (List.nodup_append.mp hnd2).1
  have hmapsplit : skills.map (fun x => (s, x.id)) =
      (a.map (fun x => (s, x.id))) ++ ((s, sk.id) :: b.map (fun x => (s, x.id))) := by
    rw [hskills]
    simp
  rw [hmapsplit] at hmidnd
  have hnota : ∀ x ∈ a, ¬(x.id = sk.id) := by
    intro x hx hxi
    have hdis := List.disjoint_of_nodup_append hmidnd
    exact hdis (List.mem_map.mpr ⟨x, hx, by rw [hxi]⟩) (List.mem_cons_self _ _)
  have hnotb : ∀ x ∈ b, ¬(x.id = sk.id) := by
    intro x hx hxi
    have hnd3 := (List.nodup_append.mp hmidnd).2.1
    rw [List.nodup_cons] at hnd3
    exact hnd3.1 (List.mem_map.mpr ⟨x, hx, by rw [hxi]⟩)
  rw [hsplit, List.filter_append, List.filter_append]
  have h2 : (verifyPass2 root indexEntries).filter
      (fun r => r.type == "translation" && r.source == s &&
        r.path == some (canonicalPath s sk.id)) = [] := by
    refine filter_type_ne_nil verifyPass2_type ?_
    intro r hp
    simp only [Bool.and_eq_true, beq_iff_eq] at hp
    rw [hp.1.1]
    decide
  have h4 : (verifyPass4 broken).filter
      (fun r => r.type == "translation" && r.source == s &&
        r.path == some (canonicalPath s sk.id)) = [] := by
    refine filter_type_ne_nil verifyPass4_type ?_
    intro r hp
    simp only [Bool.and_eq_true, beq_iff_eq] at hp
    rw [hp.1.1]
    decide
  rw [h2, h4, List.append_nil, List.append_nil]
  rw [hstats, verifyPass1_append, List.filter_append]
  have hpre : (verifyPass1 (indexByPath indexEntries) translations pre).filter
      (fun r => r.type == "translation" && r.source == s &&
        r.path == some (canonicalPath s sk.id)) = [] := by
    refine pass1_filter_trans_nil ?_
    rintro s2 skills2 x hm hx ⟨rfl, hxi⟩
    exact hnotpre (by
      have := mem_flatPairs hm hx
      rwa [hxi] at this)
  rw [hpre, List.nil_append]
  show (verifyPass1 (indexByPath indexEntries) translations ((s, skills) :: post)).filter _ = _
  simp only [verifyPass1]
  rw [List.filter_append]
  have hpost : (verifyPass1 (indexByPath indexEntries) translations post).filter
      (fun r => r.type == "translation" && r.source == s &&
        r.path == some (canonicalPath s sk.id)) = [] := by
    refine pass1_filter_trans_nil ?_
    rintro s2 skills2 x hm hx ⟨rfl, hxi⟩
    exact hnotpost (by
      have := mem_flatPairs hm hx
      rwa [hxi] at this)
  rw [hpost, List.append_nil]
  rw [hskills, verifyPass1Skills_append, List.filter_append]
  have ha : (verifyPass1Skills (indexByPath indexEntries) translations s a).filter
      (fun r => r.type == "translation" && r.source == s &&
        r.path == some (canonicalPath s sk.id)) = [] := by
    refine pass1Skills_filter_trans_nil ?_
    rintro x hx ⟨-, hxi⟩
    exact hnota x hx hxi
  rw [ha, List.nil_append]
  have hb : (verifyPass1Skills (indexByPath indexEntries) translations s b).filter
      (fun r => r.type == "translation" && r.source == s &&
        r.path == some (canonicalPath s sk.id)) = [] := by
    refine pass1Skills_filter_trans_nil ?_
    rintro x hx ⟨-, hxi⟩
    exact hnotb x hx hxi
  simp only [verifyPass1Skills, hie]
  by_cases htr : hasTranslation translations s ie.id
  · rw [if_pos htr, if_pos htr, hb]
  · rw [if_neg htr, if_neg htr]
    rw [List.filter_cons_of_pos (by simp)]
    rw [hb]

/-- Witness for the amended C3: index record with a foreign source,
translation present only under that foreign source, so the lookup
under the scanned source fails and the record is produced with the
index record's id. -/
theorem C3_translation_lookup_amended_witness :
    ((verifyTranslations
        (some [FsNode.dir "@foo" [FsNode.dir "bar" [FsNode.file "SKILL.md" ""]]])
        [("foo", [{ id := "bar", path := ["@foo", "bar", "SKILL.md"],
                    name := "bar", description := "" }])]
        []
        [("quux", ["bar"])]
        [{ id := "bar", source := "quux", path := "@foo/bar" }]).1.filter
        (fun r => r.type == "translation" && r.source == "foo" &&
          r.path == some (canonicalPath "foo" "bar"))) =
      (if hasTranslation [("quux", ["bar"])] "foo"
          ({ id := "bar", source := "quux", path := "@foo/bar" } : IndexEntry).id then []
       else [{ source := "foo",
               id := ({ id := "bar", source := "quux", path := "@foo/bar" } : IndexEntry).id,
               type := "translation",
               path := some (canonicalPath "foo" "bar") }]) :=
  C3_translation_lookup_amended
    (some [FsNode.dir "@foo" [FsNode.dir "bar" [FsNode.file "SKILL.md" ""]]])
    _ [] [("quux", ["bar"])] [{ id := "bar", source := "quux", path := "@foo/bar" }]
    (by decide) "foo" _
    { id := "bar", path := ["@foo", "bar", "SKILL.md"], name := "bar", description := "" }
    (List.mem_cons_self _ _) (List.mem_cons_self _ _)
    { id := "bar", source := "quux", path := "@foo/bar" } rfl

/-! ## Claim C4: orphaned translations -/

def flatTransPairs (tr : List (String × List String)) : List (String × String) :=
  tr.flatMap (fun p => p.2.map (fun i => (p.1, i)))

theorem mem_flatTransPairs {tr : List (String × List String)} {s2 : String}
    {ids2 : List String} {i : String} (hmem : (s2, ids2) ∈ tr) (hi : i ∈ ids2) :
    (s2, i) ∈ flatTransPairs tr :=
  List.mem_flatMap.mpr ⟨(s2, ids2), hmem, List.mem_map.mpr ⟨i, hi, rfl⟩⟩

theorem verifyPass3_append (ibs : List (String × List IndexEntry))
    (l1 l2 : List (String × List String)) :
    verifyPass3 ibs (l1 ++ l2) = verifyPass3 ibs l1 ++ verifyPass3 ibs l2 := by
  induction l1 with
  | nil => simp [verifyPass3]
  | cons p rest ih =>
      obtain ⟨s, ids⟩ := p
      simp [verifyPass3, ih]

theorem verifyPass3Ids_append (ibs : List (String × List IndexEntry)) (s : String)
    (l1 l2 : List String) :
    verifyPass3Ids ibs s (l1 ++ l2) =
      verifyPass3Ids ibs s l1 ++ verifyPass3Ids ibs s l2 := by
  induction l1 with
  | nil => simp [verifyPass3Ids]
  | cons i rest ih =>
      simp only [List.cons_append, verifyPass3Ids]
      by_cases hchk : (((objGet ibs s).getD []).any (fun e => e.id == i)) = true
      · simp [hchk, ih]
      · simp [hchk, ih]

/-- Orphan records from pairs other than (s, i) never match the
filter. -/
theorem pass3_filter_nil {ibs : List (String × List IndexEntry)}
    {tr : List (String × List String)} {s i : String}
    (h : ∀ s2 ids2 i2, (s2, ids2) ∈ tr → i2 ∈ ids2 → ¬(s2 = s ∧ i2 = i)) :
    (verifyPass3 ibs tr).filter (fun r => r.source == s && r.id == i) = [] := by
  rw [List.filter_eq_nil_iff]
  intro r hr hp
  obtain ⟨s2, ids2, hmem, hrr⟩ := mem_verifyPass3.mp hr
  obtain ⟨i2, hi2, -, rfl⟩ := mem_verifyPass3Ids.mp hrr
  simp only [Bool.and_eq_true, beq_iff_eq] at hp
  exact h s2 ids2 i2 hmem hi2 ⟨hp.1, hp.2⟩

theorem pass3Ids_filter_nil {ibs : List (String × List IndexEntry)} {s2 : String}
    {ids2 : List String} {s i : String}
    (h : ∀ i2 ∈ ids2, ¬(s2 = s ∧ i2 = i)) :
    (verifyPass3Ids ibs s2 ids2).filter (fun r => r.source == s && r.id == i) = [] := by
  rw [List.filter_eq_nil_iff]
  intro r hr hp
  obtain ⟨i2, hi2, -, rfl⟩ := mem_verifyPass3Ids.mp hr
  simp only [Bool.and_eq_true, beq_iff_eq] at hp
  exact h i2 hi2 ⟨hp.1, hp.2⟩

/-- C4: a (source, id) pair of the translation manifest is reported
as orphaned exactly one time when no index record with that source
carries that id, and never reported when the index has it — whatever
the scanned directories contain (the scanned stats and broken lists
are arbitrary here and do not enter the orphan pass). -/
theorem C4_orphaned_translations (root : FsRoot)
    (statsBySource : List (String × List Skill)) (broken : List BrokenDir)
    (translations : List (String × List String)) (indexEntries : List IndexEntry)
    (hnd : (flatTransPairs translations).Nodup)
    (s : String) (ids : List String) (i : String)
    (hmem : (s, ids) ∈ translations) (hid : i ∈ ids) :
    ((∀ e ∈ indexEntries, ¬(e.source = s ∧ e.id = i)) →
      (verifyTranslations root statsBySource broken translations indexEntries).2.filter
          (fun r => r.source == s && r.id == i) =
        [{ source := s, id := i, type := "translation" }]) ∧
    ((∃ e ∈ indexEntries, e.source = s ∧ e.id = i) →
      (verifyTranslations root statsBySource broken translations indexEntries).2.filter
          (fun r => r.source == s && r.id == i) = []) := by
  have hsplit : (verifyTranslations root statsBySource broken translations indexEntries).2 =
      verifyPass3 (indexBySource indexEntries) translations := rfl
  constructor
  · intro hno
    have hchk : (((objGet (indexBySource indexEntries) s).getD []).any
        (fun e => e.id == i)) = false := by
      rw [Bool.eq_false_iff]
      intro htrue
      obtain ⟨e, he, hs2, hi2⟩ := (indexBySource_ids indexEntries s i).mp htrue
      exact hno e he ⟨hs2, hi2⟩
    obtain ⟨pre, post, htr⟩ := List.append_of_mem hmem
    obtain ⟨a, b, hids⟩ := List.append_of_mem hid
    have hflat : flatTransPairs translations =
        flatTransPairs pre ++ ((ids.map (fun x => (s, x))) ++ flatTransPairs post) := by
      rw [htr]
      unfold flatTransPairs
      rw [List.flatMap_append, List.flatMap_cons]
    rw [hflat] at hnd
    have hpairmid : (s, i) ∈ ids.map (fun x => (s, x)) :=
      List.mem_map.mpr ⟨i, hid, rfl⟩
    have hnotpre : (s, i) ∉ flatTransPairs pre := by
      intro hin
      exact (List.disjoint_of_nodup_append hnd) hin (List.mem_append_left _ hpairmid)
    have hnd2 := (List.nodup_append.mp hnd).2.1
    have hnotpost : (s, i) ∉ flatTransPairs post := by
      intro hin
      exact (List.disjoint_of_nodup_append hnd2) hpairmid hin
    have hmidnd := (List.nodup_append.mp hnd2).1
    have hmapsplit : ids.map (fun x => (s, x)) =
        (a.map (fun x => (s, x))) ++ ((s, i) :: b.map (fun x => (s, x))) := by
      rw [hids]
      simp
    rw [hmapsplit] at hmidnd
    have hnota : ∀ x ∈ a, ¬(x = i) := by
      intro x hx hxi
      have hdis := List.disjoint_of_nodup_append hmidnd
      exact hdis (List.mem_map.mpr ⟨x, hx, by rw [hxi]⟩) (List.mem_cons_self _ _)
    have hnotb : ∀ x ∈ b, ¬(x = i) := by
      intro x hx hxi
      have hnd3 := (List.nodup_append.mp hmidnd).2.1
      rw [List.nodup_cons] at hnd3
      exact hnd3.1 (List.mem_map.mpr ⟨x, hx, by rw [hxi]⟩)
    rw [hsplit, htr, verifyPass3_append, List.filter_append]
    have hpre : (verifyPass3 (indexBySource indexEntries) pre).filter
        (fun r => r.source == s && r.id == i) = [] := by
      refine pass3_filter_nil ?_
      rintro s2 ids2 i2 hm hi2 ⟨rfl, rfl⟩
      exact hnotpre (mem_flatTransPairs hm hi2)
    rw [hpre, List.nil_append]
    show (verifyPass3 (indexBySource indexEntries) ((s, ids) :: post)).filter _ = _
    simp only [verifyPass3]
    rw [List.filter_append]
    have hpost : (verifyPass3 (indexBySource indexEntries) post).filter
        (fun r => r.source == s && r.id == i) = [] := by
      refine pass3_filter_nil ?_
      rintro s2 ids2 i2 hm hi2 ⟨rfl, rfl⟩
      exact hnotpost (mem_flatTransPairs hm hi2)
    rw [hpost, List.append_nil]
    rw [hids, verifyPass3Ids_append, List.filter_append]
    have ha : (verifyPass3Ids (indexBySource indexEntries) s a).filter
        (fun r => r.source == s && r.id == i) = [] := by
      refine pass3Ids_filter_nil ?_
      rintro x hx ⟨-, rfl⟩
      exact hnota x hx rfl
    rw [ha, List.nil_append]
    simp only [verifyPass3Ids, hchk]
    rw [if_neg (by simp)]
    rw [List.filter_cons_of_pos (by simp)]
    have hb : (verifyPass3Ids (indexBySource indexEntries) s b).filter
        (fun r => r.source == s && r.id == i) = [] := by
      refine pass3Ids_filter_nil ?_
      rintro x hx ⟨-, rfl⟩
      exact hnotb x hx rfl
    rw [hb]
  · rintro ⟨e, he, hs2, hi2⟩
    rw [hsplit, List.filter_eq_nil_iff]
    intro r hr hp
    obtain ⟨s2, ids2, hm, hrr⟩ := mem_verifyPass3.mp hr
    obtain ⟨i2, hi2m, hfalse, rfl⟩ := mem_verifyPass3Ids.mp hrr
    simp only [Bool.and_eq_true, beq_iff_eq] at hp
    obtain ⟨rfl, rfl⟩ := hp
    rw [Bool.eq_false_iff] at hfalse
    exact hfalse ((indexBySource_ids indexEntries s2 i2).mpr ⟨e, he, hs2, hi2⟩)

/-- Witness for C4: the pair (foo, baz) has no index record and is
orphaned; the pair (foo, keep) is indexed and is not orphaned even
though nothing is scanned at all. -/
theorem C4_orphaned_translations_witness :
    ((verifyTranslations none [] [] [("foo", ["baz", "keep"])]
        [{ id := "keep", source := "foo", path := "@foo/keep" }]).2.filter
        (fun r => r.source == "foo" && r.id == "baz") =
      [{ source := "foo", id := "baz", type := "translation" }]) ∧
    ((verifyTranslations none [] [] [("foo", ["baz", "keep"])]
        [{ id := "keep", source := "foo", path := "@foo/keep" }]).2.filter
        (fun r => r.source == "foo" && r.id == "keep") = []) := by
  constructor
  · exact (C4_orphaned_translations none [] [] [("foo", ["baz", "keep"])]
      [{ id := "keep", source := "foo", path := "@foo/keep" }] (by decide)
      "foo" ["baz", "keep"] "baz" (List.mem_cons_self _ _)
      (List.mem_cons_self _ _)).1 (by
        intro e he h
        rcases List.mem_cons.mp he with rfl | hnil
        · exact absurd h.2 (by decide)
        · cases hnil)
  · exact (C4_orphaned_translations none [] [] [("foo", ["baz", "keep"])]
      [{ id := "keep", source := "foo", path := "@foo/keep" }] (by decide)
      "foo" ["baz", "keep"] "keep" (List.mem_cons_self _ _)
      (List.mem_cons_of_mem _ (List.mem_cons_self _ _))).2
      ⟨{ id := "keep", source := "foo", path := "@foo/keep" },
        List.mem_cons_self _ _, rfl, rfl⟩

/-! ## List and matcher lemmas for the frontmatter claims -/

theorem isPrefixOf_append_self (l t : List Char) : l.isPrefixOf (l ++ t) = true := by
  induction l with
  | nil => simp [List.isPrefixOf]
  | cons c rest ih => simp [List.isPrefixOf, ih]

theorem isPrefixOf_head_ne {a b : Char} (h : ¬a = b) (l1 l2 : List Char) :
    (a :: l1).isPrefixOf (b :: l2) = false := by
  simp [List.isPrefixOf, h]

/-- A newline-free pattern prefix crossing a line boundary must fit in
the line. -/
theorem isPrefixOf_append_cons_noNl {key l t : List Char}
    (hnl : ∀ c ∈ key, ¬c = '\n')
    (h : key.isPrefixOf (l ++ '\n' :: t) = true) : key.isPrefixOf l = true := by
  induction key generalizing l with
  | nil => simp [List.isPrefixOf]
  | cons c ck ih =>
      cases l with
      | nil =>
          simp only [List.nil_append, List.isPrefixOf, Bool.and_eq_true, beq_iff_eq] at h
          exact absurd h.1 (hnl c (List.mem_cons_self _ _))
      | cons d dl =>
          simp only [List.cons_append, List.isPrefixOf, Bool.and_eq_true] at h ⊢
          exact ⟨h.1, ih (fun x hx => hnl x (List.mem_cons_of_mem _ hx)) h.2⟩

theorem splitNl_noNl {l : List Char} (h : ∀ c ∈ l, ¬c = '\n') : splitNl l = [l] := by
  induction l with
  | nil => rfl
  | cons c rest ih =>
      have hc : ¬c = '\n' := h c (List.mem_cons_self _ _)
      simp only [splitNl, hc, if_false]
      rw [ih (fun x hx => h x (List.mem_cons_of_mem _ hx))]

theorem splitNl_append_noNl {l1 : List Char} (rest : List Char)
    (h : ∀ c ∈ l1, ¬c = '\n') :
    splitNl (l1 ++ '\n' :: rest) = l1 :: splitNl rest := by
  induction l1 with
  | nil => simp [splitNl]
  | cons c tl ih =>
      have hc : ¬c = '\n' := h c (List.mem_cons_self _ _)
      simp only [List.cons_append, splitNl, hc, if_false, List.append_eq]
      rw [ih (fun x hx => h x (List.mem_cons_of_mem _ hx))]

theorem beforeFirst_append_noNl {pat2 a : List Char} (s : List Char)
    (h : ∀ c ∈ a, ¬c = '\n') :
    beforeFirst ('\n' :: pat2) (a ++ s) =
      (beforeFirst ('\n' :: pat2) s).map (a ++ ·) := by
  induction a with
  | nil =>
      simp only [List.nil_append]
      cases beforeFirst ('\n' :: pat2) s <;> simp
  | cons c tl ih =>
      have hc : ¬c = '\n' := h c (List.mem_cons_self _ _)
      simp only [List.cons_append, beforeFirst,
        isPrefixOf_head_ne (fun hh => hc hh.symm), Bool.false_eq_true, if_false,
        List.append_eq]
      rw [ih (fun x hx => h x (List.mem_cons_of_mem _ hx))]
      cases beforeFirst ('\n' :: pat2) s <;> simp

theorem beforeFirst_self (pat2 t : List Char) :
    beforeFirst ('\n' :: pat2) (('\n' :: pat2) ++ t) = some [] := by
  simp only [List.cons_append, beforeFirst, List.append_eq]
  rw [show (('\n' :: pat2).isPrefixOf ('\n' :: (pat2 ++ t))) = true from
    isPrefixOf_append_self ('\n' :: pat2) t]
  simp

theorem drop_append_le {α : Type} :
    ∀ {n : Nat} (l1 l2 : List α), n ≤ l1.length → (l1 ++ l2).drop n = l1.drop n ++ l2 := by
  intro n
  induction n with
  | zero => intro l1 l2 _; simp
  | succ k ih =>
      intro l1 l2 h
      cases l1 with
      | nil => simp at h
      | cons a tl =>
          simp only [List.cons_append, List.drop_succ_cons]
          exact ih tl l2 (by simpa using h)

theorem takeWhile_all_of {p : Char → Bool} {l : List Char}
    (h : ∀ c ∈ l, p c = true) : l.takeWhile p = l := by
  induction l with
  | nil => rfl
  | cons c rest ih =>
      rw [List.takeWhile_cons_of_pos (h c (List.mem_cons_self _ _))]
      rw [ih (fun x hx => h x (List.mem_cons_of_mem _ hx))]

theorem takeWhile_ne_nl_append {x : List Char} (r : List Char)
    (h : ∀ c ∈ x, ¬c = '\n') :
    (x ++ '\n' :: r).takeWhile (fun c => c != '\n') = x := by
  rw [List.takeWhile_append_of_pos (by
    intro a ha
    simpa using h a ha)]
  simp

/-- scanKeyed finds nothing when no line starts with the
(newline-free) key. -/
theorem scanKeyed_eq_none {key : List Char} {matcher : List Char → Option (List Char)}
    {s : List Char} (hkey : ∀ c ∈ key, ¬c = '\n')
    (h : ∀ l ∈ splitNl s, key.isPrefixOf l = false) :
    scanKeyed key matcher s = none := by
  have hsuf : ∀ suf ∈ suffixesOfLines (splitNl s), key.isPrefixOf suf = false := by
    have haux : ∀ (lines : List (List Char)),
        (∀ l ∈ lines, key.isPrefixOf l = false) →
        ∀ suf ∈ suffixesOfLines lines, key.isPrefixOf suf = false := by
      intro lines
      induction lines with
      | nil => intro _ suf hsuf; cases hsuf
      | cons l rest ih =>
          intro hl suf hsuf
          cases rest with
          | nil =>
              simp only [suffixesOfLines, List.mem_singleton] at hsuf
              subst hsuf
              exact hl _ (List.mem_cons_self _ _)
          | cons l2 ls =>
              simp only [suffixesOfLines] at hsuf
              cases hrec : suffixesOfLines (l2 :: ls) with
              | nil =>
                  rw [hrec] at hsuf
                  simp only [List.mem_singleton] at hsuf
                  subst hsuf
                  exact hl _ (List.mem_cons_self _ _)
              | cons t ts =>
                  rw [hrec] at hsuf
                  rcases List.mem_cons.mp hsuf with rfl | hsuf2
                  · rw [Bool.eq_false_iff]
                    intro htrue
                    have := isPrefixOf_append_cons_noNl hkey htrue
                    rw [hl l (List.mem_cons_self _ _)] at this
                    cases this
                  · refine ih (fun x hx => hl x (List.mem_cons_of_mem _ hx)) suf ?_
                    rw [hrec]
                    exact hsuf2
    exact haux (splitNl s) h
  have hfold : ∀ (L : List (List Char)),
      (∀ suf ∈ L, key.isPrefixOf suf = false) →
      L.foldr (fun suf acc =>
        match (if key.isPrefixOf suf then matcher (suf.drop key.length) else none) with
        | some g => some g
        | none => acc) none = none := by
    intro L
    induction L with
    | nil => intro _; rfl
    | cons suf rest ih =>
        intro hL
        simp only [List.foldr_cons]
        rw [hL suf (List.mem_cons_self _ _)]
        simp only [Bool.false_eq_true, if_false]
        exact ih (fun x hx => hL x (List.mem_cons_of_mem _ hx))
  exact hfold _ hsuf

/-! ## Claim C7: metadata fallbacks -/

/-- C7: metadata extraction is total (it never raises: it is a
function into pairs).  Without a frontmatter block it returns the
parent directory name and the empty description; with a block but
without a name line, the name falls back to the directory name alone;
with a block but without a description line, the description falls
back to empty alone. -/
theorem parseSkillMetadata_some {dirName content : String} {fm : List Char}
    (h : extractFrontmatter content.toList = some fm) :
    parseSkillMetadata dirName content =
      ((match scanKeyed "name:".toList matchNameVal fm with
        | some g => String.mk (jsTrim g)
        | none => dirName),
       (match scanKeyed "description:".toList matchDescVal fm with
        | some g => String.mk (jsTrim g)
        | none => "")) := by
  unfold parseSkillMetadata
  rw [h]

theorem C7_metadata_fallbacks (dirName : String) (content : String) :
    (extractFrontmatter content.toList = none →
      parseSkillMetadata dirName content = (dirName, "")) ∧
    (∀ fm, extractFrontmatter content.toList = some fm →
      ((∀ l ∈ splitNl fm, (("name:".toList).isPrefixOf l) = false) →
        (parseSkillMetadata dirName content).1 = dirName) ∧
      ((∀ l ∈ splitNl fm, (("description:".toList).isPrefixOf l) = false) →
        (parseSkillMetadata dirName content).2 = "")) := by
  constructor
  · intro hnone
    unfold parseSkillMetadata
    rw [hnone]
  · intro fm hsome
    constructor
    · intro hnoline
      rw [parseSkillMetadata_some hsome,
        scanKeyed_eq_none (by decide) hnoline]
    · intro hnoline
      rw [parseSkillMetadata_some hsome,
        scanKeyed_eq_none (by decide) hnoline]

/-- Witness for C7: a file without a block, and a file whose block
has neither field line. -/
theorem C7_metadata_fallbacks_witness :
    parseSkillMetadata "lambda" "just prose, no block" = ("lambda", "") ∧
    (parseSkillMetadata "lambda" "---\nother: 1\n---\nbody").1 = "lambda" ∧
    (parseSkillMetadata "lambda" "---\nother: 1\n---\nbody").2 = "" := by
  refine ⟨(C7_metadata_fallbacks "lambda" "just prose, no block").1 (by decide),
    ((C7_metadata_fallbacks "lambda" "---\nother: 1\n---\nbody").2
      ("other: 1".toList) (by decide)).1 (by decide),
    ((C7_metadata_fallbacks "lambda" "---\nother: 1\n---\nbody").2
      ("other: 1".toList) (by decide)).2 (by decide)⟩

/-! ## Claim C5: quote handling of the two field patterns -/

theorem matchWsEol_append_quote {y : List Char} (h : ∀ c ∈ y, ¬c = '\n') :
    matchWsEol (y ++ ['"']) = false := by
  induction y with
  | nil => decide
  | cons c ytl ih =>
      have hc : ¬c = '\n' := h c (List.mem_cons_self _ _)
      simp only [List.cons_append, matchWsEol, hc, if_false]
      by_cases hws : wsChar c
      · rw [if_pos hws]
        exact ih (fun x hx => h x (List.mem_cons_of_mem _ hx))
      · rw [if_neg hws]

theorem matchDescTail_quote_false {y : List Char} (hne : y ≠ [])
    (h : ∀ c ∈ y, ¬c = '\n') : matchDescTail (y ++ ['"']) = false := by
  cases y with
  | nil => exact absurd rfl hne
  | cons c ytl =>
      simp only [List.cons_append, matchDescTail]
      rw [matchWsEol_append_quote (fun x hx => h x (List.mem_cons_of_mem _ hx))]
      rw [show ((c :: (ytl ++ ['"'])) = ((c :: ytl) ++ ['"'])) from rfl,
        matchWsEol_append_quote h]
      simp

/-- The lazy group of the description pattern stops exactly at the
closing quote: every shorter capture leaves a tail that cannot match,
and the capture of the full value succeeds. -/
theorem tryLazy_reach {v : List Char} (hnl : ∀ c ∈ v, ¬c = '\n') :
    ∀ (fuel C : Nat), 1 ≤ C → C ≤ v.length → C + fuel = v.length + 1 →
    tryLazy (v ++ ['"']) C fuel = some v := by
  intro fuel
  induction fuel with
  | zero =>
      intro C h1 h2 h3
      exfalso
      omega
  | succ k ih =>
      intro C h1 h2 h3
      by_cases hC : C = v.length
      · subst hC
        simp only [tryLazy]
        rw [List.drop_left, show matchDescTail ['"'] = true from by decide,
          if_pos rfl, List.take_left]
      · have hlt : C < v.length := by omega
        simp only [tryLazy]
        rw [drop_append_le _ _ (by omega)]
        have hdne : v.drop C ≠ [] := by
          intro hdrop
          have := congrArg List.length hdrop
          simp at this
          omega
        rw [matchDescTail_quote_false hdne
          (fun x hx => hnl x (List.mem_of_mem_drop hx))]
        simp only [Bool.false_eq_true, if_false]
        exact ih (C + 1) (by omega) (by omega) (by omega)

/-- The lazy quoted-description match at a fixed position: the
opening quote is consumed and the capture is the text inside the
quotes. -/
theorem matchDescAt_quoted {v : List Char} (hv : ∀ c ∈ v, ¬c = '\n')
    (hvne : v ≠ []) :
    matchDescAt ('"' :: (v ++ ['"'])) = some v := by
  have htake : ((v ++ ['"']).takeWhile (fun c => c != '\n')) = v ++ ['"'] := by
    refine takeWhile_all_of ?_
    intro c hc
    rcases List.mem_append.mp hc with hcv | hcq
    · simpa using hv c hcv
    · rw [List.mem_singleton] at hcq
      subst hcq
      decide
  have hvpos : 1 ≤ v.length := by
    cases v with
    | nil => exact absurd rfl hvne
    | cons c tl => simp
  unfold matchDescAt
  simp only [show (isQuote '"') = true from by decide, if_true, htake]
  rw [List.length_append, List.length_singleton]
  rw [if_neg (by omega : ¬(v.length + 1 = 0))]
  rw [Nat.add_sub_cancel]
  rw [tryLazy_reach hv v.length 1 (by omega) hvpos (by omega)]

/-- Evaluation of the description value matcher on a fully quoted
value. -/
theorem matchDescVal_quoted {v : List Char} (hv : ∀ c ∈ v, ¬c = '\n')
    (hvne : v ≠ []) :
    matchDescVal (' ' :: '"' :: (v ++ ['"'])) = some v := by
  have hlen : ((' ' :: '"' :: (v ++ ['"'])).takeWhile wsChar).length = 1 := by
    rw [List.takeWhile_cons_of_pos (by decide),
      List.takeWhile_cons_of_neg (by decide)]
    rfl
  unfold matchDescVal
  rw [hlen]
  rw [show descFrom (' ' :: '"' :: (v ++ ['"'])) 1 =
      (match matchDescAt ((' ' :: '"' :: (v ++ ['"'])).drop 1) with
       | some g => some g
       | none => descFrom (' ' :: '"' :: (v ++ ['"'])) 0) from rfl]
  rw [show ((' ' :: '"' :: (v ++ ['"'])).drop 1) = '"' :: (v ++ ['"']) from rfl]
  rw [matchDescAt_quoted hv hvne]

/-- Evaluation of the name value matcher: the leading whitespace is
consumed and the capture runs to the end of the line, quotes
included — the name pattern has no quote atoms. -/
theorem matchNameVal_eval {m rest2 : List Char} (hm : ∀ c ∈ m, ¬c = '\n') :
    matchNameVal (' ' :: '"' :: ((m ++ ['"']) ++ '\n' :: rest2)) =
      some ('"' :: (m ++ ['"'])) := by
  have hlen : ((' ' :: '"' :: ((m ++ ['"']) ++ '\n' :: rest2)).takeWhile wsChar).length
      = 1 := by
    rw [List.takeWhile_cons_of_pos (by decide),
      List.takeWhile_cons_of_neg (by decide)]
    rfl
  unfold matchNameVal
  rw [hlen]
  rw [show nameFrom (' ' :: '"' :: ((m ++ ['"']) ++ '\n' :: rest2)) 1 =
      (match matchDotPlus ((' ' :: '"' :: ((m ++ ['"']) ++ '\n' :: rest2)).drop 1) with
       | some g => some g
       | none => nameFrom (' ' :: '"' :: ((m ++ ['"']) ++ '\n' :: rest2)) 0) from rfl]
  rw [show ((' ' :: '"' :: ((m ++ ['"']) ++ '\n' :: rest2)).drop 1) =
      ('"' :: (m ++ ['"'])) ++ '\n' :: rest2 from by simp]
  have htk : (('"' :: (m ++ ['"'])) ++ '\n' :: rest2).takeWhile (fun c => c != '\n') =
      '"' :: (m ++ ['"']) := by
    refine takeWhile_ne_nl_append _ ?_
    intro c hc
    rcases List.mem_cons.mp hc with rfl | hc2
    · decide
    · rcases List.mem_append.mp hc2 with hcm | hcq
      · exact hm c hcm
      · rw [List.mem_singleton] at hcq
        subst hcq
        decide
  unfold matchDotPlus
  rw [htk]
  simp

/-- scanKeyed finds its match on the first of two lines when the line
starts with the key. -/
theorem scanKeyed_first_line {key W l2 res : List Char}
    {matcher : List Char → Option (List Char)}
    (hnl1 : ∀ c ∈ key ++ W, ¬c = '\n') (hnl2 : ∀ c ∈ l2, ¬c = '\n')
    (hmatch : matcher (W ++ '\n' :: l2) = some res) :
    scanKeyed key matcher ((key ++ W) ++ '\n' :: l2) = some res := by
  unfold scanKeyed
  rw [splitNl_append_noNl _ hnl1, splitNl_noNl hnl2]
  rw [show suffixesOfLines [key ++ W, l2] = [(key ++ W) ++ '\n' :: l2, l2] from by
    simp [suffixesOfLines]]
  simp only [List.foldr_cons, List.foldr_nil]
  rw [show ((key ++ W) ++ '\n' :: l2) = key ++ (W ++ '\n' :: l2) from by
    simp [List.append_assoc]]
  rw [isPrefixOf_append_self]
  simp only [if_true, List.drop_left]
  rw [hmatch]

/-- scanKeyed falls through a non-matching first line and matches on
the second. -/
theorem scanKeyed_second_line {key l1 W res : List Char}
    {matcher : List Char → Option (List Char)}
    (hnl1 : ∀ c ∈ l1, ¬c = '\n') (hnl2 : ∀ c ∈ key ++ W, ¬c = '\n')
    (hfail1 : key.isPrefixOf (l1 ++ '\n' :: (key ++ W)) = false)
    (hmatch : matcher W = some res) :
    scanKeyed key matcher (l1 ++ '\n' :: (key ++ W)) = some res := by
  unfold scanKeyed
  rw [splitNl_append_noNl _ hnl1, splitNl_noNl hnl2]
  rw [show suffixesOfLines [l1, key ++ W] = [l1 ++ '\n' :: (key ++ W), key ++ W] from by
    simp [suffixesOfLines]]
  simp only [List.foldr_cons, List.foldr_nil]
  rw [hfail1]
  simp only [Bool.false_eq_true, if_false]
  rw [isPrefixOf_append_self]
  simp only [if_true, List.drop_left]
  rw [hmatch]

/-- C5: the claim says both fields come back with surrounding quotes
stripped.  False: the name pattern
/^name:\s*(.+)$/m has no quote atoms, so a double-quoted name keeps
its quotes; only the description pattern strips them. -/
theorem C5_quote_stripping_counterexample :
    parseSkillMetadata "dir"
        "---\nname: \"hello\"\ndescription: \"world\"\n---\nbody" =
      ("\"hello\"", "world") ∧ ¬("\"hello\"" : String) = "hello" := by
  exact ⟨by decide, by decide⟩

/-! ## updateStatsInFile (sync-stats.js lines 138-193)

The four replacement patterns are concatenations of plain literals,
greedy whitespace stars and a greedy digit-plus capture:
  /共\s*(\d+)\s*个\s*Skills/g        -> `共 ${totalCount} 个 Skills`
  /来自\s*(\d+)\s*个源/g             -> `来自 ${sourceCount} 个源`
  /\*\*(\d+)\s*个\s*Skills\*\*/g     -> `**${totalCount} 个 Skills**`
  /查看全部\s*(\d+)\s*个\s*Skills/g  -> `查看全部 ${totalCount} 个 Skills`
For these patterns the backtracking search is equivalent to maximal
munch: a shorter try of a greedy \s* leaves a whitespace character in
front of the following atom, which is a digit or a non-whitespace
literal head, and a shorter try of the greedy \d+ leaves a digit in
front of \s*个 or \s*Skills — both fail at once, so only the maximal
consumption can succeed.  matchPieces therefore consumes each piece
maximally; it returns the digit capture and the unconsumed rest. -/

inductive Piece where
  | lit (l : List Char)
  | ws
  | num

/-- All characters occurring in literal pieces. -/
def litChars : List Piece → List Char
  | [] => []
  | Piece.lit l :: ps => l ++ litChars ps
  | Piece.ws :: ps => litChars ps
  | Piece.num :: ps => litChars ps

/-- Anchored match of a piece list at the start of the text; returns
the digit capture and the rest of the text after the match. -/
def matchPieces : List Piece → List Char → Option (List Char × List Char)
  | [], s => some ([], s)
  | Piece.lit l :: ps, s =>
      if l.isPrefixOf s then matchPieces ps (s.drop l.length) else none
  | Piece.ws :: ps, s => matchPieces ps (s.dropWhile wsChar)
  | Piece.num :: ps, s =>
      if (s.takeWhile isDigitChar).isEmpty then none
      else (matchPieces ps (s.drop (s.takeWhile isDigitChar).length)).map
        (fun r => (s.takeWhile isDigitChar ++ r.1, r.2))

theorem matchPieces_rest_le {ps : List Piece} :
    ∀ {s d r}, matchPieces ps s = some (d, r) → r.length ≤ s.length := by
  induction ps with
  | nil =>
      intro s d r h
      simp only [matchPieces, Option.some.injEq, Prod.mk.injEq] at h
      rw [← h.2]
  | cons p ps ih =>
      intro s d r h
      cases p with
      | lit l =>
          simp only [matchPieces] at h
          by_cases hp : l.isPrefixOf s
          · rw [if_pos hp] at h
            exact le_trans (ih h) (by simpa using List.length_drop_le l.length s)
          · rw [if_neg hp] at h
            cases h
      | ws =>
          simp only [matchPieces] at h
          exact le_trans (ih h) (List.IsSuffix.length_le (List.dropWhile_suffix _))
      | num =>
          simp only [matchPieces] at h
          by_cases he : (s.takeWhile isDigitChar).isEmpty
          · rw [if_pos he] at h
            cases h
          · rw [if_neg he] at h
            cases hm : matchPieces ps (s.drop (s.takeWhile isDigitChar).length) with
            | none =>
                rw [hm] at h
                cases h
            | some pr =>
                obtain ⟨d1, r1⟩ := pr
                rw [hm] at h
                injection h with h2
                rw [Prod.mk.injEq] at h2
                obtain ⟨_, rfl⟩ := h2
                exact le_trans (ih hm) (by simpa using List.length_drop_le _ s)

/-- The match fails at once when the first character is not the head
of the leading literal. -/
theorem matchPieces_head_ne {h0 : Char} {H : List Char} {ps : List Piece}
    {c : Char} {s : List Char} (h : ¬c = h0) :
    matchPieces (Piece.lit (h0 :: H) :: ps) (c :: s) = none := by
  simp only [matchPieces, isPrefixOf_head_ne (fun hh => h hh.symm),
    Bool.false_eq_true, if_false]

theorem matchPieces_nil_none {h0 : Char} {H : List Char} {ps : List Piece} :
    matchPieces (Piece.lit (h0 :: H) :: ps) [] = none := by
  simp [matchPieces, List.isPrefixOf]

/-- A pattern with a nonempty leading literal consumes at least one
character. -/
theorem matchPieces_lit_some_lt {h0 : Char} {H : List Char} {ps : List Piece}
    {s d r : List Char}
    (h : matchPieces (Piece.lit (h0 :: H) :: ps) s = some (d, r)) :
    r.length < s.length := by
  simp only [matchPieces] at h
  by_cases hp : (h0 :: H).isPrefixOf s
  · rw [if_pos hp] at h
    have h1 := matchPieces_rest_le h
    rw [List.length_drop] at h1
    have h2 : (h0 :: H).length ≤ s.length :=
      List.IsPrefix.length_le (List.isPrefixOf_iff_prefix.mp hp)
    simp only [List.length_cons] at h1 h2
    omega
  · rw [if_neg hp] at h
    cases h

/-- parseInt on a digit capture: base-10 value of the digit string. -/
def digitsToNat (l : List Char) : Nat :=
  l.foldl (fun n c => n * 10 + (c.toNat - 48)) 0

/-- The character of a single decimal digit. -/
def digitChar (d : Nat) : Char := Char.ofNat (48 + d)

/-- Decimal representation of a number, as produced by JavaScript
template-literal interpolation of a (small integer) count. -/
def natDigitsCore : Nat → Nat → List Char
  | 0, _ => []
  | fuel + 1, n =>
      if n < 10 then [digitChar n]
      else natDigitsCore fuel (n / 10) ++ [digitChar (n % 10)]

def natDigits (n : Nat) : List Char := natDigitsCore (n + 1) n

theorem digitChar_toNat {d : Nat} (h : d < 10) : (digitChar d).toNat = 48 + d := by
  have hv : (48 + d).isValidChar := by
    left
    omega
  unfold digitChar Char.ofNat
  rw [dif_pos hv]
  rfl

theorem isDigitChar_digitChar {d : Nat} (h : d < 10) :
    isDigitChar (digitChar d) = true := by
  unfold isDigitChar
  rw [digitChar_toNat h]
  simp only [Bool.and_eq_true, decide_eq_true_eq]
  omega

theorem natDigitsCore_spec :
    ∀ fuel n, n < fuel →
      natDigitsCore fuel n ≠ [] ∧ (∀ c ∈ natDigitsCore fuel n, isDigitChar c = true) ∧
      (natDigitsCore fuel n).foldl (fun m c => m * 10 + (c.toNat - 48)) 0 = n := by
  intro fuel
  induction fuel with
  | zero => intro n hn; omega
  | succ f ih =>
      intro n hn
      by_cases h10 : n < 10
      · refine ⟨by simp [natDigitsCore, h10], ?_, ?_⟩
        · intro c hc
          simp only [natDigitsCore, h10, if_true, List.mem_singleton] at hc
          subst hc
          exact isDigitChar_digitChar h10
        · simp only [natDigitsCore, h10, if_true, List.foldl_cons, List.foldl_nil]
          rw [digitChar_toNat h10]
          omega
      · have hdiv : n / 10 < f := by omega
        obtain ⟨hne, hdig, hval⟩ := ih (n / 10) hdiv
        simp only [natDigitsCore, h10, if_false]
        refine ⟨by simp, ?_, ?_⟩
        · intro c hc
          rcases List.mem_append.mp hc with hc1 | hc2
          · exact hdig c hc1
          · rw [List.mem_singleton] at hc2
            subst hc2
            exact isDigitChar_digitChar (by omega)
        · rw [List.foldl_append, hval]
          simp only [List.foldl_cons, List.foldl_nil]
          rw [digitChar_toNat (by omega)]
          omega

theorem natDigits_ne_nil (n : Nat) : natDigits n ≠ [] :=
  (natDigitsCore_spec (n + 1) n (by omega)).1

theorem natDigits_all_digits (n : Nat) : ∀ c ∈ natDigits n, isDigitChar c = true :=
  (natDigitsCore_spec (n + 1) n (by omega)).2.1

theorem digitsToNat_natDigits (n : Nat) : digitsToNat (natDigits n) = n :=
  (natDigitsCore_spec (n + 1) n (by omega)).2.2

/-- content.replace(pattern, callback) with a /g regex: repeated
leftmost search; on a match the callback keeps the matched text when
the parsed number equals the expected count and otherwise substitutes
the rebuild text and sets the modified flag.  All four source patterns
start with a nonempty literal (共 / 来自 / ** / 查看全部), so the
pattern is passed as its head character h0, the tail H of its leading
literal, and the remaining pieces ps; every match then consumes at
least one character and the scan resumes after the match. -/
def replaceG (h0 : Char) (H : List Char) (ps : List Piece)
    (count : Nat) (R : List Char) : List Char → List Char × Bool
  | [] => ([], false)
  | c :: s =>
      match h : matchPieces (Piece.lit (h0 :: H) :: ps) (c :: s) with
      | some (d, rest) =>
          have : rest.length < s.length + 1 := by
            have := matchPieces_lit_some_lt h
            simpa using this
          let r := replaceG h0 H ps count R rest
          if digitsToNat d = count then
            ((c :: s).take ((c :: s).length - rest.length) ++ r.1, r.2)
          else (R ++ r.1, true)
      | none =>
          let r := replaceG h0 H ps count R s
          (c :: r.1, r.2)
  termination_by s => s.length

/-- The digit captures of the matches that the /g scan visits, in scan
order (the numbers the callback compares against the count). -/
def scanNums (h0 : Char) (H : List Char) (ps : List Piece) :
    List Char → List (List Char)
  | [] => []
  | c :: s =>
      match h : matchPieces (Piece.lit (h0 :: H) :: ps) (c :: s) with
      | some (d, rest) =>
          have : rest.length < s.length + 1 := by
            have := matchPieces_lit_some_lt h
            simpa using this
          d :: scanNums h0 H ps rest
      | none => scanNums h0 H ps s
  termination_by s => s.length

theorem replaceG_nil {h0 H ps count R} : replaceG h0 H ps count R [] = ([], false) := by
  rw [replaceG]

theorem replaceG_cons_none {h0 H ps count R c s}
    (h : matchPieces (Piece.lit (h0 :: H) :: ps) (c :: s) = none) :
    replaceG h0 H ps count R (c :: s) =
      (c :: (replaceG h0 H ps count R s).1, (replaceG h0 H ps count R s).2) := by
  rw [replaceG]
  split
  · rename_i d rest heq
    rw [h] at heq
    cases heq
  · rfl

theorem replaceG_cons_some {h0 H ps count R c s d rest}
    (h : matchPieces (Piece.lit (h0 :: H) :: ps) (c :: s) = some (d, rest)) :
    replaceG h0 H ps count R (c :: s) =
      if digitsToNat d = count then
        ((c :: s).take ((c :: s).length - rest.length) ++
          (replaceG h0 H ps count R rest).1, (replaceG h0 H ps count R rest).2)
      else (R ++ (replaceG h0 H ps count R rest).1, true) := by
  rw [replaceG]
  split
  · rename_i d2 rest2 heq
    rw [h] at heq
    injection heq with heq2
    rw [Prod.mk.injEq] at heq2
    obtain ⟨rfl, rfl⟩ := heq2
    rfl
  · rename_i heq
    rw [h] at heq
    cases heq

theorem scanNums_nil {h0 H ps} : scanNums h0 H ps [] = [] := by
  rw [scanNums]

theorem scanNums_cons_none {h0 H ps c s}
    (h : matchPieces (Piece.lit (h0 :: H) :: ps) (c :: s) = none) :
    scanNums h0 H ps (c :: s) = scanNums h0 H ps s := by
  rw [scanNums]
  split
  · rename_i d rest heq
    rw [h] at heq
    cases heq
  · rfl

theorem scanNums_cons_some {h0 H ps c s d rest}
    (h : matchPieces (Piece.lit (h0 :: H) :: ps) (c :: s) = some (d, rest)) :
    scanNums h0 H ps (c :: s) = d :: scanNums h0 H ps rest := by
  rw [scanNums]
  split
  · rename_i d2 rest2 heq
    rw [h] at heq
    injection heq with heq2
    rw [Prod.mk.injEq] at heq2
    obtain ⟨rfl, rfl⟩ := heq2
    rfl
  · rename_i heq
    rw [h] at heq
    cases heq

/-- The shape of a matched text: the concatenation of the pieces,
each literal verbatim, each ws-star an all-whitespace run, each
digit-plus a nonempty all-digit run; the second list collects the
digit captures. -/
inductive MatchShape : List Piece → List Char → List Char → Prop where
  | nil : MatchShape [] [] []
  | lit (l : List Char) {ps w d} : MatchShape ps w d →
      MatchShape (Piece.lit l :: ps) (l ++ w) d
  | ws (a : List Char) {ps w d} : (∀ c ∈ a, wsChar c = true) → MatchShape ps w d →
      MatchShape (Piece.ws :: ps) (a ++ w) d
  | num (ds : List Char) {ps w d} : ds ≠ [] → (∀ c ∈ ds, isDigitChar c = true) →
      MatchShape ps w d → MatchShape (Piece.num :: ps) (ds ++ w) (ds ++ d)

theorem takeWhile_append_drop (p : Char → Bool) (l : List Char) :
    l.takeWhile p ++ l.drop (l.takeWhile p).length = l := by
  induction l with
  | nil => rfl
  | cons c t ih =>
      by_cases hc : p c
      · rw [List.takeWhile_cons_of_pos hc]
        simp only [List.length_cons, List.drop_succ_cons, List.cons_append]
        rw [ih]
      · rw [List.takeWhile_cons_of_neg hc]
        simp

theorem matchPieces_shape {ps : List Piece} :
    ∀ {u d r}, matchPieces ps u = some (d, r) →
      ∃ w, u = w ++ r ∧ MatchShape ps w d := by
  induction ps with
  | nil =>
      intro u d r h
      simp only [matchPieces, Option.some.injEq, Prod.mk.injEq] at h
      exact ⟨[], by rw [← h.2]; rfl, by rw [← h.1]; exact MatchShape.nil⟩
  | cons p ps ih =>
      intro u d r h
      cases p with
      | lit l =>
          simp only [matchPieces] at h
          by_cases hp : l.isPrefixOf u
          · rw [if_pos hp] at h
            obtain ⟨w1, hw1, hs1⟩ := ih h
            have hu : u = l ++ u.drop l.length := by
              have hpre := List.isPrefixOf_iff_prefix.mp hp
              obtain ⟨t, ht⟩ := hpre
              rw [← ht, List.drop_left]
            exact ⟨l ++ w1, by rw [hu, hw1, List.append_assoc],
              MatchShape.lit l hs1⟩
          · rw [if_neg hp] at h
            cases h
      | ws =>
          simp only [matchPieces] at h
          obtain ⟨w1, hw1, hs1⟩ := ih h
          refine ⟨u.takeWhile wsChar ++ w1, ?_, ?_⟩
          · rw [List.append_assoc, ← hw1, List.takeWhile_append_dropWhile]
          · exact MatchShape.ws _ (fun c hc => List.mem_takeWhile_imp hc) hs1
      | num =>
          simp only [matchPieces] at h
          by_cases he : (u.takeWhile isDigitChar).isEmpty
          · rw [if_pos he] at h
            cases h
          · rw [if_neg he] at h
            cases hm : matchPieces ps (u.drop (u.takeWhile isDigitChar).length) with
            | none =>
                rw [hm] at h
                cases h
            | some pr =>
                obtain ⟨d1, r1⟩ := pr
                rw [hm] at h
                injection h with h2
                rw [Prod.mk.injEq] at h2
                obtain ⟨rfl, rfl⟩ := h2
                obtain ⟨w1, hw1, hs1⟩ := ih hm
                refine ⟨u.takeWhile isDigitChar ++ w1, ?_, ?_⟩
                · rw [List.append_assoc, ← hw1, takeWhile_append_drop]
                · exact MatchShape.num _ (by simpa using he)
                    (fun c hc => List.mem_takeWhile_imp hc) hs1

/-- Every character of a matched text is whitespace, a digit, or a
character of one of the pattern's literals. -/
theorem matchShape_chars {ps w d} (h : MatchShape ps w d) :
    ∀ c ∈ w, wsChar c = true ∨ isDigitChar c = true ∨ c ∈ litChars ps := by
  induction h with
  | nil => intro c hc; cases hc
  | lit l _ ih =>
      intro c hc
      rcases List.mem_append.mp hc with h1 | h2
      · exact Or.inr (Or.inr (by simp only [litChars]; exact List.mem_append.mpr (Or.inl h1)))
      · rcases ih c h2 with h3 | h3 | h3
        · exact Or.inl h3
        · exact Or.inr (Or.inl h3)
        · exact Or.inr (Or.inr (by simp only [litChars]; exact List.mem_append.mpr (Or.inr h3)))
  | ws a ha _ ih =>
      intro c hc
      rcases List.mem_append.mp hc with h1 | h2
      · exact Or.inl (ha c h1)
      · rcases ih c h2 with h3 | h3 | h3
        · exact Or.inl h3
        · exact Or.inr (Or.inl h3)
        · exact Or.inr (Or.inr (by simpa only [litChars] using h3))
  | num ds hne hds _ ih =>
      intro c hc
      rcases List.mem_append.mp hc with h1 | h2
      · exact Or.inr (Or.inl (hds c h1))
      · rcases ih c h2 with h3 | h3 | h3
        · exact Or.inl h3
        · exact Or.inr (Or.inl h3)
        · exact Or.inr (Or.inr (by simpa only [litChars] using h3))

/-- Patterns whose last piece is a nonempty literal (all four source
patterns end in Skills, 个源 or Skills**). -/
inductive EndsLit : List Piece → Prop where
  | base (l : List Char) : l ≠ [] → EndsLit [Piece.lit l]
  | cons (p : Piece) {ps} : EndsLit ps → EndsLit (p :: ps)

theorem endsLit_consume {ps : List Piece} (hps : EndsLit ps) :
    ∀ {u d r}, matchPieces ps u = some (d, r) → r.length < u.length := by
  induction hps with
  | base l hl =>
      intro u d r h
      cases l with
      | nil => exact absurd rfl hl
      | cons c l2 => exact matchPieces_lit_some_lt h
  | cons p hps ih =>
      rename_i psi
      intro u d r h
      cases p with
      | lit l =>
          simp only [matchPieces] at h
          by_cases hp : l.isPrefixOf u
          · rw [if_pos hp] at h
            have := ih h
            have hle := List.length_drop l.length u
            omega
          · rw [if_neg hp] at h
            cases h
      | ws =>
          simp only [matchPieces] at h
          have := ih h
          have hle := List.IsSuffix.length_le (List.dropWhile_suffix (l := u) wsChar)
          omega
      | num =>
          simp only [matchPieces] at h
          by_cases he : (u.takeWhile isDigitChar).isEmpty
          · rw [if_pos he] at h
            cases h
          · rw [if_neg he] at h
            cases hm : matchPieces psi (u.drop (u.takeWhile isDigitChar).length) with
            | none =>
                rw [hm] at h
                cases h
            | some pr =>
                obtain ⟨d1, r1⟩ := pr
                rw [hm] at h
                injection h with h2
                rw [Prod.mk.injEq] at h2
                obtain ⟨rfl, rfl⟩ := h2
                have := ih hm
                have hle := List.length_drop (u.takeWhile isDigitChar).length u
                show r1.length < u.length
                omega

theorem take_append_le {α : Type} :
    ∀ {n : Nat} (l1 l2 : List α), n ≤ l1.length → (l1 ++ l2).take n = l1.take n := by
  intro n
  induction n with
  | zero => intro l1 l2 _; simp
  | succ k ih =>
      intro l1 l2 h
      cases l1 with
      | nil => simp at h
      | cons a tl =>
          simp only [List.cons_append, List.take_succ_cons]
          rw [ih tl l2 (by simpa using h)]

theorem drop_append_ge {α : Type} :
    ∀ {n : Nat} (l1 l2 : List α), l1.length ≤ n →
      (l1 ++ l2).drop n = l2.drop (n - l1.length) := by
  intro n
  induction n with
  | zero =>
      intro l1 l2 h
      rw [Nat.le_zero, List.length_eq_zero] at h
      subst h
      rfl
  | succ k ih =>
      intro l1 l2 h
      cases l1 with
      | nil => simp
      | cons a tl =>
          simp only [List.cons_append, List.drop_succ_cons, List.length_cons,
            Nat.succ_sub_succ]
          exact ih tl l2 (by simpa using h)

theorem dropWhile_append_all {p : Char → Bool} {a : List Char} (z : List Char)
    (h : ∀ c ∈ a, p c = true) : (a ++ z).dropWhile p = z.dropWhile p := by
  induction a with
  | nil => rfl
  | cons c tl ih =>
      rw [List.cons_append, List.dropWhile_cons_of_pos (h c (List.mem_cons_self _ _))]
      exact ih (fun x hx => h x (List.mem_cons_of_mem _ hx))

theorem takeWhile_append_all {p : Char → Bool} {a : List Char} (z : List Char)
    (h : ∀ c ∈ a, p c = true) : (a ++ z).takeWhile p = a ++ z.takeWhile p := by
  induction a with
  | nil => rfl
  | cons c tl ih =>
      rw [List.cons_append, List.takeWhile_cons_of_pos (h c (List.mem_cons_self _ _))]
      rw [ih (fun x hx => h x (List.mem_cons_of_mem _ hx))]
      rfl

theorem dropWhile_head_false {p : Char → Bool} :
    ∀ (l : List Char) {c t}, l.dropWhile p = c :: t → p c = false := by
  intro l
  induction l with
  | nil => intro c t h; cases h
  | cons a tl ih =>
      intro c t h
      by_cases ha : p a
      · rw [List.dropWhile_cons_of_pos ha] at h
        exact ih h
      · rw [List.dropWhile_cons_of_neg ha] at h
        injection h with h1 _
        subst h1
        simpa using ha

theorem drop_len_takeWhile (p : Char → Bool) (l : List Char) :
    l.drop (l.takeWhile p).length = l.dropWhile p := by
  have h1 := takeWhile_append_drop p l
  have h2 := List.takeWhile_append_dropWhile (p := p) (l := l)
  exact List.append_cancel_left (by rw [h1, h2])

/-- If a list free of the character q is a prefix of a text whose
character at position |a| is q, the list fits within the first |a|
characters. -/
theorem prefix_len_of_not_mem {q0 : Char} :
    ∀ {a w rest u2 : List Char}, w ++ rest = a ++ q0 :: u2 → q0 ∉ w →
      w.length ≤ a.length := by
  intro a
  induction a with
  | nil =>
      intro w rest u2 heq hq
      cases w with
      | nil => simp
      | cons c w2 =>
          simp only [List.cons_append, List.nil_append] at heq
          injection heq with h1 _
          subst h1
          exact absurd (List.mem_cons_self _ _) hq
  | cons b a2 ih =>
      intro w rest u2 heq hq
      cases w with
      | nil => simp
      | cons c w2 =>
          simp only [List.cons_append] at heq
          injection heq with h1 h2
          simp only [List.length_cons, Nat.succ_le_succ_iff]
          exact ih h2 (fun hm => hq (List.mem_cons_of_mem _ hm))

/-- Conversely, when the prefix is longer than |a| it contains the
character at position |a|, inside its drop-|a| suffix. -/
theorem mem_drop_of_prefix_long {q0 : Char} :
    ∀ {a w rest u2 : List Char}, w ++ rest = a ++ q0 :: u2 → a.length < w.length →
      q0 ∈ w.drop a.length := by
  intro a
  induction a with
  | nil =>
      intro w rest u2 heq hlen
      cases w with
      | nil => simp at hlen
      | cons c w2 =>
          simp only [List.cons_append, List.nil_append] at heq
          injection heq with h1 _
          subst h1
          simpa using List.mem_cons_self _ _
  | cons b a2 ih =>
      intro w rest u2 heq hlen
      cases w with
      | nil => simp at hlen
      | cons c w2 =>
          simp only [List.cons_append] at heq
          injection heq with h1 h2
          simp only [List.length_cons, List.drop_succ_cons]
          exact ih h2 (by simpa using hlen)

/-- One-step evaluation of the matcher on a leading literal. -/
theorem matchPieces_lit_step (l : List Char) (ps : List Piece) (u : List Char) :
    matchPieces (Piece.lit l :: ps) (l ++ u) = matchPieces ps u := by
  simp only [matchPieces, isPrefixOf_append_self, if_true, List.drop_left]

/-- One-step evaluation on a ws-star: the whitespace run is consumed
maximally, stopping at a text whose head is not whitespace. -/
theorem matchPieces_ws_step {a : List Char} (ps : List Piece) (z : List Char)
    (ha : ∀ c ∈ a, wsChar c = true) (hz : z.dropWhile wsChar = z) :
    matchPieces (Piece.ws :: ps) (a ++ z) = matchPieces ps z := by
  simp only [matchPieces]
  rw [dropWhile_append_all z ha, hz]

/-- One-step evaluation on the digit-plus: the digit run is consumed
maximally, stopping at a text whose head is not a digit. -/
theorem matchPieces_num_step {ds : List Char} (ps : List Piece) (z : List Char)
    (hne : ds ≠ []) (hds : ∀ c ∈ ds, isDigitChar c = true)
    (hz : z.takeWhile isDigitChar = []) :
    matchPieces (Piece.num :: ps) (ds ++ z) =
      (matchPieces ps z).map (fun r => (ds ++ r.1, r.2)) := by
  have htw : (ds ++ z).takeWhile isDigitChar = ds := by
    rw [takeWhile_append_all z hds, hz, List.append_nil]
  simp only [matchPieces]
  rw [htw, if_neg (by simpa using hne), List.drop_left]

/-- The match is determined by the consumed text: if a pattern that
ends in a nonempty literal consumes exactly w, it consumes exactly w
in front of any continuation. -/
theorem matchPieces_exact {ps : List Piece} (hps : EndsLit ps) :
    ∀ {w d r}, matchPieces ps (w ++ r) = some (d, r) →
      ∀ x, matchPieces ps (w ++ x) = some (d, x) := by
  induction hps with
  | base l hl =>
      intro w d r h x
      simp only [matchPieces] at h ⊢
      by_cases hp : l.isPrefixOf (w ++ r)
      · rw [if_pos hp] at h
        injection h with h2
        rw [Prod.mk.injEq] at h2
        obtain ⟨rfl, hr⟩ := h2
        have hlen : l.length = w.length := by
          have h1 := congrArg List.length hr
          rw [List.length_drop] at h1
          have h2 : l.length ≤ (w ++ r).length :=
            List.IsPrefix.length_le (List.isPrefixOf_iff_prefix.mp hp)
          simp only [List.length_append] at h1 h2
          omega
        have hw : l = w := by
          have h3 : (w ++ r).take l.length = l := by
            obtain ⟨t, ht⟩ := List.isPrefixOf_iff_prefix.mp hp
            rw [← ht, List.take_left]
          rw [take_append_le w r (le_of_eq hlen), hlen, List.take_length] at h3
          exact h3.symm
        subst hw
        rw [if_pos (isPrefixOf_append_self l x), List.drop_left]
      · rw [if_neg hp] at h
        cases h
  | cons p hps ih =>
      rename_i psi
      intro w d r h x
      cases p with
      | lit l =>
          simp only [matchPieces] at h
          by_cases hp : l.isPrefixOf (w ++ r)
          · rw [if_pos hp] at h
            have hle : l.length ≤ w.length := by
              have h1 := matchPieces_rest_le h
              rw [List.length_drop] at h1
              have h2 : l.length ≤ (w ++ r).length :=
                List.IsPrefix.length_le (List.isPrefixOf_iff_prefix.mp hp)
              simp only [List.length_append] at h1 h2
              omega
            have hw : w = l ++ w.drop l.length := by
              have h3 : (w ++ r).take l.length = l := by
                obtain ⟨t, ht⟩ := List.isPrefixOf_iff_prefix.mp hp
                rw [← ht, List.take_left]
              rw [take_append_le w r hle] at h3
              conv_lhs => rw [← List.take_append_drop l.length w]
              rw [h3]
            have h' : matchPieces psi (w.drop l.length ++ r) = some (d, r) := by
              rw [← drop_append_le w r hle]
              exact h
            rw [hw, List.append_assoc, matchPieces_lit_step]
            exact ih h' x
          · rw [if_neg hp] at h
            cases h
      | ws =>
          simp only [matchPieces] at h
          set a := (w ++ r).takeWhile wsChar with ha
          have hdw : (w ++ r).dropWhile wsChar = (w ++ r).drop a.length := by
            rw [drop_len_takeWhile]
          have hlea : a.length ≤ w.length := by
            have h1 := matchPieces_rest_le h
            rw [hdw, List.length_drop] at h1
            have h2 : a.length ≤ (w ++ r).length := by
              rw [ha]
              exact List.IsPrefix.length_le (List.takeWhile_prefix _)
            simp only [List.length_append] at h1 h2
            omega
          by_cases heq : a.length = w.length
          · exfalso
            rw [hdw, heq, drop_append_ge w r (le_refl _), Nat.sub_self,
              List.drop_zero] at h
            exact absurd (endsLit_consume hps h) (lt_irrefl _)
          · have hlt : a.length < w.length := lt_of_le_of_ne hlea heq
            have haw : a = w.take a.length := by
              have h3 : (w ++ r).take a.length = a := by
                obtain ⟨t, ht⟩ := List.takeWhile_prefix (p := wsChar) (l := w ++ r)
                rw [← ha] at ht
                rw [← ht, List.take_left]
              rw [take_append_le w r hlea] at h3
              exact h3.symm
            have hwsplit : w = a ++ w.drop a.length := by
              conv_lhs => rw [← List.take_append_drop a.length w]
              rw [← haw]
            have hall : ∀ c ∈ a, wsChar c = true :=
              fun c hc => List.mem_takeWhile_imp (ha ▸ hc)
            have hw1ne : w.drop a.length ≠ [] := by
              intro hcon
              rw [List.drop_eq_nil_iff] at hcon
              omega
            obtain ⟨c1, t1, hct⟩ := List.exists_cons_of_ne_nil hw1ne
            have hc1 : wsChar c1 = false := by
              refine dropWhile_head_false (w ++ r) (c := c1) (t := t1 ++ r) ?_
              rw [hdw, drop_append_le w r hlea, hct, List.cons_append]
            have hstep : ∀ y, (w ++ y).dropWhile wsChar = w.drop a.length ++ y := by
              intro y
              conv_lhs => rw [hwsplit]
              rw [List.append_assoc, dropWhile_append_all _ hall, hct,
                List.cons_append, List.dropWhile_cons_of_neg (by simp [hc1])]
            rw [hdw, drop_append_le w r hlea] at h
            have h' : matchPieces psi (w.drop a.length ++ r) = some (d, r) := h
            have hrec := ih h'
            rw [show matchPieces (Piece.ws :: psi) (w ++ x) =
                matchPieces psi ((w ++ x).dropWhile wsChar) from rfl]
            rw [hstep x]
            exact hrec x
      | num =>
          simp only [matchPieces] at h
          by_cases he : ((w ++ r).takeWhile isDigitChar).isEmpty
          · rw [if_pos he] at h
            cases h
          · rw [if_neg he] at h
            cases hm : matchPieces psi ((w ++ r).drop ((w ++ r).takeWhile isDigitChar).length) with
            | none =>
                rw [hm] at h
                cases h
            | some pr =>
                obtain ⟨d1, r1⟩ := pr
                rw [hm] at h
                injection h with h2
                have h2' : ((w ++ r).takeWhile isDigitChar ++ d1, r1) = (d, r) := h2
                rw [Prod.mk.injEq] at h2'
                obtain ⟨rfl, rfl⟩ := h2'
                set ds := (w ++ r1).takeWhile isDigitChar with hds
                have hlea : ds.length ≤ w.length := by
                  have h1 := matchPieces_rest_le hm
                  rw [List.length_drop] at h1
                  have h2b : ds.length ≤ (w ++ r1).length := by
                    rw [hds]
                    exact List.IsPrefix.length_le (List.takeWhile_prefix _)
                  simp only [List.length_append] at h1 h2b
                  omega
                by_cases heq : ds.length = w.length
                · exfalso
                  rw [heq, drop_append_ge w r1 (le_refl _), Nat.sub_self,
                    List.drop_zero] at hm
                  exact absurd (endsLit_consume hps hm) (lt_irrefl _)
                · have hlt : ds.length < w.length := lt_of_le_of_ne hlea heq
                  have haw : ds = w.take ds.length := by
                    have h3 : (w ++ r1).take ds.length = ds := by
                      obtain ⟨t, ht⟩ :=
                        List.takeWhile_prefix (p := isDigitChar) (l := w ++ r1)
                      rw [← hds] at ht
                      rw [← ht, List.take_left]
                    rw [take_append_le w r1 hlea] at h3
                    exact h3.symm
                  have hwsplit : w = ds ++ w.drop ds.length := by
                    conv_lhs => rw [← List.take_append_drop ds.length w]
                    rw [← haw]
                  have hall : ∀ c ∈ ds, isDigitChar c = true :=
                    fun c hc => List.mem_takeWhile_imp (hds ▸ hc)
                  have hdsne : ds ≠ [] := by simpa using he
                  have hw1ne : w.drop ds.length ≠ [] := by
                    intro hcon
                    rw [List.drop_eq_nil_iff] at hcon
                    omega
                  obtain ⟨c1, t1, hct⟩ := List.exists_cons_of_ne_nil hw1ne
                  have hc1 : isDigitChar c1 = false := by
                    refine dropWhile_head_false (p := isDigitChar) (w ++ r1)
                      (c := c1) (t := t1 ++ r1) ?_
                    rw [← drop_len_takeWhile, ← hds, drop_append_le w r1 hlea, hct,
                      List.cons_append]
                  have htkw : ∀ y, (w ++ y).takeWhile isDigitChar = ds := by
                    intro y
                    conv_lhs => rw [hwsplit]
                    rw [List.append_assoc, takeWhile_append_all _ hall, hct,
                      List.cons_append, List.takeWhile_cons_of_neg (by simp [hc1]),
                      List.append_nil]
                  rw [drop_append_le w r1 hlea] at hm
                  have hrec := ih hm
                  rw [show matchPieces (Piece.num :: psi) (w ++ x) =
                      (if ((w ++ x).takeWhile isDigitChar).isEmpty then none
                       else (matchPieces psi
                          ((w ++ x).drop ((w ++ x).takeWhile isDigitChar).length)).map
                          (fun r => ((w ++ x).takeWhile isDigitChar ++ r.1, r.2)))
                    from rfl]
                  rw [htkw x, if_neg (by simpa using hdsne)]
                  have hdrop : (w ++ x).drop ds.length = w.drop ds.length ++ x :=
                    drop_append_le w x hlea
                  rw [hdrop, hrec x]
                  rfl

/-- The scan copies verbatim any region free of the pattern's head
character, then continues. -/
theorem replaceG_inert {h0 H ps count R} :
    ∀ {X : List Char} (Y : List Char), h0 ∉ X →
      replaceG h0 H ps count R (X ++ Y) =
        (X ++ (replaceG h0 H ps count R Y).1, (replaceG h0 H ps count R Y).2) := by
  intro X
  induction X with
  | nil => intro Y _; rfl
  | cons c X2 ih =>
      intro Y hX
      have hc : ¬c = h0 := fun hc => hX (hc ▸ List.mem_cons_self _ _)
      rw [List.cons_append, replaceG_cons_none (matchPieces_head_ne hc)]
      rw [ih Y (fun hm => hX (List.mem_cons_of_mem _ hm))]
      rfl

theorem scanNums_inert {h0 H ps} :
    ∀ {X : List Char} (Y : List Char), h0 ∉ X →
      scanNums h0 H ps (X ++ Y) = scanNums h0 H ps Y := by
  intro X
  induction X with
  | nil => intro Y _; rfl
  | cons c X2 ih =>
      intro Y hX
      have hc : ¬c = h0 := fun hc => hX (hc ▸ List.mem_cons_self _ _)
      rw [List.cons_append, scanNums_cons_none (matchPieces_head_ne hc)]
      exact ih Y (fun hm => hX (List.mem_cons_of_mem _ hm))

/-- If every number the scan visits equals the count, the text is
returned unchanged and the modified flag stays down. -/
theorem replaceG_of_scan_agrees {h0 H ps count R} :
    ∀ (n : Nat) (s : List Char), s.length ≤ n →
      (∀ d ∈ scanNums h0 H ps s, digitsToNat d = count) →
      replaceG h0 H ps count R s = (s, false) := by
  intro n
  induction n with
  | zero =>
      intro s hlen _
      rw [Nat.le_zero, List.length_eq_zero] at hlen
      subst hlen
      exact replaceG_nil
  | succ k ih =>
      intro s hlen hag
      cases s with
      | nil => exact replaceG_nil
      | cons c s2 =>
          cases hmc : matchPieces (Piece.lit (h0 :: H) :: ps) (c :: s2) with
          | none =>
              rw [replaceG_cons_none hmc,
                ih s2 (by simpa using hlen)
                  (by rw [← scanNums_cons_none hmc]; exact hag)]
          | some pr =>
              obtain ⟨d, rest⟩ := pr
              have hdag : digitsToNat d = count := by
                refine hag d ?_
                rw [scanNums_cons_some hmc]
                exact List.mem_cons_self _ _
              have hrest : ∀ d2 ∈ scanNums h0 H ps rest, digitsToNat d2 = count := by
                intro d2 hd2
                refine hag d2 ?_
                rw [scanNums_cons_some hmc]
                exact List.mem_cons_of_mem _ hd2
              have hlt := matchPieces_lit_some_lt hmc
              simp only [List.length_cons] at hlt hlen
              rw [replaceG_cons_some hmc, if_pos hdag,
                ih rest (by omega) hrest]
              obtain ⟨wc, hwc, _⟩ := matchPieces_shape hmc
              rw [show ((c :: s2).take ((c :: s2).length - rest.length)) = wc from by
                rw [hwc, List.length_append]
                rw [show wc.length + rest.length - rest.length = wc.length from by omega]
                exact List.take_left wc rest]
              exact Prod.ext (by rw [← hwc]) rfl

/-- The step relation of a single /g replacement pass: Sim s t holds
when t is the output the scan produces from s (characters without a
match at their position are copied, matches with an agreeing number
are kept, matches with a differing number become the rebuild text R). -/
inductive Sim (h0 : Char) (H : List Char) (ps : List Piece)
    (count : Nat) (R : List Char) : List Char → List Char → Prop where
  | done : Sim h0 H ps count R [] []
  | skip (c : Char) {s t : List Char} :
      matchPieces (Piece.lit (h0 :: H) :: ps) (c :: s) = none →
      Sim h0 H ps count R s t → Sim h0 H ps count R (c :: s) (c :: t)
  | keep {w rest t : List Char} {d : List Char} :
      matchPieces (Piece.lit (h0 :: H) :: ps) (w ++ rest) = some (d, rest) →
      digitsToNat d = count →
      Sim h0 H ps count R rest t → Sim h0 H ps count R (w ++ rest) (w ++ t)
  | rew {w rest t : List Char} {d : List Char} :
      matchPieces (Piece.lit (h0 :: H) :: ps) (w ++ rest) = some (d, rest) →
      ¬digitsToNat d = count →
      Sim h0 H ps count R rest t → Sim h0 H ps count R (w ++ rest) (R ++ t)

/-- The output of a pass is Sim-related to its input. -/
theorem sim_replaceG {h0 H ps count R} :
    ∀ (n : Nat) (s : List Char), s.length ≤ n →
      Sim h0 H ps count R s (replaceG h0 H ps count R s).1 := by
  intro n
  induction n with
  | zero =>
      intro s hlen
      rw [Nat.le_zero, List.length_eq_zero] at hlen
      subst hlen
      rw [replaceG_nil]
      exact Sim.done
  | succ k ih =>
      intro s hlen
      cases s with
      | nil =>
          rw [replaceG_nil]
          exact Sim.done
      | cons c s2 =>
          cases hmc : matchPieces (Piece.lit (h0 :: H) :: ps) (c :: s2) with
          | none =>
              rw [replaceG_cons_none hmc]
              exact Sim.skip c hmc (ih s2 (by simpa using hlen))
          | some pr =>
              obtain ⟨d, rest⟩ := pr
              have hlt := matchPieces_lit_some_lt hmc
              simp only [List.length_cons] at hlt hlen
              obtain ⟨wc, hwc, _⟩ := matchPieces_shape hmc
              have htake : ((c :: s2).take ((c :: s2).length - rest.length)) = wc := by
                rw [hwc, List.length_append]
                rw [show wc.length + rest.length - rest.length = wc.length from by omega]
                exact List.take_left wc rest
              rw [replaceG_cons_some hmc]
              by_cases hd : digitsToNat d = count
              · rw [if_pos hd]
                simp only [htake]
                rw [show (c :: s2) = wc ++ rest from hwc]
                exact Sim.keep (hwc ▸ hmc) hd (ih rest (by omega))
              · rw [if_neg hd]
                simp only []
                rw [show (c :: s2) = wc ++ rest from hwc]
                exact Sim.rew (hwc ▸ hmc) hd (ih rest (by omega))

/-- The pattern-specific kernel of idempotence: where the first pass
found no match, substituting the rebuild text R for a matched text w
further right cannot create a match. -/
def NonePres (h0 : Char) (H : List Char) (ps : List Piece) (R : List Char) : Prop :=
  ∀ (a w rest x d : List Char),
    matchPieces (Piece.lit (h0 :: H) :: ps) (w ++ rest) = some (d, rest) →
    matchPieces (Piece.lit (h0 :: H) :: ps) (a ++ (w ++ rest)) = none →
    matchPieces (Piece.lit (h0 :: H) :: ps) (a ++ (R ++ x)) = none

/-- Positions with no match keep having no match after the pass. -/
theorem sim_none_pres {h0 H ps count R} (hker : NonePres h0 H ps R) :
    ∀ {s t}, Sim h0 H ps count R s t →
      ∀ a, matchPieces (Piece.lit (h0 :: H) :: ps) (a ++ s) = none →
        matchPieces (Piece.lit (h0 :: H) :: ps) (a ++ t) = none := by
  intro s t hsim
  induction hsim with
  | done => intro a h; exact h
  | skip c hmc hsim ih =>
      intro a h
      have h' := ih (a ++ [c]) (by rw [List.append_assoc]; exact h)
      rw [List.append_assoc] at h'
      exact h'
  | keep hm hd hsim ih =>
      rename_i w rest t0 d0
      intro a h
      have h' := ih (a ++ w) (by rw [List.append_assoc]; exact h)
      rw [List.append_assoc] at h'
      exact h'
  | rew hm hd hsim ih =>
      rename_i w rest t0 d0
      intro a h
      exact hker a w rest t0 d0 hm h

/-- A pass applied to its own output changes nothing and reports no
modification. -/
theorem sim_second_fixed {h0 H ps count R R'} (hker : NonePres h0 H ps R)
    (hEnds : EndsLit (Piece.lit (h0 :: H) :: ps))
    (hreb : ∀ x, matchPieces (Piece.lit (h0 :: H) :: ps) (R ++ x) =
      some (natDigits count, x))
    (hR : R = h0 :: R') :
    ∀ {s t}, Sim h0 H ps count R s t → replaceG h0 H ps count R t = (t, false) := by
  intro s t hsim
  induction hsim with
  | done => exact replaceG_nil
  | skip c hmc hsim ih =>
      have hnone : matchPieces (Piece.lit (h0 :: H) :: ps) ([] ++ (c :: _)) = none :=
        sim_none_pres hker hsim [c] (by exact hmc)
      rw [replaceG_cons_none (by exact hnone), ih]
  | keep hm hd hsim ih =>
      rename_i w rest t0 d0
      obtain ⟨wc, hwc, hshape⟩ := matchPieces_shape hm
      have hwwc : w = wc := by
        refine List.append_inj_left hwc ?_
        have := congrArg List.length hwc
        simp only [List.length_append] at this
        omega
      subst hwwc
      cases hshape with
      | lit _ hshape2 =>
          rename_i w1
          have hmt : matchPieces (Piece.lit (h0 :: H) :: ps) (((h0 :: H) ++ w1) ++ t0) =
              some (d0, t0) := matchPieces_exact hEnds hm t0
          have hcons : ((h0 :: H) ++ w1) ++ t0 = h0 :: ((H ++ w1) ++ t0) := by
            simp
          rw [hcons] at hmt
          rw [hcons, replaceG_cons_some hmt, if_pos hd, ih]
          have htake : ((h0 :: ((H ++ w1) ++ t0)).take
              ((h0 :: ((H ++ w1) ++ t0)).length - t0.length)) = (h0 :: H) ++ w1 := by
            rw [← hcons, List.length_append]
            rw [show ((h0 :: H) ++ w1).length + t0.length - t0.length =
              ((h0 :: H) ++ w1).length from by omega]
            exact List.take_left _ t0
          rw [htake, ← hcons]
  | rew hm hd hsim ih =>
      rename_i w rest t0 d0
      have hmt := hreb t0
      have hcons : R ++ t0 = h0 :: (R' ++ t0) := by
        rw [hR]
        rfl
      rw [hcons] at hmt
      rw [hcons, replaceG_cons_some hmt,
        if_pos (digitsToNat_natDigits count), ih]
      have htake : ((h0 :: (R' ++ t0)).take
          ((h0 :: (R' ++ t0)).length - t0.length)) = R := by
        rw [← hcons, List.length_append]
        rw [show R.length + t0.length - t0.length = R.length from by omega]
        exact List.take_left _ t0
      rw [htake, ← hcons]

/-- Characters the given pattern can consume. -/
def allowedChar (h0 : Char) (H : List Char) (ps : List Piece) (c : Char) : Prop :=
  wsChar c = true ∨ isDigitChar c = true ∨ c ∈ litChars (Piece.lit (h0 :: H) :: ps)

instance (h0 : Char) (H : List Char) (ps : List Piece) (c : Char) :
    Decidable (allowedChar h0 H ps c) := by
  unfold allowedChar
  infer_instance

theorem shape_not_mem {h0 H ps q0} (hq : ¬allowedChar h0 H ps q0) :
    ∀ {w d}, MatchShape (Piece.lit (h0 :: H) :: ps) w d → q0 ∉ w :=
  fun hsh hm => hq (matchShape_chars hsh q0 hm)

theorem append_split_of_le {α : Type} {wc r b z : List α}
    (heq : wc ++ r = b ++ z) (hle : wc.length ≤ b.length) :
    b = wc ++ b.drop wc.length ∧ r = b.drop wc.length ++ z := by
  have htake : wc = b.take wc.length := by
    have h1 : (wc ++ r).take wc.length = wc := List.take_left _ _
    rw [heq, take_append_le b z hle] at h1
    exact h1.symm
  have hb : b = wc ++ b.drop wc.length := by
    conv_lhs => rw [← List.take_append_drop wc.length b]
    rw [← htake]
  have hz : wc ++ r = wc ++ (b.drop wc.length ++ z) := by
    rw [heq]
    conv_lhs => rw [hb]
    rw [List.append_assoc]
  exact ⟨hb, List.append_cancel_left hz⟩

/-- Behind a barrier character the matcher cannot reach, the matcher
result at a position left of the barrier does not depend on the text
behind the barrier. -/
theorem match_none_transfer {h0 H ps q0}
    (hEnds : EndsLit (Piece.lit (h0 :: H) :: ps))
    (hq : ¬allowedChar h0 H ps q0) {b u2 v2 : List Char}
    (h : matchPieces (Piece.lit (h0 :: H) :: ps) (b ++ q0 :: u2) = none) :
    matchPieces (Piece.lit (h0 :: H) :: ps) (b ++ q0 :: v2) = none := by
  cases hm : matchPieces (Piece.lit (h0 :: H) :: ps) (b ++ q0 :: v2) with
  | none => rfl
  | some pr =>
      exfalso
      obtain ⟨d, r⟩ := pr
      obtain ⟨wc, hwc, hshape⟩ := matchPieces_shape hm
      have hle : wc.length ≤ b.length :=
        prefix_len_of_not_mem hwc.symm (shape_not_mem hq hshape)
      obtain ⟨hb, hr⟩ := append_split_of_le hwc.symm hle
      have hm' : matchPieces (Piece.lit (h0 :: H) :: ps) (wc ++ r) = some (d, r) := by
        rw [← hwc]
        exact hm
      have := matchPieces_exact hEnds hm' (b.drop wc.length ++ q0 :: u2)
      rw [← List.append_assoc, ← hb] at this
      rw [this] at h
      cases h

/-- Fixed points of the scan are preserved when the text behind a
barrier character is replaced by another fixed text behind the same
barrier. -/
theorem replaceG_front {h0 H ps count R q0}
    (hEnds : EndsLit (Piece.lit (h0 :: H) :: ps))
    (hq : ¬allowedChar h0 H ps q0) :
    ∀ (n : Nat) (a u2 v2 : List Char), a.length ≤ n →
      replaceG h0 H ps count R (a ++ q0 :: u2) = (a ++ q0 :: u2, false) →
      replaceG h0 H ps count R (q0 :: v2) = (q0 :: v2, false) →
      replaceG h0 H ps count R (a ++ q0 :: v2) = (a ++ q0 :: v2, false) := by
  intro n
  induction n with
  | zero =>
      intro a u2 v2 hlen _ hv
      rw [Nat.le_zero, List.length_eq_zero] at hlen
      subst hlen
      exact hv
  | succ k ih =>
      intro a u2 v2 hlen hu hv
      cases a with
      | nil => exact hv
      | cons c a2 =>
          rw [List.cons_append] at hu ⊢
          cases hmc : matchPieces (Piece.lit (h0 :: H) :: ps) (c :: (a2 ++ q0 :: u2)) with
          | none =>
              rw [replaceG_cons_none hmc] at hu
              rw [Prod.mk.injEq] at hu
              obtain ⟨hu1, hu2⟩ := hu
              injection hu1 with _ hu1'
              have hu' : replaceG h0 H ps count R (a2 ++ q0 :: u2) =
                  (a2 ++ q0 :: u2, false) := Prod.ext hu1' hu2
              have hnone2 : matchPieces (Piece.lit (h0 :: H) :: ps)
                  ((c :: a2) ++ q0 :: v2) = none :=
                match_none_transfer hEnds hq (b := c :: a2) hmc
              rw [List.cons_append] at hnone2
              rw [replaceG_cons_none hnone2,
                ih a2 u2 v2 (by simpa using hlen) hu' hv]
          | some pr =>
              obtain ⟨d, rest⟩ := pr
              obtain ⟨wc, hwc, hshape⟩ := matchPieces_shape hmc
              have heq2 : wc ++ rest = (c :: a2) ++ q0 :: u2 := by
                rw [← hwc]
                rfl
              have hle : wc.length ≤ (c :: a2).length :=
                prefix_len_of_not_mem heq2 (shape_not_mem hq hshape)
              obtain ⟨hb, hr⟩ := append_split_of_le heq2 hle
              have hwcne : wc ≠ [] := by
                cases hshape with
                | lit _ h2 => simp
              have htake : ((c :: (a2 ++ q0 :: u2)).take
                  ((c :: (a2 ++ q0 :: u2)).length - rest.length)) = wc := by
                rw [hwc, List.length_append]
                rw [show wc.length + rest.length - rest.length = wc.length from by omega]
                exact List.take_left _ _
              rw [replaceG_cons_some hmc] at hu
              by_cases hd : digitsToNat d = count
              · rw [if_pos hd, htake] at hu
                rw [Prod.mk.injEq] at hu
                obtain ⟨hu1, hu2⟩ := hu
                rw [hwc] at hu1
                have hu1' := List.append_cancel_left hu1
                have hrest : replaceG h0 H ps count R rest = (rest, false) :=
                  Prod.ext hu1' hu2
                rw [hr] at hrest
                have ha2 : ((c :: a2).drop wc.length).length ≤ k := by
                  have hwl : 1 ≤ wc.length := by
                    cases wc with
                    | nil => exact absurd rfl hwcne
                    | cons _ _ => simp
                  rw [List.length_drop]
                  simp only [List.length_cons] at hlen hle ⊢
                  omega
                have hrec := ih ((c :: a2).drop wc.length) u2 v2 ha2 hrest hv
                have hm' : matchPieces (Piece.lit (h0 :: H) :: ps)
                    (wc ++ ((c :: a2).drop wc.length ++ q0 :: u2)) = some
                    (d, (c :: a2).drop wc.length ++ q0 :: u2) := by
                  rw [← hr, ← hwc]
                  exact hmc
                have hm2 := matchPieces_exact hEnds hm'
                  ((c :: a2).drop wc.length ++ q0 :: v2)
                have hstr : wc ++ ((c :: a2).drop wc.length ++ q0 :: v2) =
                    c :: (a2 ++ q0 :: v2) := by
                  rw [← List.append_assoc, ← hb]
                  rfl
                rw [hstr] at hm2
                rw [replaceG_cons_some hm2, if_pos hd]
                have htake2 : ((c :: (a2 ++ q0 :: v2)).take
                    ((c :: (a2 ++ q0 :: v2)).length - ((c :: a2).drop wc.length ++
                      q0 :: v2).length)) = wc := by
                  rw [← hstr, List.length_append]
                  rw [show wc.length + ((c :: a2).drop wc.length ++ q0 :: v2).length -
                    ((c :: a2).drop wc.length ++ q0 :: v2).length = wc.length from by
                      omega]
                  exact List.take_left _ _
                rw [htake2, hrec]
                refine Prod.ext ?_ rfl
                show wc ++ ((c :: a2).drop wc.length ++ q0 :: v2) = c :: (a2 ++ q0 :: v2)
                exact hstr
              · rw [if_neg hd] at hu
                rw [Prod.mk.injEq] at hu
                exact absurd hu.2 (by simp)

/-- Fixedness of a scan passes to the suffix behind a barrier
character. -/
theorem replaceG_back {h0 H ps count R q0}
    (hEnds : EndsLit (Piece.lit (h0 :: H) :: ps))
    (hq : ¬allowedChar h0 H ps q0) :
    ∀ (n : Nat) (a u2 : List Char), a.length ≤ n →
      replaceG h0 H ps count R (a ++ q0 :: u2) = (a ++ q0 :: u2, false) →
      replaceG h0 H ps count R (q0 :: u2) = (q0 :: u2, false) := by
  intro n
  induction n with
  | zero =>
      intro a u2 hlen hu
      rw [Nat.le_zero, List.length_eq_zero] at hlen
      subst hlen
      exact hu
  | succ k ih =>
      intro a u2 hlen hu
      cases a with
      | nil => exact hu
      | cons c a2 =>
          rw [List.cons_append] at hu
          cases hmc : matchPieces (Piece.lit (h0 :: H) :: ps) (c :: (a2 ++ q0 :: u2)) with
          | none =>
              rw [replaceG_cons_none hmc] at hu
              rw [Prod.mk.injEq] at hu
              obtain ⟨hu1, hu2⟩ := hu
              injection hu1 with _ hu1'
              exact ih a2 u2 (by simpa using hlen) (Prod.ext hu1' hu2)
          | some pr =>
              obtain ⟨d, rest⟩ := pr
              obtain ⟨wc, hwc, hshape⟩ := matchPieces_shape hmc
              have heq2 : wc ++ rest = (c :: a2) ++ q0 :: u2 := by
                rw [← hwc]
                rfl
              have hle : wc.length ≤ (c :: a2).length :=
                prefix_len_of_not_mem heq2 (shape_not_mem hq hshape)
              obtain ⟨hb, hr⟩ := append_split_of_le heq2 hle
              have hwcne : wc ≠ [] := by
                cases hshape with
                | lit _ h2 => simp
              have htake : ((c :: (a2 ++ q0 :: u2)).take
                  ((c :: (a2 ++ q0 :: u2)).length - rest.length)) = wc := by
                rw [hwc, List.length_append]
                rw [show wc.length + rest.length - rest.length = wc.length from by omega]
                exact List.take_left _ _
              rw [replaceG_cons_some hmc] at hu
              by_cases hd : digitsToNat d = count
              · rw [if_pos hd, htake] at hu
                rw [Prod.mk.injEq] at hu
                obtain ⟨hu1, hu2⟩ := hu
                rw [hwc] at hu1
                have hu1' := List.append_cancel_left hu1
                have hrest : replaceG h0 H ps count R rest = (rest, false) :=
                  Prod.ext hu1' hu2
                rw [hr] at hrest
                have ha2 : ((c :: a2).drop wc.length).length ≤ k := by
                  have hwl : 1 ≤ wc.length := by
                    cases wc with
                    | nil => exact absurd rfl hwcne
                    | cons _ _ => simp
                  rw [List.length_drop]
                  simp only [List.length_cons] at hlen hle ⊢
                  omega
                exact ih ((c :: a2).drop wc.length) u2 ha2 hrest
              · rw [if_neg hd] at hu
                rw [Prod.mk.injEq] at hu
                exact absurd hu.2 (by simp)

/-- Fixed points of the P-scan are preserved by a pass of a second
pattern Q when P cannot consume Q's head character (so P-matches
never overlap Q-matches or Q-rebuilds) and Q-material cannot contain
P's head character (so no P-match starts inside it). -/
theorem replaceG_cross {h0 H ps count R q0 Hq psq countq Rq Rq'}
    (hEnds : EndsLit (Piece.lit (h0 :: H) :: ps))
    (hq : ¬allowedChar h0 H ps q0)
    (hinert : ∀ c, allowedChar q0 Hq psq c → c ≠ h0)
    (hRqchars : ∀ c ∈ Rq, allowedChar q0 Hq psq c)
    (hRq : Rq = q0 :: Rq') :
    ∀ {s t}, Sim q0 Hq psq countq Rq s t →
      ∀ a, replaceG h0 H ps count R (a ++ s) = (a ++ s, false) →
        replaceG h0 H ps count R (a ++ t) = (a ++ t, false) := by
  intro s t hsim
  induction hsim with
  | done => intro a h; exact h
  | skip c hmc hsim ih =>
      intro a h
      have h' := ih (a ++ [c]) (by rw [List.append_assoc]; exact h)
      rw [List.append_assoc] at h'
      exact h'
  | keep hm hd hsim ih =>
      rename_i w rest t0 d0
      intro a h
      have h' := ih (a ++ w) (by rw [List.append_assoc]; exact h)
      rw [List.append_assoc] at h'
      exact h'
  | rew hm hd hsim ih =>
      rename_i w rest t0 d0
      intro a h
      obtain ⟨wc, hwc, hshape⟩ := matchPieces_shape hm
      have hwwc : w = wc := by
        refine List.append_inj_left hwc ?_
        have := congrArg List.length hwc
        simp only [List.length_append] at this
        omega
      subst hwwc
      have hwq0 : ∃ w2, w = q0 :: w2 := by
        cases hshape with
        | lit _ h2 =>
            rename_i w1
            exact ⟨Hq ++ w1, by simp⟩
      obtain ⟨w2, hw2⟩ := hwq0
      have hwchars : ∀ c ∈ w, allowedChar q0 Hq psq c :=
        fun c hc => matchShape_chars hshape c hc
      have hwinert : h0 ∉ w := fun hmem => (hinert _ (hwchars _ hmem)) rfl
      have hRinert : h0 ∉ Rq := fun hmem => (hinert _ (hRqchars _ hmem)) rfl
      have hfix0 : replaceG h0 H ps count R (q0 :: (w2 ++ rest)) =
          (q0 :: (w2 ++ rest), false) := by
        refine replaceG_back hEnds hq a.length a (w2 ++ rest) (le_refl _) ?_
        rw [show (a ++ q0 :: (w2 ++ rest)) = a ++ (w ++ rest) from by rw [hw2]; rfl]
        exact h
      have hfix1 : replaceG h0 H ps count R (w ++ rest) = (w ++ rest, false) := by
        rw [hw2]
        exact hfix0
      have hfix2 : replaceG h0 H ps count R rest = (rest, false) := by
        have hin := @replaceG_inert h0 H ps count R w rest hwinert
        rw [hfix1] at hin
        rw [Prod.mk.injEq] at hin
        obtain ⟨h1, h2⟩ := hin
        exact Prod.ext (List.append_cancel_left h1.symm) h2.symm
      have hfixt0 : replaceG h0 H ps count R t0 = (t0, false) := by
        have := ih [] (by simpa using hfix2)
        simpa using this
      have hfixv : replaceG h0 H ps count R (Rq ++ t0) = (Rq ++ t0, false) := by
        have hin := @replaceG_inert h0 H ps count R Rq t0 hRinert
        rw [hfixt0] at hin
        exact hin
      have hfront := replaceG_front hEnds hq a.length a (w2 ++ rest) (Rq' ++ t0)
        (le_refl _)
        (by rw [show (q0 :: (w2 ++ rest)) = w ++ rest from by rw [hw2]; rfl]
            exact h)
        (by rw [show (q0 :: (Rq' ++ t0)) = Rq ++ t0 from by rw [hRq]; rfl]
            exact hfixv)
      rw [show (q0 :: (Rq' ++ t0)) = Rq ++ t0 from by rw [hRq]; rfl] at hfront
      exact hfront

/-- Tail pieces of /共\s*(\d+)\s*个\s*Skills/ and of
/查看全部\s*(\d+)\s*个\s*Skills/ after their leading literal. -/
def skillsTail : List Piece :=
  [Piece.ws, Piece.num, Piece.ws, Piece.lit "个".toList, Piece.ws,
    Piece.lit "Skills".toList]

/-- Tail pieces of /来自\s*(\d+)\s*个源/. -/
def sourceTail : List Piece :=
  [Piece.ws, Piece.num, Piece.ws, Piece.lit "个源".toList]

/-- Tail pieces of /\*\*(\d+)\s*个\s*Skills\*\*/ (no whitespace star
between the asterisks and the digits). -/
def boldTail : List Piece :=
  [Piece.num, Piece.ws, Piece.lit "个".toList, Piece.ws, Piece.lit "Skills**".toList]

def rebuild1 (n : Nat) : List Char :=
  "共 ".toList ++ natDigits n ++ " 个 Skills".toList

def rebuild2 (n : Nat) : List Char :=
  "来自 ".toList ++ natDigits n ++ " 个源".toList

def rebuild3 (n : Nat) : List Char :=
  "**".toList ++ natDigits n ++ " 个 Skills**".toList

def rebuild4 (n : Nat) : List Char :=
  "查看全部 ".toList ++ natDigits n ++ " 个 Skills".toList

/-- updateStatsInFile's four content.replace passes in source order;
the Bool is the modified flag (an or over all callback invocations). -/
def updateStats (totalCount sourceCount : Nat) (content : List Char) :
    List Char × Bool :=
  let r1 := replaceG '共' [] skillsTail totalCount (rebuild1 totalCount) content
  let r2 := replaceG '来' ['自'] sourceTail sourceCount (rebuild2 sourceCount) r1.1
  let r3 := replaceG '*' ['*'] boldTail totalCount (rebuild3 totalCount) r2.1
  let r4 := replaceG '查' ['看', '全', '部'] skillsTail totalCount
    (rebuild4 totalCount) r3.1
  (r4.1, r1.2 || (r2.2 || (r3.2 || r4.2)))

/-- updateStatsInFile on an existing file: the file is rewritten with
the new content exactly when the modified flag is set, and is left
untouched otherwise; the Bool is the function's return value.  The
first component is the file's content on disk afterwards. -/
def updateStatsInFile (content : List Char) (totalCount sourceCount : Nat) :
    List Char × Bool :=
  let r := updateStats totalCount sourceCount content
  if r.2 then (r.1, true) else (content, false)

theorem reb1 (n : Nat) (x : List Char) :
    matchPieces (Piece.lit "共".toList :: skillsTail) (rebuild1 n ++ x) =
      some (natDigits n, x) := by
  obtain ⟨dh, dt, hnd⟩ := List.exists_cons_of_ne_nil (natDigits_ne_nil n)
  have hdh : isDigitChar dh = true :=
    natDigits_all_digits n dh (by rw [hnd]; exact List.mem_cons_self _ _)
  have hA : ("共 ".toList : List Char) = "共".toList ++ " ".toList := by decide
  have hB : (" 个 Skills".toList : List Char) =
      " ".toList ++ ("个".toList ++ (" ".toList ++ "Skills".toList)) := by decide
  rw [show rebuild1 n ++ x = "共".toList ++ (" ".toList ++ (natDigits n ++
      (" ".toList ++ ("个".toList ++ (" ".toList ++ ("Skills".toList ++ x))))))
    from by simp only [rebuild1, hA, hB, List.append_assoc]]
  rw [matchPieces_lit_step]
  show matchPieces (Piece.ws :: Piece.num :: Piece.ws :: Piece.lit "个".toList ::
    Piece.ws :: Piece.lit "Skills".toList :: []) _ = _
  rw [matchPieces_ws_step _ _ (by decide)
    (by rw [hnd]
        exact List.dropWhile_cons_of_neg (by
          simp only [not_wsChar_of_isDigitChar hdh]
          simp))]
  rw [matchPieces_num_step _ _ (natDigits_ne_nil n) (natDigits_all_digits n)
    (by exact List.takeWhile_cons_of_neg (by decide))]
  rw [matchPieces_ws_step _ _ (by decide)
    (by exact List.dropWhile_cons_of_neg (by decide))]
  rw [matchPieces_lit_step]
  rw [matchPieces_ws_step _ _ (by decide)
    (by exact List.dropWhile_cons_of_neg (by decide))]
  rw [matchPieces_lit_step]
  simp [matchPieces]

theorem reb2 (n : Nat) (x : List Char) :
    matchPieces (Piece.lit "来自".toList :: sourceTail) (rebuild2 n ++ x) =
      some (natDigits n, x) := by
  obtain ⟨dh, dt, hnd⟩ := List.exists_cons_of_ne_nil (natDigits_ne_nil n)
  have hdh : isDigitChar dh = true :=
    natDigits_all_digits n dh (by rw [hnd]; exact List.mem_cons_self _ _)
  have hA : ("来自 ".toList : List Char) = "来自".toList ++ " ".toList := by decide
  have hB : (" 个源".toList : List Char) = " ".toList ++ "个源".toList := by decide
  rw [show rebuild2 n ++ x = "来自".toList ++ (" ".toList ++ (natDigits n ++
      (" ".toList ++ ("个源".toList ++ x))))
    from by simp only [rebuild2, hA, hB, List.append_assoc]]
  rw [matchPieces_lit_step]
  show matchPieces (Piece.ws :: Piece.num :: Piece.ws ::
    Piece.lit "个源".toList :: []) _ = _
  rw [matchPieces_ws_step _ _ (by decide)
    (by rw [hnd]
        exact List.dropWhile_cons_of_neg (by
          simp only [not_wsChar_of_isDigitChar hdh]
          simp))]
  rw [matchPieces_num_step _ _ (natDigits_ne_nil n) (natDigits_all_digits n)
    (by exact List.takeWhile_cons_of_neg (by decide))]
  rw [matchPieces_ws_step _ _ (by decide)
    (by exact List.dropWhile_cons_of_neg (by decide))]
  rw [matchPieces_lit_step]
  simp [matchPieces]

theorem reb3 (n : Nat) (x : List Char) :
    matchPieces (Piece.lit "**".toList :: boldTail) (rebuild3 n ++ x) =
      some (natDigits n, x) := by
  have hB : (" 个 Skills**".toList : List Char) =
      " ".toList ++ ("个".toList ++ (" ".toList ++ "Skills**".toList)) := by decide
  rw [show rebuild3 n ++ x = "**".toList ++ (natDigits n ++
      (" ".toList ++ ("个".toList ++ (" ".toList ++ ("Skills**".toList ++ x)))))
    from by simp only [rebuild3, hB, List.append_assoc]]
  rw [matchPieces_lit_step]
  show matchPieces (Piece.num :: Piece.ws :: Piece.lit "个".toList ::
    Piece.ws :: Piece.lit "Skills**".toList :: []) _ = _
  rw [matchPieces_num_step _ _ (natDigits_ne_nil n) (natDigits_all_digits n)
    (by exact List.takeWhile_cons_of_neg (by decide))]
  rw [matchPieces_ws_step _ _ (by decide)
    (by exact List.dropWhile_cons_of_neg (by decide))]
  rw [matchPieces_lit_step]
  rw [matchPieces_ws_step _ _ (by decide)
    (by exact List.dropWhile_cons_of_neg (by decide))]
  rw [matchPieces_lit_step]
  simp [matchPieces]

theorem reb4 (n : Nat) (x : List Char) :
    matchPieces (Piece.lit "查看全部".toList :: skillsTail) (rebuild4 n ++ x) =
      some (natDigits n, x) := by
  obtain ⟨dh, dt, hnd⟩ := List.exists_cons_of_ne_nil (natDigits_ne_nil n)
  have hdh : isDigitChar dh = true :=
    natDigits_all_digits n dh (by rw [hnd]; exact List.mem_cons_self _ _)
  have hA : ("查看全部 ".toList : List Char) = "查看全部".toList ++ " ".toList := by
    decide
  have hB : (" 个 Skills".toList : List Char) =
      " ".toList ++ ("个".toList ++ (" ".toList ++ "Skills".toList)) := by decide
  rw [show rebuild4 n ++ x = "查看全部".toList ++ (" ".toList ++ (natDigits n ++
      (" ".toList ++ ("个".toList ++ (" ".toList ++ ("Skills".toList ++ x))))))
    from by simp only [rebuild4, hA, hB, List.append_assoc]]
  rw [matchPieces_lit_step]
  show matchPieces (Piece.ws :: Piece.num :: Piece.ws :: Piece.lit "个".toList ::
    Piece.ws :: Piece.lit "Skills".toList :: []) _ = _
  rw [matchPieces_ws_step _ _ (by decide)
    (by rw [hnd]
        exact List.dropWhile_cons_of_neg (by
          simp only [not_wsChar_of_isDigitChar hdh]
          simp))]
  rw [matchPieces_num_step _ _ (natDigits_ne_nil n) (natDigits_all_digits n)
    (by exact List.takeWhile_cons_of_neg (by decide))]
  rw [matchPieces_ws_step _ _ (by decide)
    (by exact List.dropWhile_cons_of_neg (by decide))]
  rw [matchPieces_lit_step]
  rw [matchPieces_ws_step _ _ (by decide)
    (by exact List.dropWhile_cons_of_neg (by decide))]
  rw [matchPieces_lit_step]
  simp [matchPieces]

/-- Generic none-preservation for patterns whose head character never
recurs: not later in the leading literal, not matchable by the tail
pieces.  A match of the rebuilt text starting earlier would have to
consume the rebuild's head character at a non-initial position. -/
theorem nonePres_of_head_isolated {h0 : Char} {H : List Char} {ps : List Piece}
    {R R' : List Char}
    (hEnds : EndsLit (Piece.lit (h0 :: H) :: ps))
    (hH : h0 ∉ H)
    (htail : ¬(wsChar h0 = true ∨ isDigitChar h0 = true ∨ h0 ∈ litChars ps))
    (hR : R = h0 :: R') :
    NonePres h0 H ps R := by
  intro a w rest x d hm hnone
  cases hm2 : matchPieces (Piece.lit (h0 :: H) :: ps) (a ++ (R ++ x)) with
  | none => rfl
  | some pr =>
      exfalso
      obtain ⟨d2, r2⟩ := pr
      obtain ⟨wc, hwc, hshape⟩ := matchPieces_shape hm2
      by_cases hle : wc.length ≤ a.length
      · obtain ⟨hb, hr⟩ := append_split_of_le hwc.symm hle
        have hm2' : matchPieces (Piece.lit (h0 :: H) :: ps) (wc ++ r2) =
            some (d2, r2) := by
          rw [← hwc]
          exact hm2
        have hext := matchPieces_exact hEnds hm2' (a.drop wc.length ++ (w ++ rest))
        rw [← List.append_assoc, ← hb] at hext
        rw [hext] at hnone
        cases hnone
      · push_neg at hle
        cases ha0 : a with
        | nil =>
            subst ha0
            rw [List.nil_append] at hnone
            rw [hm] at hnone
            cases hnone
        | cons c0 a2 =>
            have heq : wc ++ r2 = a ++ h0 :: (R' ++ x) := by
              rw [← hwc, hR]
              rfl
            have hmem := mem_drop_of_prefix_long heq hle
            have hmem1 : h0 ∈ wc.drop 1 := by
              have hdd : wc.drop a.length = (wc.drop 1).drop (a.length - 1) := by
                rw [List.drop_drop]
                rw [show 1 + (a.length - 1) = a.length from by
                  rw [ha0]
                  simp [Nat.add_comm]]
              rw [hdd] at hmem
              exact List.mem_of_mem_drop hmem
            cases hshape with
            | lit _ hshape2 =>
                rename_i body
                rw [show ((h0 :: H) ++ body).drop 1 = H ++ body from rfl] at hmem1
                rcases List.mem_append.mp hmem1 with hc | hc
                · exact hH hc
                · exact htail (matchShape_chars hshape2 h0 hc)

theorem endsLit_skills {l : List Char} (hl : l ≠ []) :
    EndsLit (Piece.lit l :: skillsTail) :=
  EndsLit.cons _ (EndsLit.cons _ (EndsLit.cons _ (EndsLit.cons _ (EndsLit.cons _
    (EndsLit.cons _ (EndsLit.base _ (by decide)))))))

theorem endsLit_source {l : List Char} (hl : l ≠ []) :
    EndsLit (Piece.lit l :: sourceTail) :=
  EndsLit.cons _ (EndsLit.cons _ (EndsLit.cons _ (EndsLit.cons _
    (EndsLit.base _ (by decide)))))

theorem endsLit_bold {l : List Char} (hl : l ≠ []) :
    EndsLit (Piece.lit l :: boldTail) :=
  EndsLit.cons _ (EndsLit.cons _ (EndsLit.cons _ (EndsLit.cons _ (EndsLit.cons _
    (EndsLit.base _ (by decide))))))

theorem matchShape_lit_inv {l : List Char} {ps w d}
    (h : MatchShape (Piece.lit l :: ps) w d) :
    ∃ w2, w = l ++ w2 ∧ MatchShape ps w2 d := by
  cases h with
  | lit _ h2 => exact ⟨_, rfl, h2⟩

theorem matchShape_ws_inv {ps w d} (h : MatchShape (Piece.ws :: ps) w d) :
    ∃ a w2, w = a ++ w2 ∧ (∀ c ∈ a, wsChar c = true) ∧ MatchShape ps w2 d := by
  cases h with
  | ws a ha h2 => exact ⟨a, _, rfl, ha, h2⟩

theorem matchShape_num_inv {ps w d} (h : MatchShape (Piece.num :: ps) w d) :
    ∃ ds w2 d2, w = ds ++ w2 ∧ ds ≠ [] ∧ (∀ c ∈ ds, isDigitChar c = true) ∧
      d = ds ++ d2 ∧ MatchShape ps w2 d2 := by
  cases h with
  | num ds hne hdig h2 => exact ⟨ds, _, _, rfl, hne, hdig, rfl, h2⟩

theorem matchShape_nil_inv {w d} (h : MatchShape [] w d) : w = [] ∧ d = [] := by
  cases h
  exact ⟨rfl, rfl⟩

/-- None-preservation for the bold pattern, whose head character *
also ends its matches.  A match of the rebuilt text starting earlier
either lies within the copied prefix (so it existed before), consumes
the rebuild's opening ** as its own closing ** (the first two
characters of the rebuild and of the replaced match agree, so it
existed before), or forces an asterisk where a digit or a 个 /
Skills / whitespace character is required. -/
theorem nonePres_p3 (n : Nat) : NonePres '*' ['*'] boldTail (rebuild3 n) := by
  have hEnds : EndsLit (Piece.lit ('*' :: ['*']) :: boldTail) := endsLit_bold (by decide)
  intro a w rest x d hm hnone
  cases hm2 : matchPieces (Piece.lit ('*' :: ['*']) :: boldTail)
      (a ++ (rebuild3 n ++ x)) with
  | none => rfl
  | some pr =>
      exfalso
      obtain ⟨d2, r2⟩ := pr
      obtain ⟨wc, hwc, hshape⟩ := matchPieces_shape hm2
      by_cases hle : wc.length ≤ a.length
      · obtain ⟨hb, hr⟩ := append_split_of_le hwc.symm hle
        have hm2' : matchPieces (Piece.lit ('*' :: ['*']) :: boldTail) (wc ++ r2) =
            some (d2, r2) := by
          rw [← hwc]
          exact hm2
        have hext := matchPieces_exact hEnds hm2' (a.drop wc.length ++ (w ++ rest))
        rw [← List.append_assoc, ← hb] at hext
        rw [hext] at hnone
        cases hnone
      · push_neg at hle
        obtain ⟨body, hbody, hsh1⟩ := matchShape_lit_inv hshape
        obtain ⟨ds, body2, d2r, hbody2, hdsne, hdsdig, hd2, hsh2⟩ :=
          matchShape_num_inv hsh1
        obtain ⟨a1, body3, hbody3, ha1, hsh3⟩ := matchShape_ws_inv hsh2
        obtain ⟨body4, hbody4, hsh4⟩ := matchShape_lit_inv hsh3
        obtain ⟨a2w, body5, hbody5, ha2w, hsh5⟩ := matchShape_ws_inv hsh4
        obtain ⟨body6, hbody6, hsh6⟩ := matchShape_lit_inv hsh5
        obtain ⟨hb6, -⟩ := matchShape_nil_inv hsh6
        have hwcform : wc = '*' :: '*' ::
            ((ds ++ (a1 ++ ("个".toList ++ (a2w ++ "Skills".toList)))) ++
              ['*', '*']) := by
          rw [hbody, hbody2, hbody3, hbody4, hbody5, hbody6, hb6]
          simp only [show ("Skills**".toList : List Char) =
            "Skills".toList ++ ['*', '*'] from by decide, List.append_nil,
            List.append_assoc]
          rfl
        set coreTail : List Char :=
          ds ++ (a1 ++ ("个".toList ++ (a2w ++ "Skills".toList))) with hcore
        have hstar : '*' ∉ coreTail := by
          intro hc
          rw [hcore] at hc
          rcases List.mem_append.mp hc with hc1 | hc2
          · exact absurd (hdsdig '*' hc1) (by decide)
          rcases List.mem_append.mp hc2 with hc1 | hc2
          · exact absurd (ha1 '*' hc1) (by decide)
          rcases List.mem_append.mp hc2 with hc1 | hc2
          · exact absurd hc1 (by decide)
          rcases List.mem_append.mp hc2 with hc1 | hc2
          · exact absurd (ha2w '*' hc1) (by decide)
          · exact absurd hc2 (by decide)
        cases ha0 : a with
        | nil =>
            subst ha0
            rw [List.nil_append] at hnone
            rw [hm] at hnone
            cases hnone
        | cons c0 a2 =>
        have hR3 : rebuild3 n = '*' :: '*' ::
            (natDigits n ++ " 个 Skills**".toList) := rfl
        by_cases ha1len : a.length = 1
        · have ha2nil : a2 = [] := by
            rw [ha0] at ha1len
            simpa using ha1len
          subst ha2nil
          obtain ⟨dsh, dst, hdsc⟩ := List.exists_cons_of_ne_nil hdsne
          have heq : wc ++ r2 = a ++ (rebuild3 n ++ x) := hwc.symm
          rw [ha0, hwcform, hcore, hdsc, hR3] at heq
          simp only [List.cons_append, List.append_assoc, List.singleton_append] at heq
          injection heq with hi1 heq2
          injection heq2 with hi2 heq3
          injection heq3 with hi3 heq4
          exact absurd (hdsdig dsh (by rw [hdsc]; exact List.mem_cons_self _ _))
            (by rw [hi3]; decide)
        · have ha2len : 2 ≤ a.length := by
            rw [ha0]
            rw [ha0] at ha1len
            simp only [List.length_cons] at ha1len ⊢
            omega
          have hlea : a.length ≤ wc.length := le_of_lt hle
          obtain ⟨hwcsplit, ht2⟩ := append_split_of_le hwc hlea
          have htne : wc.drop a.length ≠ [] := by
            intro hcon
            rw [List.drop_eq_nil_iff] at hcon
            omega
          have htdrop : wc.drop a.length =
              (coreTail ++ ['*', '*']).drop (a.length - 2) := by
            rw [hwcform]
            rw [show a.length = (a.length - 2) + 1 + 1 from by omega]
            rw [List.drop_succ_cons, List.drop_succ_cons]
            rw [show a.length - 2 + 1 + 1 - 2 = a.length - 2 from by omega]
          by_cases hk : a.length - 2 < coreTail.length
          · have hctne : coreTail.drop (a.length - 2) ≠ [] := by
              intro hcon
              rw [List.drop_eq_nil_iff] at hcon
              omega
            obtain ⟨c1, t2, hct⟩ := List.exists_cons_of_ne_nil hctne
            have htform : wc.drop a.length = c1 :: (t2 ++ ['*', '*']) := by
              rw [htdrop, drop_append_le _ _ (le_of_lt hk), hct, List.cons_append]
            have hc1star : c1 = '*' := by
              have hx : rebuild3 n ++ x = (c1 :: (t2 ++ ['*', '*'])) ++ r2 := by
                rw [← htform]
                exact ht2
              rw [hR3] at hx
              simp only [List.cons_append] at hx
              injection hx with hi1 _
              exact hi1.symm
            refine hstar ?_
            rw [← hc1star]
            exact List.mem_of_mem_drop (by rw [hct]; exact List.mem_cons_self _ _)
          · push_neg at hk
            have htdrop2 : wc.drop a.length =
                (['*', '*'] : List Char).drop (a.length - 2 - coreTail.length) := by
              rw [htdrop, drop_append_ge _ _ hk]
            have hjle : a.length - 2 - coreTail.length ≤ 1 := by
              by_contra hj
              push_neg at hj
              refine htne ?_
              rw [htdrop2]
              rw [List.drop_eq_nil_iff]
              simpa using hj
            obtain ⟨wcm, hwcm, hshm⟩ := matchPieces_shape hm
            have hwwcm : w = wcm := by
              refine List.append_inj_left hwcm ?_
              have := congrArg List.length hwcm
              simp only [List.length_append] at this
              omega
            subst hwwcm
            have hwform : ∃ bw, w = '*' :: '*' :: bw := by
              obtain ⟨bw, hbw, -⟩ := matchShape_lit_inv hshm
              exact ⟨bw, hbw⟩
            obtain ⟨bw, hbw⟩ := hwform
            have httake : wc.drop a.length = w.take (wc.drop a.length).length := by
              rw [htdrop2]
              rcases Nat.le_one_iff_eq_zero_or_eq_one.mp hjle with hj0 | hj1
              · rw [hj0, hbw]
                rfl
              · rw [hj1, hbw]
                rfl
            have hm2' : matchPieces (Piece.lit ('*' :: ['*']) :: boldTail)
                (wc ++ r2) = some (d2, r2) := by
              rw [← hwc]
              exact hm2
            have hext := matchPieces_exact hEnds hm2'
              (w.drop (wc.drop a.length).length ++ rest)
            have hwsplit2 : w = wc.drop a.length ++ w.drop (wc.drop a.length).length := by
              conv_lhs => rw [← List.take_append_drop (wc.drop a.length).length w]
              rw [← httake]
            have hstr : wc ++ (w.drop (wc.drop a.length).length ++ rest) =
                a ++ (w ++ rest) := by
              conv_rhs => rw [hwsplit2, ← List.append_assoc, ← List.append_assoc,
                ← hwcsplit, List.append_assoc]
            rw [hstr] at hext
            rw [hext] at hnone
            cases hnone

theorem nonePres_p1 (n : Nat) : NonePres '共' [] skillsTail (rebuild1 n) :=
  nonePres_of_head_isolated (endsLit_skills (by decide)) (by simp) (by decide)
    (show rebuild1 n = '共' :: (' ' :: (natDigits n ++ " 个 Skills".toList)) from rfl)

theorem nonePres_p2 (n : Nat) : NonePres '来' ['自'] sourceTail (rebuild2 n) :=
  nonePres_of_head_isolated (endsLit_source (by decide)) (by decide) (by decide)
    (show rebuild2 n = '来' :: ('自' :: ' ' :: (natDigits n ++ " 个源".toList)) from rfl)

theorem nonePres_p4 (n : Nat) : NonePres '查' ['看', '全', '部'] skillsTail (rebuild4 n) :=
  nonePres_of_head_isolated (endsLit_skills (by decide)) (by decide) (by decide)
    (show rebuild4 n = '查' :: ('看' :: '全' :: '部' :: ' ' ::
      (natDigits n ++ " 个 Skills".toList)) from rfl)

theorem allowed_rebuild {q0 : Char} {Hq : List Char} {psq : List Piece}
    {pre suf : List Char} (n : Nat)
    (hpre : ∀ c ∈ pre, allowedChar q0 Hq psq c)
    (hsuf : ∀ c ∈ suf, allowedChar q0 Hq psq c) :
    ∀ c ∈ pre ++ (natDigits n ++ suf), allowedChar q0 Hq psq c := by
  intro c hc
  rcases List.mem_append.mp hc with h1 | h2
  · exact hpre c h1
  rcases List.mem_append.mp h2 with h1 | h1
  · exact Or.inr (Or.inl (natDigits_all_digits n c h1))
  · exact hsuf c h1

theorem rebuild1_chars (n : Nat) :
    ∀ c ∈ rebuild1 n, allowedChar '共' [] skillsTail c := by
  have h := @allowed_rebuild '共' [] skillsTail "共 ".toList " 个 Skills".toList n
    (by decide) (by decide)
  intro c hc
  refine h c ?_
  rw [show "共 ".toList ++ (natDigits n ++ " 个 Skills".toList) = rebuild1 n from by
    simp [rebuild1]]
  exact hc

theorem rebuild2_chars (n : Nat) :
    ∀ c ∈ rebuild2 n, allowedChar '来' ['自'] sourceTail c := by
  have h := @allowed_rebuild '来' ['自'] sourceTail "来自 ".toList " 个源".toList n
    (by decide) (by decide)
  intro c hc
  refine h c ?_
  rw [show "来自 ".toList ++ (natDigits n ++ " 个源".toList) = rebuild2 n from by
    simp [rebuild2]]
  exact hc

theorem rebuild3_chars (n : Nat) :
    ∀ c ∈ rebuild3 n, allowedChar '*' ['*'] boldTail c := by
  have h := @allowed_rebuild '*' ['*'] boldTail "**".toList " 个 Skills**".toList n
    (by decide) (by decide)
  intro c hc
  refine h c ?_
  rw [show "**".toList ++ (natDigits n ++ " 个 Skills**".toList) = rebuild3 n from by
    simp [rebuild3]]
  exact hc

theorem rebuild4_chars (n : Nat) :
    ∀ c ∈ rebuild4 n, allowedChar '查' ['看', '全', '部'] skillsTail c := by
  have h := @allowed_rebuild '查' ['看', '全', '部'] skillsTail "查看全部 ".toList
    " 个 Skills".toList n (by decide) (by decide)
  intro c hc
  refine h c ?_
  rw [show "查看全部 ".toList ++ (natDigits n ++ " 个 Skills".toList) = rebuild4 n from by
    simp [rebuild4]]
  exact hc

theorem scanNums_of_not_mem {h0 H ps} {s : List Char} (h : h0 ∉ s) :
    scanNums h0 H ps s = [] := by
  have h2 := @scanNums_inert h0 H ps s ([] : List Char) h
  rw [List.append_nil] at h2
  rw [h2, scanNums_nil]

/-- A second run of the four replacement passes changes nothing and
reports no modification. -/
theorem updateStats_second (total source : Nat) (content : List Char) :
    updateStats total source (updateStats total source content).1 =
      ((updateStats total source content).1, false) := by
  set t1 := (replaceG '共' [] skillsTail total (rebuild1 total) content).1 with ht1
  set t2 := (replaceG '来' ['自'] sourceTail source (rebuild2 source) t1).1 with ht2
  set t3 := (replaceG '*' ['*'] boldTail total (rebuild3 total) t2).1 with ht3
  set t4 := (replaceG '查' ['看', '全', '部'] skillsTail total (rebuild4 total) t3).1
    with ht4
  have hfst : (updateStats total source content).1 = t4 := rfl
  have s1 : Sim '共' [] skillsTail total (rebuild1 total) content t1 :=
    sim_replaceG content.length content (le_refl _)
  have s2 : Sim '来' ['自'] sourceTail source (rebuild2 source) t1 t2 :=
    sim_replaceG t1.length t1 (le_refl _)
  have s3 : Sim '*' ['*'] boldTail total (rebuild3 total) t2 t3 :=
    sim_replaceG t2.length t2 (le_refl _)
  have s4 : Sim '查' ['看', '全', '部'] skillsTail total (rebuild4 total) t3 t4 :=
    sim_replaceG t3.length t3 (le_refl _)
  have f1 : replaceG '共' [] skillsTail total (rebuild1 total) t4 = (t4, false) := by
    have a1 : replaceG '共' [] skillsTail total (rebuild1 total) t1 = (t1, false) :=
      sim_second_fixed (nonePres_p1 total) (endsLit_skills (by decide)) (reb1 total)
        rfl s1
    have a2 := replaceG_cross (endsLit_skills (by decide)) (by decide)
      (by intro c hc hch; subst hch; exact absurd hc (by decide))
      (rebuild2_chars source) rfl s2 [] a1
    have a3 := replaceG_cross (endsLit_skills (by decide)) (by decide)
      (by intro c hc hch; subst hch; exact absurd hc (by decide))
      (rebuild3_chars total) rfl s3 [] a2
    have a4 := replaceG_cross (endsLit_skills (by decide)) (by decide)
      (by intro c hc hch; subst hch; exact absurd hc (by decide))
      (rebuild4_chars total) rfl s4 [] a3
    exact a4
  have f2 : replaceG '来' ['自'] sourceTail source (rebuild2 source) t4 =
      (t4, false) := by
    have a2 : replaceG '来' ['自'] sourceTail source (rebuild2 source) t2 =
        (t2, false) :=
      sim_second_fixed (nonePres_p2 source) (endsLit_source (by decide)) (reb2 source)
        rfl s2
    have a3 := replaceG_cross (endsLit_source (by decide)) (by decide)
      (by intro c hc hch; subst hch; exact absurd hc (by decide))
      (rebuild3_chars total) rfl s3 [] a2
    have a4 := replaceG_cross (endsLit_source (by decide)) (by decide)
      (by intro c hc hch; subst hch; exact absurd hc (by decide))
      (rebuild4_chars total) rfl s4 [] a3
    exact a4
  have f3 : replaceG '*' ['*'] boldTail total (rebuild3 total) t4 = (t4, false) := by
    have a3 : replaceG '*' ['*'] boldTail total (rebuild3 total) t3 = (t3, false) :=
      sim_second_fixed (nonePres_p3 total) (endsLit_bold (by decide)) (reb3 total)
        rfl s3
    have a4 := replaceG_cross (endsLit_bold (by decide)) (by decide)
      (by intro c hc hch; subst hch; exact absurd hc (by decide))
      (rebuild4_chars total) rfl s4 [] a3
    exact a4
  have f4 : replaceG '查' ['看', '全', '部'] skillsTail total (rebuild4 total) t4 =
      (t4, false) :=
    sim_second_fixed (nonePres_p4 total) (endsLit_skills (by decide)) (reb4 total)
      rfl s4
  rw [hfst]
  simp [updateStats, f1, f2, f3, f4]

/-- When every number the four scans visit already equals its count,
no pass changes anything and the modified flag stays down. -/
theorem updateStats_no_change (total source : Nat) (content : List Char)
    (h1 : ∀ d ∈ scanNums '共' [] skillsTail content, digitsToNat d = total)
    (h2 : ∀ d ∈ scanNums '来' ['自'] sourceTail content, digitsToNat d = source)
    (h3 : ∀ d ∈ scanNums '*' ['*'] boldTail content, digitsToNat d = total)
    (h4 : ∀ d ∈ scanNums '查' ['看', '全', '部'] skillsTail content,
      digitsToNat d = total) :
    updateStats total source content = (content, false) := by
  have g1 : replaceG '共' [] skillsTail total (rebuild1 total) content =
      (content, false) :=
    replaceG_of_scan_agrees content.length content (le_refl _) h1
  have g2 : replaceG '来' ['自'] sourceTail source (rebuild2 source) content =
      (content, false) :=
    replaceG_of_scan_agrees content.length content (le_refl _) h2
  have g3 : replaceG '*' ['*'] boldTail total (rebuild3 total) content =
      (content, false) :=
    replaceG_of_scan_agrees content.length content (le_refl _) h3
  have g4 : replaceG '查' ['看', '全', '部'] skillsTail total (rebuild4 total)
      content = (content, false) :=
    replaceG_of_scan_agrees content.length content (le_refl _) h4
  simp [updateStats, g1, g2, g3, g4]

/-- C6: the document rewrite is idempotent — a second application of
the four-pattern rewrite returns the same text with the modified flag
down, both on raw text and at the file level — and when no number any
pattern's scan matches differs from the computed count, the file is
not written back and the update function reports no modification. -/
theorem C6_rewrite_idempotent (total source : Nat) (content : List Char) :
    (updateStats total source (updateStats total source content).1 =
      ((updateStats total source content).1, false)) ∧
    (updateStatsInFile (updateStatsInFile content total source).1 total source =
      ((updateStatsInFile content total source).1, false)) ∧
    ((∀ d ∈ scanNums '共' [] skillsTail content, digitsToNat d = total) →
     (∀ d ∈ scanNums '来' ['自'] sourceTail content, digitsToNat d = source) →
     (∀ d ∈ scanNums '*' ['*'] boldTail content, digitsToNat d = total) →
     (∀ d ∈ scanNums '查' ['看', '全', '部'] skillsTail content,
       digitsToNat d = total) →
     updateStatsInFile content total source = (content, false)) := by
  refine ⟨updateStats_second total source content, ?_, ?_⟩
  · by_cases hflag : (updateStats total source content).2 = true
    · have hsec := updateStats_second total source content
      simp [updateStatsInFile, hflag, hsec]
    · have hflag2 : (updateStats total source content).2 = false := by
        simpa using hflag
      simp [updateStatsInFile, hflag2]
  · intro h1 h2 h3 h4
    have h := updateStats_no_change total source content h1 h2 h3 h4
    simp [updateStatsInFile, h]

/-- Witness for C6 on a document with no occurrences of any pattern. -/
theorem C6_rewrite_idempotent_witness :
    updateStats 3 2 (updateStats 3 2 "hello".toList).1 =
      ((updateStats 3 2 "hello".toList).1, false) ∧
    updateStatsInFile "hello".toList 3 2 = ("hello".toList, false) :=
  ⟨(C6_rewrite_idempotent 3 2 "hello".toList).1,
   (C6_rewrite_idempotent 3 2 "hello".toList).2.2
     (by intro d hd
         rw [scanNums_of_not_mem (by decide)] at hd
         cases hd)
     (by intro d hd
         rw [scanNums_of_not_mem (by decide)] at hd
         cases hd)
     (by intro d hd
         rw [scanNums_of_not_mem (by decide)] at hd
         cases hd)
     (by intro d hd
         rw [scanNums_of_not_mem (by decide)] at hd
         cases hd)⟩

/-! ## main (sync-stats.js lines 358-461)

The only file writes in the program are the updateStatsInFile calls
on README.md and docs/skills.md at lines 447-456, behind the
shouldFix gate of lines 437-440.  The world is the content of those
two files (none when the file does not exist, in which case
updateStatsInFile returns early without writing).  Scanning and
reconciliation only read, so their results enter the model only as
the computed counts. -/

structure World where
  readme : Option (List Char)
  docs : Option (List Char)

/-- One updateStatsInFile call as a file transformation: a missing
file is reported and skipped, an existing one holds the first
component of updateStatsInFile afterwards. -/
def updateFileOpt (content : Option (List Char)) (total source : Nat) :
    Option (List Char) :=
  match content with
  | none => none
  | some c => some (updateStatsInFile c total source).1

/-- The file-system effect of main: with --fix both documentation
files go through updateStatsInFile, without it main returns after
reporting and the world is untouched. -/
def mainRun (args : List String) (total source : Nat) (w : World) : World :=
  if args.contains "--fix" then
    { readme := updateFileOpt w.readme total source,
      docs := updateFileOpt w.docs total source }
  else w

/-- C9: an invocation without --fix performs no file write — neither
README.md nor docs/skills.md changes, whatever other flags are
present and whatever counts the scan produced. -/
theorem C9_no_fix_no_write (args : List String) (total source : Nat) (w : World)
    (h : "--fix" ∉ args) :
    mainRun args total source w = w := by
  unfold mainRun
  rw [if_neg]
  intro hc
  exact h (by simpa using hc)

/-- Witness for C9: the --i18n flag alone does not touch the files. -/
theorem C9_no_fix_no_write_witness :
    mainRun ["--i18n"] 3 2
        ⟨some "共 5 个 Skills".toList, some "**4 个 Skills**".toList⟩ =
      ⟨some "共 5 个 Skills".toList, some "**4 个 Skills**".toList⟩ :=
  C9_no_fix_no_write ["--i18n"] 3 2 _ (by decide)

/-! ## Claim C5, amended form: quote handling of the two field patterns
on an arbitrary frontmatter block

The amended claim is universal: in any frontmatter block, on the first
line that starts with the key, a fully quoted value (single or double
quotes) keeps its quotes in the name field and loses them in the
description field.  The lemmas below follow the matchers over an
arbitrary block: the line decomposition is rejoined with joinNl, a
leftmost-line scan lemma walks scanKeyed past non-matching lines, and
the closing-quote barrier argument is carried out for both quote
characters and for a line in any position (end of block or followed by
further lines). -/

/-- The text a list of lines came from: the lines rejoined with
newlines (inverse of splitNl). -/
def joinNl : List (List Char) → List Char
  | [] => []
  | [l] => l
  | l :: l2 :: ls => l ++ '\n' :: joinNl (l2 :: ls)

/-- The text that follows a given line inside the rejoined block:
empty after the last line, a newline and the remaining lines
otherwise. -/
def lineSep : List (List Char) → List Char
  | [] => []
  | l :: ls => '\n' :: joinNl (l :: ls)

theorem joinNl_cons (l : List Char) (ls : List (List Char)) :
    joinNl (l :: ls) = l ++ lineSep ls := by
  cases ls with
  | nil => simp [joinNl, lineSep]
  | cons l2 ls2 => rfl

theorem joinNl_cons_ne (l : List Char) {ls : List (List Char)} (h : ls ≠ []) :
    joinNl (l :: ls) = l ++ '\n' :: joinNl ls := by
  cases ls with
  | nil => exact absurd rfl h
  | cons l2 ls2 => rfl

/-- The text after a line is empty or starts with a newline. -/
theorem lineSep_shape (ls : List (List Char)) :
    lineSep ls = [] ∨ ∃ r, lineSep ls = '\n' :: r := by
  cases ls with
  | nil => exact Or.inl rfl
  | cons l ls2 => exact Or.inr ⟨joinNl (l :: ls2), rfl⟩

/-- The candidate positions of the multiline scan: the suffix at each
line start is the rejoined tail of the line list. -/
theorem suffixesOfLines_cons (l : List Char) (ls : List (List Char)) :
    suffixesOfLines (l :: ls) = joinNl (l :: ls) :: suffixesOfLines ls := by
  induction ls generalizing l with
  | nil => rfl
  | cons l2 ls2 ih =>
      rw [show suffixesOfLines (l :: l2 :: ls2) =
          (match suffixesOfLines (l2 :: ls2) with
           | [] => [l]
           | t :: ts => (l ++ '\n' :: t) :: t :: ts) from rfl]
      rw [ih l2]
      rfl

/-- Every line produced by splitNl is newline-free. -/
theorem mem_splitNl_noNl : ∀ {s l : List Char}, l ∈ splitNl s →
    ∀ c ∈ l, ¬c = '\n' := by
  intro s
  induction s with
  | nil =>
      intro l hl c hc
      simp only [splitNl, List.mem_singleton] at hl
      subst hl
      cases hc
  | cons c0 s2 ih =>
      intro l hl c hc
      by_cases h0 : c0 = '\n'
      · rw [show splitNl (c0 :: s2) = [] :: splitNl s2 from by
          simp [splitNl, h0]] at hl
        rcases List.mem_cons.mp hl with rfl | hl2
        · cases hc
        · exact ih hl2 c hc
      · rw [show splitNl (c0 :: s2) =
            (match splitNl s2 with
             | [] => [[c0]]
             | x :: xs => (c0 :: x) :: xs) from by
          simp [splitNl, h0]] at hl
        cases hm : splitNl s2 with
        | nil =>
            rw [hm] at hl
            simp only [List.mem_singleton] at hl
            subst hl
            rw [List.mem_singleton] at hc
            subst hc
            exact h0
        | cons x xs =>
            rw [hm] at hl
            rcases List.mem_cons.mp hl with rfl | hl2
            · rcases List.mem_cons.mp hc with rfl | hc2
              · exact h0
              · exact ih (show x ∈ splitNl s2 from by
                  rw [hm]; exact List.mem_cons_self x xs) c hc2
            · exact ih (show l ∈ splitNl s2 from by
                rw [hm]; exact List.mem_cons_of_mem x hl2) c hc

/-- scanKeyed finds its result on the first line that starts with the
key, whatever lines precede it and whatever lines follow: the matcher
receives the rest of that line joined with all later lines. -/
theorem scanKeyed_first_match {key W g : List Char}
    {matcher : List Char → Option (List Char)} {rest : List (List Char)}
    (hkey : ∀ c ∈ key, ¬c = '\n') {s : List Char} (pre : List (List Char))
    (hsplit : splitNl s = pre ++ (key ++ W) :: rest)
    (hpre : ∀ l ∈ pre, key.isPrefixOf l = false)
    (hmatch : matcher (W ++ lineSep rest) = some g) :
    scanKeyed key matcher s = some g := by
  unfold scanKeyed
  rw [hsplit]
  clear hsplit
  induction pre with
  | nil =>
      rw [List.nil_append, suffixesOfLines_cons]
      simp only [List.foldr_cons]
      rw [show joinNl ((key ++ W) :: rest) = key ++ (W ++ lineSep rest) from by
        rw [joinNl_cons, List.append_assoc]]
      rw [isPrefixOf_append_self]
      simp only [if_true, List.drop_left]
      rw [hmatch]
  | cons p pre2 ih =>
      rw [List.cons_append, suffixesOfLines_cons]
      simp only [List.foldr_cons]
      have hne : pre2 ++ (key ++ W) :: rest ≠ [] := by
        cases pre2 <;> simp
      rw [joinNl_cons_ne p hne]
      have hfalse : key.isPrefixOf
          (p ++ '\n' :: joinNl (pre2 ++ (key ++ W) :: rest)) = false := by
        cases hc : key.isPrefixOf
            (p ++ '\n' :: joinNl (pre2 ++ (key ++ W) :: rest)) with
        | false => rfl
        | true =>
            have h2 := isPrefixOf_append_cons_noNl hkey hc
            have h3 := hpre p (List.mem_cons_self _ _)
            rw [h2] at h3
            exact h3
      rw [hfalse]
      simp only [Bool.false_eq_true, if_false]
      exact ih (fun l hl => hpre l (List.mem_cons_of_mem _ hl))

/-- A quote character is not in the whitespace class. -/
theorem isQuote_not_ws {q : Char} (h : isQuote q = true) : wsChar q = false := by
  unfold isQuote at h
  simp only [Bool.or_eq_true, decide_eq_true_eq] at h
  rcases h with rfl | rfl <;> decide

/-- A quote character is not a newline. -/
theorem isQuote_not_nl {q : Char} (h : isQuote q = true) : ¬q = '\n' := by
  unfold isQuote at h
  simp only [Bool.or_eq_true, decide_eq_true_eq] at h
  rcases h with rfl | rfl <;> decide

/-- ws-star eol fails on any text whose first non-whitespace character
is a quote (single or double). -/
theorem matchWsEol_blocked {z Y : List Char} {q : Char}
    (hz : ∀ c ∈ z, ¬c = '\n') (hq : isQuote q = true) :
    matchWsEol (z ++ q :: Y) = false := by
  induction z with
  | nil =>
      simp only [List.nil_append, matchWsEol]
      rw [if_neg (isQuote_not_nl hq), isQuote_not_ws hq]
      simp
  | cons c ztl ih =>
      have hc : ¬c = '\n' := hz c (List.mem_cons_self _ _)
      simp only [List.cons_append, matchWsEol, hc, if_false]
      by_cases hws : wsChar c
      · rw [if_pos hws]
        exact ih (fun x hx => hz x (List.mem_cons_of_mem _ hx))
      · rw [if_neg hws]

/-- The description tail cannot match when a nonempty newline-free run
still separates the position from the closing quote. -/
theorem matchDescTail_blocked {u Y : List Char} {q : Char}
    (hne : u ≠ []) (hu : ∀ c ∈ u, ¬c = '\n') (hq : isQuote q = true) :
    matchDescTail (u ++ q :: Y) = false := by
  cases u with
  | nil => exact absurd rfl hne
  | cons c utl =>
      simp only [List.cons_append, matchDescTail]
      rw [matchWsEol_blocked (fun x hx => hu x (List.mem_cons_of_mem _ hx)) hq]
      rw [show (c :: (utl ++ q :: Y)) = ((c :: utl) ++ q :: Y) from rfl,
        matchWsEol_blocked hu hq]
      simp

/-- The lazy group stops exactly at the closing quote, whether the
line ends the block or further lines follow: every shorter capture
leaves a tail blocked by the closing quote, and the capture of the
full value succeeds. -/
theorem tryLazy_reach_gen {v Y : List Char} {q : Char}
    (hnl : ∀ c ∈ v, ¬c = '\n') (hq : isQuote q = true)
    (hY : Y = [] ∨ ∃ r, Y = '\n' :: r) :
    ∀ (fuel C : Nat), 1 ≤ C → C ≤ v.length → C + fuel = v.length + 1 →
    tryLazy (v ++ q :: Y) C fuel = some v := by
  have htail : matchDescTail (q :: Y) = true := by
    have hwsY : matchWsEol Y = true := by
      rcases hY with rfl | ⟨r, rfl⟩
      · rfl
      · simp [matchWsEol]
    simp only [matchDescTail, hq, hwsY, Bool.and_self, Bool.true_or]
  intro fuel
  induction fuel with
  | zero =>
      intro C h1 h2 h3
      exfalso
      omega
  | succ k ih =>
      intro C h1 h2 h3
      by_cases hC : C = v.length
      · subst hC
        simp only [tryLazy]
        rw [List.drop_left, htail, if_pos rfl, List.take_left]
      · have hlt : C < v.length := by omega
        simp only [tryLazy]
        rw [drop_append_le _ _ (by omega)]
        have hdne : v.drop C ≠ [] := by
          intro hdrop
          have := congrArg List.length hdrop
          simp at this
          omega
        rw [matchDescTail_blocked hdne
          (fun x hx => hnl x (List.mem_of_mem_drop hx)) hq]
        simp only [Bool.false_eq_true, if_false]
        exact ih (C + 1) (by omega) (by omega) (by omega)

/-- The lazy quoted-description match at a fixed position, for either
quote character and any continuation of the block: the opening quote
is consumed and the capture is the text inside the quotes. -/
theorem matchDescAt_gen {v Y : List Char} {q : Char}
    (hv : ∀ c ∈ v, ¬c = '\n') (hvne : v ≠ []) (hq : isQuote q = true)
    (hY : Y = [] ∨ ∃ r, Y = '\n' :: r) :
    matchDescAt (q :: (v ++ q :: Y)) = some v := by
  have htake : ((v ++ q :: Y).takeWhile (fun c => c != '\n')) = v ++ [q] := by
    rcases hY with rfl | ⟨r, rfl⟩
    · refine takeWhile_all_of ?_
      intro c hc
      rcases List.mem_append.mp hc with hcv | hcq
      · simpa using hv c hcv
      · rw [List.mem_singleton] at hcq
        subst hcq
        simpa using isQuote_not_nl hq
    · rw [show (v ++ q :: '\n' :: r) = ((v ++ [q]) ++ '\n' :: r) from by
        simp [List.append_assoc]]
      refine takeWhile_ne_nl_append _ ?_
      intro c hc
      rcases List.mem_append.mp hc with hcv | hcq
      · exact hv c hcv
      · rw [List.mem_singleton] at hcq
        subst hcq
        exact isQuote_not_nl hq
  have hvpos : 1 ≤ v.length := by
    cases v with
    | nil => exact absurd rfl hvne
    | cons c tl => simp
  unfold matchDescAt
  simp only [hq, if_true, htake]
  rw [List.length_append, List.length_singleton]
  rw [if_neg (by omega : ¬(v.length + 1 = 0))]
  rw [Nat.add_sub_cancel]
  rw [tryLazy_reach_gen hv hq hY v.length 1 (by omega) hvpos (by omega)]

/-- The ws-star backtracking of the name pattern succeeds as soon as
the try after the full whitespace run succeeds. -/
theorem nameFrom_hit {t g : List Char} :
    ∀ {k : Nat}, matchDotPlus (t.drop k) = some g → nameFrom t k = some g := by
  intro k h
  cases k with
  | zero =>
      rw [List.drop_zero] at h
      simpa [nameFrom] using h
  | succ a =>
      simp only [nameFrom]
      rw [h]

/-- The ws-star backtracking of the description pattern succeeds as
soon as the try after the full whitespace run succeeds. -/
theorem descFrom_hit {t g : List Char} :
    ∀ {k : Nat}, matchDescAt (t.drop k) = some g → descFrom t k = some g := by
  intro k h
  cases k with
  | zero =>
      rw [List.drop_zero] at h
      simpa [descFrom] using h
  | succ a =>
      simp only [descFrom]
      rw [h]

/-- The name value matcher on an arbitrary line: a leading whitespace
run, then a nonempty newline-free value starting with a
non-whitespace character, captures the whole value — quotes included,
since the name pattern has no quote atoms — whether the line ends the
block or further lines follow. -/
theorem matchNameVal_general {a w Y : List Char}
    (ha : ∀ c ∈ a, wsChar c = true)
    (hw : ∀ c ∈ w, ¬c = '\n') (hwne : w ≠ [])
    (hwhead : ∀ c u, w = c :: u → wsChar c = false)
    (hY : Y = [] ∨ ∃ r, Y = '\n' :: r) :
    matchNameVal (a ++ (w ++ Y)) = some w := by
  obtain ⟨c0, w2, rfl⟩ : ∃ c0 w2, w = c0 :: w2 := by
    cases w with
    | nil => exact absurd rfl hwne
    | cons c0 w2 => exact ⟨c0, w2, rfl⟩
  have hc0 : wsChar c0 = false := hwhead c0 w2 rfl
  have htw : (a ++ ((c0 :: w2) ++ Y)).takeWhile wsChar = a := by
    rw [takeWhile_append_all _ ha]
    rw [show ((c0 :: w2) ++ Y) = c0 :: (w2 ++ Y) from rfl]
    rw [List.takeWhile_cons_of_neg (by simp [hc0])]
    simp
  unfold matchNameVal
  rw [htw]
  refine nameFrom_hit ?_
  rw [List.drop_left]
  simp only [matchDotPlus]
  have htk : (((c0 :: w2) ++ Y).takeWhile (fun c => c != '\n')) = c0 :: w2 := by
    rcases hY with rfl | ⟨r, rfl⟩
    · rw [List.append_nil]
      refine takeWhile_all_of ?_
      intro c hc
      simpa using hw c hc
    · exact takeWhile_ne_nl_append _ hw
  rw [htk]
  simp

/-- The description value matcher on an arbitrary line: a leading
whitespace run, then a value surrounded by single or double quotes,
captures the text inside the quotes — the optional quote atoms
consume them — whether the line ends the block or further lines
follow. -/
theorem matchDescVal_general {a v Y : List Char} {q : Char}
    (ha : ∀ c ∈ a, wsChar c = true) (hq : isQuote q = true)
    (hv : ∀ c ∈ v, ¬c = '\n') (hvne : v ≠ [])
    (hY : Y = [] ∨ ∃ r, Y = '\n' :: r) :
    matchDescVal (a ++ (q :: (v ++ q :: Y))) = some v := by
  have htw : (a ++ (q :: (v ++ q :: Y))).takeWhile wsChar = a := by
    rw [takeWhile_append_all _ ha]
    rw [List.takeWhile_cons_of_neg (by simp [isQuote_not_ws hq])]
    simp
  unfold matchDescVal
  rw [htw]
  refine descFrom_hit ?_
  rw [List.drop_left]
  exact matchDescAt_gen hv hvne hq hY

/-- Trimming fixes a list whose two ends are non-whitespace. -/
theorem jsTrim_ends {c c2 : Char} (l : List Char)
    (h1 : wsChar c = false) (h2 : wsChar c2 = false) :
    jsTrim (c :: (l ++ [c2])) = c :: (l ++ [c2]) := by
  unfold jsTrim
  rw [List.dropWhile_cons_of_neg (by simp [h1])]
  rw [show (c :: (l ++ [c2])).reverse = c2 :: (l.reverse ++ [c]) from by simp]
  rw [List.dropWhile_cons_of_neg (by simp [h2])]
  rw [show (c2 :: (l.reverse ++ [c])).reverse = c :: (l ++ [c2]) from by simp]

/-- C5 (amended): in any frontmatter block, on the first line starting
with the key (any preceding lines, any following lines, any
whitespace run after the key, either quote character), a fully quoted
name value keeps its surrounding quotes — the name pattern has no
quote atoms — while a fully quoted description value loses them: the
optional quote atoms of the description pattern consume the quotes
around the lazy capture. -/
theorem C5_quote_amended (dirName content : String) {fm : List Char}
    (hfm : extractFrontmatter content.toList = some fm) :
    (∀ (pre rest : List (List Char)) (a v : List Char) (q : Char),
      splitNl fm = pre ++ ("name:".toList ++ (a ++ (q :: (v ++ [q])))) :: rest →
      (∀ l ∈ pre, ("name:".toList).isPrefixOf l = false) →
      (∀ c ∈ a, wsChar c = true) → isQuote q = true →
      (parseSkillMetadata dirName content).1 = String.mk (q :: (v ++ [q]))) ∧
    (∀ (pre rest : List (List Char)) (a v : List Char) (q : Char),
      splitNl fm = pre ++
        ("description:".toList ++ (a ++ (q :: (v ++ [q])))) :: rest →
      (∀ l ∈ pre, ("description:".toList).isPrefixOf l = false) →
      (∀ c ∈ a, wsChar c = true) → isQuote q = true → ¬v = [] →
      (parseSkillMetadata dirName content).2 = String.mk (jsTrim v)) := by
  constructor
  · intro pre rest a v q hsplit hpre ha hq
    have hline : ("name:".toList ++ (a ++ (q :: (v ++ [q])))) ∈ splitNl fm := by
      rw [hsplit]
      exact List.mem_append.mpr (Or.inr (List.mem_cons_self _ _))
    have hlinenl := mem_splitNl_noNl hline
    have hw : ∀ c ∈ (q :: (v ++ [q])), ¬c = '\n' := by
      intro c hc
      exact hlinenl c (List.mem_append.mpr (Or.inr (List.mem_append.mpr
        (Or.inr hc))))
    have hscan : scanKeyed "name:".toList matchNameVal fm =
        some (q :: (v ++ [q])) := by
      refine scanKeyed_first_match (by decide) pre hsplit hpre ?_
      rw [show ((a ++ (q :: (v ++ [q]))) ++ lineSep rest) =
          a ++ ((q :: (v ++ [q])) ++ lineSep rest) from by
        rw [List.append_assoc]]
      refine matchNameVal_general ha hw (by simp) ?_ (lineSep_shape rest)
      intro c u hcu
      injection hcu with hcu1 hcu2
      subst hcu1
      exact isQuote_not_ws hq
    rw [parseSkillMetadata_some hfm, hscan]
    show String.mk (jsTrim (q :: (v ++ [q]))) = String.mk (q :: (v ++ [q]))
    rw [jsTrim_ends v (isQuote_not_ws hq) (isQuote_not_ws hq)]
  · intro pre rest a v q hsplit hpre ha hq hvne
    have hline : ("description:".toList ++ (a ++ (q :: (v ++ [q])))) ∈
        splitNl fm := by
      rw [hsplit]
      exact List.mem_append.mpr (Or.inr (List.mem_cons_self _ _))
    have hlinenl := mem_splitNl_noNl hline
    have hv : ∀ c ∈ v, ¬c = '\n' := by
      intro c hc
      exact hlinenl c (List.mem_append.mpr (Or.inr (List.mem_append.mpr
        (Or.inr (List.mem_cons_of_mem _ (List.mem_append.mpr (Or.inl hc)))))))
    have hscan : scanKeyed "description:".toList matchDescVal fm = some v := by
      refine scanKeyed_first_match (by decide) pre hsplit hpre ?_
      rw [show ((a ++ (q :: (v ++ [q]))) ++ lineSep rest) =
          a ++ (q :: (v ++ q :: lineSep rest)) from by
        simp [List.append_assoc]]
      exact matchDescVal_general ha hq hv hvne (lineSep_shape rest)
    rw [parseSkillMetadata_some hfm, hscan]

/-- Witness for C5: a four-line block with surrounding lines, a
double-quoted name and a single-quoted description — the name keeps
its quotes, the description loses them. -/
theorem C5_quote_amended_witness :
    (parseSkillMetadata "dir" (String.mk
        ("---\ntitle: t\nname: \"hi\"\ndescription: ".toList ++
          (Char.ofNat 39 :: ("a b".toList ++ [Char.ofNat 39])) ++
          "\nextra: 1\n---\nbody".toList))).1 =
      String.mk ('"' :: ("hi".toList ++ ['"'])) ∧
    (parseSkillMetadata "dir" (String.mk
        ("---\ntitle: t\nname: \"hi\"\ndescription: ".toList ++
          (Char.ofNat 39 :: ("a b".toList ++ [Char.ofNat 39])) ++
          "\nextra: 1\n---\nbody".toList))).2 =
      String.mk (jsTrim "a b".toList) := by
  have hfm : extractFrontmatter (String.mk
      ("---\ntitle: t\nname: \"hi\"\ndescription: ".toList ++
        (Char.ofNat 39 :: ("a b".toList ++ [Char.ofNat 39])) ++
        "\nextra: 1\n---\nbody".toList)).toList =
      some ("title: t\nname: \"hi\"\ndescription: ".toList ++
        (Char.ofNat 39 :: ("a b".toList ++ [Char.ofNat 39])) ++
        "\nextra: 1".toList) := by decide
  exact ⟨(C5_quote_amended "dir" _ hfm).1
      ["title: t".toList]
      [("description:".toList ++ ([' '] ++
          (Char.ofNat 39 :: ("a b".toList ++ [Char.ofNat 39])))),
        "extra: 1".toList]
      [' '] "hi".toList '"'
      (by decide) (by decide) (by decide) (by decide),
    (C5_quote_amended "dir" _ hfm).2
      ["title: t".toList, "name: \"hi\"".toList]
      ["extra: 1".toList]
      [' '] "a b".toList (Char.ofNat 39)
      (by decide) (by decide) (by decide) (by decide) (by decide)⟩

end SyncStats
